import Mathlib

/-!
# Morphological database and grammar table of `idiot` (`morph.go`, `data.go`)

A shallow embedding of the database builder (`parseMorphLines`, `BuildMorphDb`),
the loader (`InitMorph`, `FinalizeMorph`), the lookup (`getMorphEntryText`,
`getMorphEntryMatch`, `FindTerminals`) and the grammar table (`nonterminals`,
`FindNonterminalRules`), followed by theorems about them.

Conventions of the embedding:
* a Go `string` / `[]byte` is a list of bytes, each byte a natural number;
* `uint32` and `uint8` arithmetic is arithmetic on `Nat` reduced `% 2^32` / `% 256`;
* a run-time panic (index or slice bounds out of range) is `none`;
* loops run on fuel; the fuel handed over by the callers is proved sufficient;
* one `Read` of a regular file returns the bytes available, at most `maxRW = 2^30`.
-/

namespace Morph

/-- A Go string, as its sequence of bytes. -/
abbrev GoString := List Nat

/-- The bytes of an ASCII literal. -/
def ascii (s : String) : GoString := s.toList.map Char.toNat

/-- Go's `a <= b` on strings: byte-wise lexicographic order, a proper prefix
being smaller. -/
def strLe : GoString → GoString → Bool
  | [], _ => true
  | _ :: _, [] => false
  | a :: as, b :: bs => if a < b then true else if b < a then false else strLe as bs

/-- Go's `a >= b` on strings. -/
def strGe (a b : GoString) : Bool := strLe b a

/-- `strings.HasPrefix(s, p)`. -/
def HasPrefix : GoString → GoString → Bool
  | _, [] => true
  | [], _ :: _ => false
  | a :: as, b :: bs => if a = b then HasPrefix as bs else false

/-- `strings.Index(s, "\x00")` generalised to one byte `c`: the first position of
`c` in `s`, or `-1`. -/
def IndexByte (c : Nat) : GoString → Int
  | [] => -1
  | b :: bs => if b = c then 0 else
      let r := IndexByte c bs
      if r = -1 then -1 else r + 1

/-- `strings.Split(s, sep)` for a one-byte separator. -/
def Split (sep : Nat) : GoString → List GoString
  | [] => [[]]
  | c :: cs =>
    if c = sep then [] :: Split sep cs
    else
      match Split sep cs with
      | [] => [[c]]
      | h :: t => (c :: h) :: t

/-- `strings.FieldsFunc(s, f)`: the maximal runs of bytes on which `f` is false.
The separators used by the program (`,` and space) are ASCII, and an ASCII byte
is always decoded as a rune of its own, so the rune-wise split of Go is this
byte-wise split. -/
def FieldsFunc (f : Nat → Bool) : GoString → List GoString
  | [] => []
  | c :: cs =>
    if f c then FieldsFunc f cs
    else
      match cs with
      | [] => [[c]]
      | d :: _ =>
        if f d then [c] :: FieldsFunc f cs
        else
          match FieldsFunc f cs with
          | [] => [[c]]
          | h :: t => (c :: h) :: t

/-! ## Constants and records -/

def morphDbMagic : Nat := 0xFC1290C8

def morphPosValues : List GoString :=
  [ascii "noun", ascii "advb", ascii "adjf", ascii "adjs", ascii "comp", ascii "verb",
   ascii "infn", ascii "prtf", ascii "prts", ascii "grnd", ascii "conj", ascii "intj",
   ascii "prcl", ascii "prep", ascii "pred", ascii "numr", ascii "npro"]

def morphNumberValues : List GoString := [ascii "sing", ascii "plur"]

def morphCaseValues : List GoString :=
  [ascii "nomn", ascii "gent", ascii "gen1", ascii "gen2", ascii "datv", ascii "accs",
   ascii "ablt", ascii "loct", ascii "loc1", ascii "loc2", ascii "voct"]

structure morphDbHeader where
  magic : Nat
  text_size : Nat
  entries_size : Nat
  reserved : Nat
  deriving DecidableEq, Repr

structure morphDbEntry where
  text : Nat
  pos : Nat
  number : Nat
  case_ : Nat
  reserved : Nat
  deriving DecidableEq, Repr

/-- The `Attribute` record of the parser (`Name`, `Value`). -/
structure Attribute where
  Name : GoString
  Value : GoString
  deriving DecidableEq, Repr

/-- The `ParseMatch` record of the parser (`Text`, `Attributes`). -/
structure ParseMatch where
  Text : GoString
  Attributes : List Attribute
  deriving DecidableEq, Repr

/-! ## Tag recognition -/

/-- The loop of `findString`, `i` being the index of the head of the list. -/
def findStringFrom (str : GoString) : List GoString → Nat → Int
  | [], _ => -1
  | s :: rest, i => if s = str then (i : Int) else findStringFrom str rest (i + 1)

def findString (strs : List GoString) (str : GoString) : Int :=
  findStringFrom str strs 0

/-- The conversion `uint8(i)`. -/
def uint8 (i : Int) : Nat := (i % 256).toNat

def updateMorphDbEntry (entry : morphDbEntry) (value : GoString) : morphDbEntry :=
  if findString morphPosValues value ≠ -1 then
    { entry with pos := uint8 (findString morphPosValues value + 1) }
  else if findString morphNumberValues value ≠ -1 then
    { entry with number := uint8 (findString morphNumberValues value + 1) }
  else if findString morphCaseValues value ≠ -1 then
    { entry with case_ := uint8 (findString morphCaseValues value + 1) }
  else entry

/-! ## The loaded database and its lookup -/

/-- The package variables `morphText` and `morphEntries`; `none` is Go's `nil`
slice. -/
structure MorphState where
  morphText : GoString
  morphEntries : Option (List morphDbEntry)
  deriving DecidableEq, Repr

/-- The elements of `morphEntries` (a `nil` slice has none). -/
def MorphState.entries (st : MorphState) : List morphDbEntry :=
  st.morphEntries.getD []

def FinalizeMorph (_st : MorphState) : MorphState :=
  { morphText := [], morphEntries := none }

/-- `getMorphEntryText(i)`. The slice expressions fail when the offset lies
beyond the text or when no terminator follows it (`strings.Index` returns `-1`
and the upper bound `from-1` is below the lower bound). -/
def getMorphEntryText (st : MorphState) (i : Nat) : Option GoString :=
  match st.entries[i]? with
  | none => none
  | some e =>
    if e.text ≤ st.morphText.length then
      let len := IndexByte 0 (st.morphText.drop e.text)
      if len < 0 then none
      else some ((st.morphText.drop e.text).take len.toNat)
    else none

/-- One step `if field > 0 { value := values[field-1]; attrs = append(attrs,
Attribute{Name: name, Value: value}) }` of `getMorphEntryMatch`; indexing past
the enumeration panics. -/
def appendAttr (attrs : List Attribute) (name : GoString) (values : List GoString)
    (field : Nat) : Option (List Attribute) :=
  if field > 0 then
    match values[field - 1]? with
    | none => none
    | some value => some (attrs ++ [{ Name := name, Value := value }])
  else some attrs

/-- `getMorphEntryMatch(i)`. -/
def getMorphEntryMatch (st : MorphState) (i : Nat) : Option ParseMatch :=
  match st.entries[i]? with
  | none => none
  | some e =>
    (appendAttr [] (ascii "pos") morphPosValues e.pos).bind fun attrs =>
    (appendAttr attrs (ascii "number") morphNumberValues e.number).bind fun attrs =>
    (appendAttr attrs (ascii "case") morphCaseValues e.case_).bind fun attrs =>
    (getMorphEntryText st i).bind fun text =>
    some { Text := text, Attributes := attrs }

/-- The loop of Go's `sort.Search` (standard library): `i, j := 0, n`, then while
`i < j` the midpoint `h` is probed and `i = h+1` or `j = h` is taken. `none` is
a panic of the probe, or fuel run out. -/
def searchLoop (f : Nat → Option Bool) : Nat → Nat → Nat → Option Nat
  | 0, _, _ => none
  | fuel + 1, i, j =>
    if i < j then
      let h := (i + j) / 2
      match f h with
      | none => none
      | some false => searchLoop f fuel (h + 1) j
      | some true => searchLoop f fuel i h
    else some i

/-- `sort.Search(n, f)`. For `n ≤ 0` the loop guard fails at once and the result
is `0`, which is what the loop does with `j = 0`. -/
def Search (n : Int) (f : Nat → Option Bool) : Option Nat :=
  searchLoop f (n.toNat + 1) 0 n.toNat

/-- The two `for` loops of `FindTerminals`: from `i`, while `i < len(morphEntries)`
and `cond (getMorphEntryText i)`, append `getMorphEntryMatch i`. -/
def collectLoop (st : MorphState) (cond : GoString → Bool) :
    Nat → Nat → List ParseMatch → Option (List ParseMatch)
  | 0, _, _ => none
  | fuel + 1, i, found =>
    if i < st.entries.length then
      match getMorphEntryText st i with
      | none => none
      | some t =>
        if cond t then
          match getMorphEntryMatch st i with
          | none => none
          | some m => collectLoop st cond fuel (i + 1) (found ++ [m])
        else some found
    else some found

def FindTerminals (st : MorphState) (pfx separator : GoString) :
    Option (List ParseMatch) := do
  let index ← Search st.entries.length
    (fun i => (getMorphEntryText st i).map (fun t => strGe t pfx))
  let found ← collectLoop st (fun t => decide (t = pfx)) (st.entries.length + 1) index []
  if separator.length = 0 then
    some found
  else
    let pfx2 := pfx ++ separator
    let k ← Search ((st.entries.length : Int) - index - 1)
      (fun i => (getMorphEntryText st (index + i + 1)).map (fun t => strGe t pfx2))
    let index2 := index + k + 1
    collectLoop st (fun t => HasPrefix t pfx2) (st.entries.length + 1) index2 found

/-! ## The file layout -/

/-- The conversion `uint32(n)`. -/
def uint32 (n : Nat) : Nat := n % 2 ^ 32

/-- The four bytes of a `uint32` in memory (little-endian, the byte order of the
machines the program is built for). -/
def uint32ToBytes (x : Nat) : List Nat :=
  [x % 256, x / 256 % 256, x / 65536 % 256, x / 16777216 % 256]

/-- The `uint32` held by four bytes of memory. -/
def bytesToUint32 (b0 b1 b2 b3 : Nat) : Nat :=
  b0 + 256 * b1 + 65536 * b2 + 16777216 * b3

/-- The memory of one `morphDbEntry` (8 bytes). -/
def castMorphDbEntryToBytes (e : morphDbEntry) : List Nat :=
  uint32ToBytes e.text ++ [e.pos, e.number, e.case_, e.reserved]

/-- `castMorphDbEntriesToBytes`: the memory of the slice, entry after entry. -/
def castMorphDbEntriesToBytes : List morphDbEntry → List Nat
  | [] => []
  | e :: rest => castMorphDbEntryToBytes e ++ castMorphDbEntriesToBytes rest

/-- `castMorphDbHeaderToBytes`: the 16 bytes of the header. -/
def castMorphDbHeaderToBytes (h : morphDbHeader) : List Nat :=
  uint32ToBytes h.magic ++ uint32ToBytes h.text_size ++ uint32ToBytes h.entries_size
    ++ uint32ToBytes h.reserved

/-- The header whose memory is the given 16-byte buffer (the reading direction
of `castMorphDbHeaderToBytes`). -/
def bytesToMorphDbHeader (buf : List Nat) : morphDbHeader :=
  { magic := bytesToUint32 (buf.getD 0 0) (buf.getD 1 0) (buf.getD 2 0) (buf.getD 3 0),
    text_size := bytesToUint32 (buf.getD 4 0) (buf.getD 5 0) (buf.getD 6 0) (buf.getD 7 0),
    entries_size := bytesToUint32 (buf.getD 8 0) (buf.getD 9 0) (buf.getD 10 0) (buf.getD 11 0),
    reserved := bytesToUint32 (buf.getD 12 0) (buf.getD 13 0) (buf.getD 14 0) (buf.getD 15 0) }

/-- The entries whose memory is the given buffer, 8 bytes each (the reading
direction of `castMorphDbEntriesToBytes`). -/
def bytesToMorphDbEntries : List Nat → List morphDbEntry
  | b0 :: b1 :: b2 :: b3 :: p :: n :: c :: r :: rest =>
    { text := bytesToUint32 b0 b1 b2 b3, pos := p, number := n, case_ := c, reserved := r }
      :: bytesToMorphDbEntries rest
  | _ => []

/-! ## Building the database -/

def findMorphDbEntryFrom (entry : morphDbEntry) : List morphDbEntry → Nat → Int
  | [], _ => -1
  | e :: rest, i => if e = entry then (i : Int) else findMorphDbEntryFrom entry rest (i + 1)

def findMorphDbEntry (entries : List morphDbEntry) (entry : morphDbEntry) : Int :=
  findMorphDbEntryFrom entry entries 0

/-- The local variables of `parseMorphLines`, and the bytes handed to the
writer by `writer.WriteString(text)`. -/
structure ParseState where
  prevText : GoString
  prevEntries : List morphDbEntry
  prevTsize : Nat
  tsize : Nat
  esize : Nat
  entries : List morphDbEntry
  written : GoString
  deriving DecidableEq, Repr

def parseInit : ParseState :=
  { prevText := [], prevEntries := [], prevTsize := 0, tsize := 0, esize := 0,
    entries := [], written := [] }

/-- The separator test handed to `strings.FieldsFunc`: `,` or space. -/
def isTagSeparator (r : Nat) : Bool := r = 44 || r = 32

/-- The part of the loop body of `parseMorphLines` that runs when the word
changes (`text != prevText`). -/
def startWord (st : ParseState) (text : GoString) : ParseState :=
  if text ≠ st.prevText then
    { st with
      written := st.written ++ text,
      prevTsize := st.tsize,
      tsize := uint32 (st.tsize + uint32 text.length),
      prevText := text,
      prevEntries := [] }
  else st

/-- The entry built for a line: `morphDbEntry{text: prevTsize}` updated with
every field of the tag list. -/
def lineEntry (prevTsize : Nat) (tags : GoString) : morphDbEntry :=
  (FieldsFunc isTagSeparator tags).foldl updateMorphDbEntry
    { text := prevTsize, pos := 0, number := 0, case_ := 0, reserved := 0 }

/-- The statements `split := strings.Split(l, "\t")` and `if len(split) < 2`:
the word `split[0]` and the tag list `split[1]` of a line that holds a tab. -/
def parseLine (l : GoString) : Option (GoString × GoString) :=
  match Split 9 l with
  | word :: tags :: _ => some (word, tags)
  | _ => none

/-- The loop body of `parseMorphLines` on a line with the given word and tag
list. -/
def addLine (st : ParseState) (word tags : GoString) : ParseState :=
  let st := startWord st (word ++ [0])
  let entry := lineEntry st.prevTsize tags
  if findMorphDbEntry st.prevEntries entry = -1 then
    { st with
      entries := st.entries ++ [entry],
      esize := uint32 (st.esize + 8),
      prevEntries := st.prevEntries ++ [entry] }
  else st

/-- One iteration of the loop of `parseMorphLines` on the line `l`. -/
def parseStep (st : ParseState) (l : GoString) : ParseState :=
  match parseLine l with
  | some (word, tags) => addLine st word tags
  | none => st

/-- The state of `parseMorphLines` after its loop. -/
def parseLoop (lines : List GoString) : ParseState :=
  lines.foldl parseStep parseInit

/-- `parseMorphLines`: the returned `tsize` and `esize`, and the bytes written
(the text blob, then the entry table). Write errors are not modelled. -/
def parseMorphLines (lines : List GoString) : Nat × Nat × List Nat :=
  let st := parseLoop lines
  (st.tsize, st.esize, st.written ++ castMorphDbEntriesToBytes st.entries)

/-- `sort.Strings`: the lines in increasing order. The order on strings is total
and antisymmetric, so the sorted arrangement of a list is unique, whichever
algorithm produces it. -/
def sortStrings (lines : List GoString) : List GoString :=
  lines.insertionSort (fun a b => strLe a b = true)

/-- The lines handed to `parseMorphLines` by `BuildMorphDb`, `ToLower` being
`strings.ToLower` of the standard library (a parameter of the model). -/
def buildLines (ToLower : GoString → GoString) (content : GoString) : List GoString :=
  sortStrings (Split 10 (ToLower content))

/-- `BuildMorphDb`, as the content of the database file it leaves when every file
operation succeeds: the payload written from offset 16, then the header written
at offset 0. -/
def BuildMorphDb (ToLower : GoString → GoString) (content : GoString) : List Nat :=
  let r := parseMorphLines (buildLines ToLower content)
  castMorphDbHeaderToBytes
      { magic := morphDbMagic, text_size := r.1, entries_size := r.2.1, reserved := 0 }
    ++ r.2.2

/-- What `strings.ToLower` does on a string that is valid UTF-8 and whose only
upper-case letters are ASCII (its other runes having no lower-case mapping):
`A`-`Z` become `a`-`z`, every other byte stays. It is not `strings.ToLower` on
other strings (an upper-case Cyrillic letter, an invalid byte), and is used only
to evaluate the build on inputs of the first kind; the theorems about the build
take `ToLower` as a parameter. -/
def asciiToLower (s : GoString) : GoString :=
  s.map (fun b => if 65 ≤ b ∧ b ≤ 90 then b + 32 else b)

/-! ## Loading the database -/

/-- An open file: its content and the read position. -/
structure File where
  content : List Nat
  pos : Nat
  deriving DecidableEq, Repr

/-- The most one call of `os.File.Read` hands over: the buffer is cut to
`maxRW = 1 << 30` bytes before the system call. -/
def maxRW : Nat := 2 ^ 30

/-- `f.Read(buf)` with `len(buf) = n` on a regular file: the bytes available from
the position, at most `n` and at most `maxRW`, are copied to the front of the
(zeroed) buffer. The result is the buffer, the count read and the file
advanced. -/
def File.Read (f : File) (n : Nat) : List Nat × Nat × File :=
  let got := (f.content.drop f.pos).take (min n maxRW)
  (got ++ List.replicate (n - got.length) 0, got.length, { f with pos := f.pos + got.length })

/-- `InitMorph`. The argument is what `os.Open` gives: an error, or the content
of the file. The result is the returned error (`none` for `nil`) and the package
variables after the call. -/
def InitMorph (st : MorphState) (opened : Except String (List Nat)) :
    Option String × MorphState :=
  let st := FinalizeMorph st
  match opened with
  | .error err => (some err, st)
  | .ok content =>
    let db : File := { content := content, pos := 0 }
    let r := db.Read 16
    let header := bytesToMorphDbHeader r.1
    let db := r.2.2
    if header.magic ≠ morphDbMagic then (some "bad file magic", st)
    else
      let r := db.Read header.text_size
      let text := r.1
      let db := r.2.2
      if uint32 r.2.1 < header.text_size then (some "unexpected end of file", st)
      else
        let esize := 8
        let r := db.Read (header.entries_size / esize * 8)
        let entries := bytesToMorphDbEntries r.1
        if uint32 r.2.1 < header.entries_size then (some "unexpected end of file", st)
        else (none, { morphText := text, morphEntries := some entries })

/-! ## Vocabulary of the statements about the lookup -/

/-- The matches of the entries at the given indices, in that order; `none` when
one of them cannot be decoded. -/
def decodeAll (st : MorphState) : List Nat → Option (List ParseMatch)
  | [] => some []
  | i :: rest =>
    match getMorphEntryMatch st i with
    | none => none
    | some m => (decodeAll st rest).map (fun ms => m :: ms)

/-- Whether the texts of entries `i` and `j` are both defined and in order. -/
def textLe (st : MorphState) (i j : Nat) : Bool :=
  match getMorphEntryText st i, getMorphEntryText st j with
  | some a, some b => strLe a b
  | _, _ => false

/-- The entry table is sorted by referenced text: every entry has a text, and
for `i < j` the text of entry `i` is `<=` the text of entry `j`. -/
def SortedByText (st : MorphState) : Prop :=
  (∀ i, i < st.entries.length → (getMorphEntryText st i).isSome = true) ∧
  (∀ j, j < st.entries.length → ∀ i, i < j → textLe st i j = true)

instance (st : MorphState) : Decidable (SortedByText st) := by
  unfold SortedByText; infer_instance

/-- Every entry of the table decodes to a match. -/
def Decodable (st : MorphState) : Prop :=
  ∀ i, i < st.entries.length → (getMorphEntryMatch st i).isSome = true

instance (st : MorphState) : Decidable (Decodable st) := by
  unfold Decodable; infer_instance

/-- Whether entry `i` has a text and that text satisfies `cond`. -/
def textCond (st : MorphState) (cond : GoString → Bool) (i : Nat) : Bool :=
  match getMorphEntryText st i with
  | some t => cond t
  | none => false

/-- The indices of the entries whose text satisfies `cond`, in table order, each
once. -/
def indicesWhere (st : MorphState) (cond : GoString → Bool) : List Nat :=
  (List.range st.entries.length).filter (textCond st cond)

/-! ## Example data -/

/-- The UTF-8 bytes of the word "дом". -/
def dom : GoString := [0xD0, 0xB4, 0xD0, 0xBE, 0xD0, 0xBC]

/-- The UTF-8 bytes of the word "домик". -/
def domik : GoString := dom ++ [0xD0, 0xB8, 0xD0, 0xBA]

/-- A loaded database with two readings of "дом" and one of "домик". -/
def exampleDb : MorphState :=
  { morphText := dom ++ [0] ++ domik ++ [0],
    morphEntries := some [⟨0, 1, 1, 1, 0⟩, ⟨0, 1, 1, 6, 0⟩, ⟨7, 1, 1, 1, 0⟩] }

/-- The two readings of "дом" in `exampleDb`. -/
def exampleDomMatches : List ParseMatch :=
  [ { Text := dom, Attributes := [⟨ascii "pos", ascii "noun"⟩, ⟨ascii "number", ascii "sing"⟩,
        ⟨ascii "case", ascii "nomn"⟩] },
    { Text := dom, Attributes := [⟨ascii "pos", ascii "noun"⟩, ⟨ascii "number", ascii "sing"⟩,
        ⟨ascii "case", ascii "accs"⟩] } ]

/-- The result the multi-token lookup is described to give: the entries whose
text equals `p`, followed by the entries whose text starts with `p ++ s`, in
table order. -/
def multiTokenExpected (st : MorphState) (p s : GoString) : Option (List ParseMatch) :=
  decodeAll st (indicesWhere st (fun t => decide (t = p))
    ++ indicesWhere st (fun t => HasPrefix t (p ++ s)))

/-- A sorted database holding the two-token items "a b" and "a c" and no item "a". -/
def idiomDb : MorphState :=
  { morphText := ascii "a b" ++ [0] ++ ascii "a c" ++ [0],
    morphEntries := some [⟨0, 1, 0, 0, 0⟩, ⟨4, 1, 0, 0, 0⟩] }

/-- A lexicon of two words, "a" and "a" followed by the byte 0x01. -/
def controlLexicon : GoString := ascii "a\tnoun\na\x01\tnoun"

/-- The package variables after `BuildMorphDb` on the lexicon `content` and
`InitMorph` on the file it wrote. -/
def buildThenLoad (ToLower : GoString → GoString) (content : GoString) :
    Option String × MorphState :=
  InitMorph { morphText := [], morphEntries := none } (.ok (BuildMorphDb ToLower content))

/-- The four bytes of the magic number, as they stand at the head of a database
file. -/
def magicBytes : List Nat := [0xC8, 0x90, 0x12, 0xFC]

/-- The attribute emitted for a 1-based field of an entry: none for `0`,
otherwise the one named `name` whose value is the tag at index `field - 1`. -/
def attributeOf (name : GoString) (values : List GoString) (field : Nat) : List Attribute :=
  if field = 0 then [] else [{ Name := name, Value := values.getD (field - 1) [] }]

/-! ## Vocabulary of the statements about the build -/

/-- The text blob holding the given words, each followed by one 0x00. -/
def textBlob : List GoString → GoString
  | [] => []
  | w :: ws => w ++ [0] ++ textBlob ws

/-- The offset of the word `w` in `textBlob words`: the length of what stands
before its first occurrence. -/
def wordOffset : List GoString → GoString → Nat
  | [], _ => 0
  | x :: xs, w => if x = w then 0 else x.length + 1 + wordOffset xs w

/-- The order of words induced by the order of whole lines: words compared with
the tab that follows them. -/
def keyLe (a b : GoString) : Bool := strLe (a ++ [9]) (b ++ [9])

/-- The lines of a lexicon that hold a tab, as (word, tag list) pairs. -/
def lineRecords (lines : List GoString) : List (GoString × GoString) :=
  lines.filterMap parseLine

/-- What the loop of `parseMorphLines` maintains. After the records `pre`, in
the state `st`, with `E` the words written so far and `T` the entries appended
so far, each paired with the word of the line it was built from: the blob is
the words of `E`, each once; the table is `T`; every entry of `T` is the entry
of a line of `pre`, at the offset of its word; every line of `pre` has its
entry in `T`; no pair occurs twice; and the entries stand in the order of their
lines. -/
structure BuildInv (pre : List (GoString × GoString)) (st : ParseState)
    (E : List GoString) (T : List (GoString × morphDbEntry)) : Prop where
  written : st.written = textBlob E
  tsize : st.tsize = uint32 (textBlob E).length
  entries : st.entries = T.map Prod.snd
  esize : st.esize = uint32 (8 * T.length)
  nodupE : E.Nodup
  memE : ∀ w, w ∈ E ↔ w ∈ pre.map Prod.fst
  lastE : E.getLast? = (pre.map Prod.fst).getLast?
  prevText : st.prevText = match E.getLast? with
    | none => []
    | some w => w ++ [0]
  prevTsize : st.prevTsize = match E.getLast? with
    | none => 0
    | some w => uint32 (wordOffset E w)
  prevEntries : st.prevEntries = match E.getLast? with
    | none => []
    | some w => (T.filter (fun p => decide (p.1 = w))).map Prod.snd
  sound : ∀ p ∈ T, ∃ tags, (p.1, tags) ∈ pre ∧
    p.2 = lineEntry (uint32 (wordOffset E p.1)) tags
  complete : ∀ r ∈ pre, (r.1, lineEntry (uint32 (wordOffset E r.1)) r.2) ∈ T
  nodupT : T.Nodup
  ordered : (T.map Prod.fst).Sublist (pre.map Prod.fst)

/-- The line "дом<TAB>noun,sing,nomn", as it stands after lower-casing. -/
def domNomnLine : GoString := dom ++ ascii "\tnoun,sing,nomn"

/-- The line "дом<TAB>noun,sing,accs", as it stands after lower-casing. -/
def domAccsLine : GoString := dom ++ ascii "\tnoun,sing,accs"

/-- A lexicon with the three lines of the dedup example, tags in upper case as
in the dictionary source. -/
def domLexicon : GoString :=
  dom ++ ascii "\tNOUN,sing,nomn\n" ++ dom ++ ascii "\tNOUN,sing,accs\n"
    ++ dom ++ ascii "\tNOUN,sing,nomn"

/-- The recognised tag of one enumeration in a list of tags: the last tag of the
list that belongs to the enumeration, if there is one. -/
def lastRecognised (values fields : List GoString) : Option GoString :=
  (fields.filter (fun v => decide (v ∈ values))).getLast?

/-- The attribute named `name` for a recognised tag, none when no tag was
recognised. -/
def attributeOpt (name : GoString) : Option GoString → List Attribute
  | none => []
  | some v => [{ Name := name, Value := v }]

/-- The reading of a tag list as the lexicon states it: the recognised pos,
number and case among its comma- or space-separated tags. -/
def recognisedAttributes (tags : GoString) : List Attribute :=
  attributeOpt (ascii "pos") (lastRecognised morphPosValues (FieldsFunc isTagSeparator tags))
    ++ attributeOpt (ascii "number")
        (lastRecognised morphNumberValues (FieldsFunc isTagSeparator tags))
    ++ attributeOpt (ascii "case")
        (lastRecognised morphCaseValues (FieldsFunc isTagSeparator tags))

/-- The UTF-8 bytes of the letter "в". -/
def cyrV : GoString := [0xD0, 0xB2]

/-- The UTF-8 bytes of the letter "и". -/
def cyrI : GoString := [0xD0, 0xB8]

/-- The map literal `nonterminals`, as its key/value pairs in the order they are
written; the keys are distinct. -/
def nonterminals : List (GoString × List GoString) :=
  [ (ascii "sentence",
      [ascii "{in_adverbial_modifier} {pos=verb number=@2} {extended_objects case=@1 number=@2}, {participle_phrase case=@1 number=@2}."]),
    (ascii "in_adverbial_modifier",
      [cyrV ++ ascii " {extended_objects case=loct}"]),
    (ascii "extended_objects",
      [ascii "{extended_object !case !number}",
       ascii "@{number=plur}{extended_object !case=@1}, {extended_objects case=@1}",
       ascii "@{number=plur}{extended_object !case=@1} " ++ cyrI
         ++ ascii " {extended_objects case=@1}"]),
    (ascii "extended_object",
      [ascii "{pos=noun !case !number}",
       ascii "{pos=adjf case=@1 number=@2} {pos=noun !case=@1 !number=@2}",
       ascii "{pos=adjf case=@1 number=@2} {pos=noun !case=@1 !number=@2} {extended_objects case=gent}"]),
    (ascii "participle_phrase",
      [ascii "{pos=prtf !case !number} {extended_objects case=ablt}"]) ]

/-- A Go map index expression `m[key]` on a map given by its pairs: the value of
the key, or the zero value (the `nil` slice, of length 0) when the key is
absent. -/
def mapIndex : List (GoString × List GoString) → GoString → List GoString
  | [], _ => []
  | (k, v) :: rest, key => if k = key then v else mapIndex rest key

def FindNonterminalRules (nonterminal : GoString) : List GoString :=
  mapIndex nonterminals nonterminal

/-- The names of the five nonterminals of the grammar. -/
def nonterminalNames : List GoString :=
  [ascii "sentence", ascii "in_adverbial_modifier", ascii "extended_objects",
   ascii "extended_object", ascii "participle_phrase"]

/-! ## Vocabulary of the statements about tag recognition and line order -/

/-- How many of the fields pos, number, case differ between two entries. -/
def changedAttributeFields (e e' : morphDbEntry) : Nat :=
  (if e.pos = e'.pos then 0 else 1) + (if e.number = e'.number then 0 else 1)
    + (if e.case_ = e'.case_ then 0 else 1)

/-- A value is recognised when it belongs to one of the three enumerations. -/
def recognised (v : GoString) : Prop :=
  v ∈ morphPosValues ∨ v ∈ morphNumberValues ∨ v ∈ morphCaseValues

instance (v : GoString) : Decidable (recognised v) := by
  unfold recognised; infer_instance

/-- The lexicon `domLexicon` with its lines in another order. -/
def domLexiconPermuted : GoString :=
  dom ++ ascii "\tNOUN,sing,accs\n" ++ dom ++ ascii "\tNOUN,sing,nomn\n"
    ++ dom ++ ascii "\tNOUN,sing,nomn"

/-! ## The pattern mini-language -/

/-- Modelled from the spec: a byte that may stand in a name or a literal value of
a clause: any byte but space, `{`, `}`, `=`, `!` and `@`. -/
def isNameByte (b : Nat) : Bool :=
  b != 32 && b != 123 && b != 125 && b != 61 && b != 33 && b != 64

/-- Modelled from the spec: `name` and `literalValue`, a non-empty run of name
bytes. -/
def isName (s : GoString) : Bool := !s.isEmpty && s.all isNameByte

/-- Modelled from the spec: `digits`, a non-empty run of decimal digits. -/
def isDigits (s : GoString) : Bool := !s.isEmpty && s.all (fun b => 48 ≤ b && b ≤ 57)

/-- Modelled from the spec: the value after `=`, `literalValue | '@' digits`. -/
def isClauseValue (s : GoString) : Bool :=
  match s with
  | 64 :: ds => isDigits ds
  | _ => isName s

/-- Modelled from the spec: `clause := ['!'] name ['=' (literalValue | '@' digits)]`. -/
def isClause (c : GoString) : Bool :=
  let body := match c with
    | 33 :: rest => rest
    | _ => c
  match Split 61 body with
  | [name] => isName name
  | [name, value] => isName name && isClauseValue value
  | _ => false

/-- Modelled from the spec: `term := clause (' ' clause)*`; the empty term has no
clause. -/
def isTerm (t : GoString) : Bool := (Split 32 t).all isClause

/-- Modelled from the spec: `element*` with `element := literal | '{' term '}'`.
A `{` opens a term that runs to the next `}` (so a term holds no `{`: braces do
not nest), a `}` without an open term and an `@` outside braces are refused,
every other byte is literal text. The fuel is the length of the string. -/
def isElements : Nat → GoString → Bool
  | _, [] => true
  | 0, _ :: _ => false
  | fuel + 1, b :: rest =>
    if b = 123 then
      match rest.dropWhile (fun x => x != 125) with
      | [] => false
      | _ :: after =>
        isTerm (rest.takeWhile (fun x => x != 125)) && isElements fuel after
    else if b = 125 then false
    else if b = 64 then false
    else isElements fuel rest

/-- Modelled from the spec: `alt := ['@'] element*`, the leading `@` being
allowed only immediately before a `{` (it marks that term as a guard). -/
def isAlternative (alt : GoString) : Bool :=
  match alt with
  | 64 :: 123 :: rest => isElements (rest.length + 1) (123 :: rest)
  | 64 :: _ => false
  | _ => isElements alt.length alt

/-! ## The destination file while it is being written -/

/-- A write of `data` at offset `off` of a regular file (`f.Write` after
`f.Seek(off, 0)`, or `f.WriteAt(data, off)`): the bytes are stored from `off` on,
a gap between the old end of the file and `off` reads as zeros, and a write of
no byte leaves the file as it is. -/
def writeAt (file : List Nat) (off : Nat) (data : List Nat) : List Nat :=
  if data = [] then file
  else
    (file ++ List.replicate (off - file.length) 0).take off ++ data
      ++ file.drop (off + data.length)

/-- The payload `parseMorphLines` hands to the buffered writer. -/
def buildPayload (ToLower : GoString → GoString) (content : GoString) : List Nat :=
  (parseMorphLines (buildLines ToLower content)).2.2

/-- The destination file of `BuildMorphDb` at a point before the final
`db.WriteAt`: `os.Create` has left it empty, the position is 16 after `db.Seek`,
and the buffered writer has passed the first `k` bytes of the payload to the
file (none when the lexicon could not be read or nothing was flushed yet, all of
them after a successful `Flush`, a part of them when a write or the flush
failed). -/
def BuildMorphDbPartial (ToLower : GoString → GoString) (content : GoString) (k : Nat) :
    List Nat :=
  writeAt [] 16 ((buildPayload ToLower content).take k)

/-! ## The loop of `parseMorphLines` on an arbitrary list of lines -/

/-- What the loop of `parseMorphLines` maintains on any list of lines, sorted or
not. After the records `pre`, in the state `st`, with `T` the entries appended so
far, each paired with the word of the line it was built from: the sizes are the
lengths of what was written, as `uint32`; the current word ends the blob and
`prevTsize` is where it starts; and every entry of `T` is the entry of a line of
`pre` whose offset is, as `uint32`, the start of an occurrence of its word and
terminator in the blob. -/
structure LoopInv (pre : List (GoString × GoString)) (st : ParseState)
    (T : List (GoString × morphDbEntry)) : Prop where
  tsize : st.tsize = uint32 st.written.length
  esize : st.esize = uint32 (8 * st.entries.length)
  entries : st.entries = T.map Prod.snd
  current : (st.prevText = [] ∧ st.written = []) ∨
    ∃ a w, st.written = a ++ (w ++ [0]) ∧ st.prevText = w ++ [0] ∧
      st.prevTsize = uint32 a.length
  sound : ∀ p ∈ T, ∃ tags a b, (p.1, tags) ∈ pre ∧
    p.2 = lineEntry (uint32 a.length) tags ∧ st.written = a ++ (p.1 ++ [0]) ++ b

/-- Three lines that are not in sorted order: the word "a" comes back after "b". -/
def unsortedLines : List GoString :=
  [ascii "a\tnoun", ascii "b\tnoun", ascii "a\tnoun"]

/-- The sum of `len(word)+1` over the distinct leading words of the lines. -/
def distinctWordBytes (lines : List GoString) : Nat :=
  ((((lineRecords lines).map Prod.fst).dedup).map (fun w => w.length + 1)).sum

/-- A word of 2^32 - 1 bytes, all of them the letter "a". -/
def hugeWord : GoString := List.replicate (2 ^ 32 - 1) 97

/-- Two lines: the huge word, then the word "b", both tagged "noun". -/
def hugeLines : List GoString := [hugeWord ++ ascii "\tnoun", ascii "b\tnoun"]

/-! ## The table entries a lookup returns -/

/-- The indices at which a `for` loop of `FindTerminals` appends a match: from
`i`, while `i < len(morphEntries)` and `cond (getMorphEntryText i)`. It is
`collectLoop` without the decoding of the matches. -/
def collectIndices (st : MorphState) (cond : GoString → Bool) : Nat → Nat → Option (List Nat)
  | 0, _ => none
  | fuel + 1, i =>
    if i < st.entries.length then
      match getMorphEntryText st i with
      | none => none
      | some t =>
        if cond t then (collectIndices st cond fuel (i + 1)).map (fun rest => i :: rest)
        else some []
    else some []

/-- The indices of the table entries whose matches `FindTerminals` returns, in
the order it returns them: `FindTerminals` with the two loops recording `i`
instead of `getMorphEntryMatch(i)`. -/
def FindTerminalIndices (st : MorphState) (pfx separator : GoString) : Option (List Nat) := do
  let index ← Search st.entries.length
    (fun i => (getMorphEntryText st i).map (fun t => strGe t pfx))
  let found ← collectIndices st (fun t => decide (t = pfx)) (st.entries.length + 1) index
  if separator.length = 0 then
    some found
  else
    let pfx2 := pfx ++ separator
    let k ← Search ((st.entries.length : Int) - index - 1)
      (fun i => (getMorphEntryText st (index + i + 1)).map (fun t => strGe t pfx2))
    let index2 := index + k + 1
    let more ← collectIndices st (fun t => HasPrefix t pfx2) (st.entries.length + 1) index2
    some (found ++ more)

/-! ## The line an entry was built from -/

/-- One iteration of the loop of `parseMorphLines` on the line `l`, keeping
beside the state, for every entry of the table, the line on which the loop body
appended it (`entries = append(entries, entry)`). The body appends at most one
entry and removes none, so it appended on `l` exactly when the table grew. -/
def parseStepTraced (s : ParseState × List GoString) (l : GoString) :
    ParseState × List GoString :=
  (parseStep s.1 l,
    if (parseStep s.1 l).entries.length = s.1.entries.length then s.2 else s.2 ++ [l])

/-- The lines on which the loop of `parseMorphLines` appended the entries of its
table, in the order of the entries: entry `i` of the table was built from line
`i` of this list. -/
def entryLines (lines : List GoString) : List GoString :=
  (lines.foldl parseStepTraced (parseInit, [])).2

/-- What the traced loop maintains on any list of lines. After the lines `pre`,
with `L` the entries appended so far, each paired with the line it was appended
on: the size is the length of the blob, as `uint32`; the current word ends the
blob and `prevTsize` is where it starts; and every entry of `L` is the entry of
the tag list of its line, at an offset that is, as `uint32`, the start of an
occurrence of the word of its line and its terminator in the blob. -/
structure TraceInv (pre : List GoString) (s : ParseState × List GoString)
    (L : List (GoString × morphDbEntry)) : Prop where
  tsize : s.1.tsize = uint32 s.1.written.length
  entries : s.1.entries = L.map Prod.snd
  lines : s.2 = L.map Prod.fst
  current : (s.1.prevText = [] ∧ s.1.written = []) ∨
    ∃ a w, s.1.written = a ++ (w ++ [0]) ∧ s.1.prevText = w ++ [0] ∧
      s.1.prevTsize = uint32 a.length
  sound : ∀ p ∈ L, p.1 ∈ pre ∧ ∃ w tags a b, parseLine p.1 = some (w, tags) ∧
    p.2 = lineEntry (uint32 a.length) tags ∧ s.1.written = a ++ (w ++ [0]) ++ b

/-- The text blob and the entry table that `parseMorphLines` writes for the given
lines, as `InitMorph` holds them once loaded. -/
def builtState (lines : List GoString) : MorphState :=
  { morphText := (parseLoop lines).written, morphEntries := some (parseLoop lines).entries }

/-- The table built from the lines is safe to decode: every entry was appended
on a line of the list; its text offset is the start, inside the blob, of the
word of that line followed by 0x00; its pos, number and case are within the
enumerations; and `getMorphEntryText` returns exactly the word of that line and
`getMorphEntryMatch` that word with the recognised attributes of that line. -/
def SafeToDecode (lines : List GoString) : Prop :=
  (entryLines lines).length = (parseLoop lines).entries.length ∧
  ∀ (i : Nat) (e : morphDbEntry) (l : GoString),
    (parseLoop lines).entries[i]? = some e → (entryLines lines)[i]? = some l →
    l ∈ lines ∧
    ∃ w tags a b, parseLine l = some (w, tags) ∧
      (parseLoop lines).written = a ++ (w ++ [0]) ++ b ∧
      e.text = a.length ∧ e = lineEntry a.length tags ∧
      e.pos ≤ 17 ∧ e.number ≤ 2 ∧ e.case_ ≤ 11 ∧
      getMorphEntryText (builtState lines) i = some w ∧
      getMorphEntryMatch (builtState lines) i
        = some { Text := w, Attributes := recognisedAttributes tags }

/-! ## The readings of a table -/

/-- The (word text, pos, number, case) of entry `i` of the table, the word text
being what `getMorphEntryText` decodes at the entry's text offset; `none` when
the table has no entry `i` or its text does not decode. -/
def entryReading (st : MorphState) (i : Nat) : Option (GoString × Nat × Nat × Nat) :=
  match st.entries[i]?, getMorphEntryText st i with
  | some e, some t => some (t, e.pos, e.number, e.case_)
  | _, _ => none

/-- The readings of the entries of the table, in table order. -/
def tableReadings (st : MorphState) : List (Option (GoString × Nat × Nat × Nat)) :=
  (List.range st.entries.length).map (entryReading st)

/-- The (word, pos, number, case) a line with the given word and tag list stands
for: the word and the attribute fields of the entry built from the tag list. -/
def lineReading (w tags : GoString) : GoString × Nat × Nat × Nat :=
  (w, (lineEntry 0 tags).pos, (lineEntry 0 tags).number, (lineEntry 0 tags).case_)

/-- A lexicon of two lines, with the words "a" and "a\x00b", both tagged "noun". -/
def nulPairLexicon : GoString := ascii "a\tnoun\n" ++ [97, 0, 98] ++ ascii "\tnoun"

/-- A sorted database holding the word "a" with two readings and the two-token
items "a b" and "a c". -/
def phraseDb : MorphState :=
  { morphText := ascii "a" ++ [0] ++ ascii "a b" ++ [0] ++ ascii "a c" ++ [0],
    morphEntries := some [⟨0, 1, 0, 0, 0⟩, ⟨0, 6, 0, 0, 0⟩, ⟨2, 1, 0, 0, 0⟩, ⟨6, 1, 0, 0, 0⟩] }

/-- The matches of the four entries of `phraseDb`, in table order. -/
def phraseMatches : List ParseMatch :=
  [ { Text := ascii "a", Attributes := [⟨ascii "pos", ascii "noun"⟩] },
    { Text := ascii "a", Attributes := [⟨ascii "pos", ascii "verb"⟩] },
    { Text := ascii "a b", Attributes := [⟨ascii "pos", ascii "noun"⟩] },
    { Text := ascii "a c", Attributes := [⟨ascii "pos", ascii "noun"⟩] } ]

/-! # Theorems -/

/-! ## Order of strings -/

theorem strLe_refl (a : GoString) : strLe a a = true := by
  induction a with
  | nil => rfl
  | cons x xs ih => simp [strLe, ih]

theorem strLe_total (a b : GoString) : strLe a b = true ∨ strLe b a = true := by
  induction a generalizing b with
  | nil => left; rfl
  | cons x xs ih =>
    cases b with
    | nil => right; rfl
    | cons y ys =>
      simp only [strLe]
      rcases Nat.lt_trichotomy x y with h | h | h
      · left; simp [h]
      · subst h; simpa using ih ys
      · right; simp [h]

theorem strLe_antisymm {a b : GoString} (h1 : strLe a b = true) (h2 : strLe b a = true) :
    a = b := by
  induction a generalizing b with
  | nil =>
    cases b with
    | nil => rfl
    | cons y ys => simp [strLe] at h2
  | cons x xs ih =>
    cases b with
    | nil => simp [strLe] at h1
    | cons y ys =>
      simp only [strLe] at h1 h2
      rcases Nat.lt_trichotomy x y with h | h | h
      · have : ¬ y < x := by omega
        simp [h, this] at h2
      · subst h
        simp at h1 h2
        rw [ih h1 h2]
      · have : ¬ x < y := by omega
        simp [h, this] at h1

theorem strLe_trans {a b c : GoString} (h1 : strLe a b = true) (h2 : strLe b c = true) :
    strLe a c = true := by
  induction a generalizing b c with
  | nil => rfl
  | cons x xs ih =>
    cases b with
    | nil => simp [strLe] at h1
    | cons y ys =>
      cases c with
      | nil => simp [strLe] at h2
      | cons z zs =>
        simp only [strLe] at h1 h2 ⊢
        by_cases hxy : x < y
        · by_cases hyz : y < z
          · have : x < z := by omega
            simp [this]
          · by_cases hzy : z < y
            · simp [hyz, hzy] at h2
            · have : x < z := by omega
              simp [this]
        · by_cases hyx : y < x
          · simp [hxy, hyx] at h1
          · have hxy' : x = y := by omega
            subst hxy'
            simp at h1
            by_cases hxz : x < z
            · simp [hxz]
            · by_cases hzx : z < x
              · simp [hxz, hzx] at h2
              · simp [hxz, hzx] at h2 ⊢
                exact ih h1 h2

theorem searchLoop_spec (f : Nat → Option Bool) (g : Nat → Bool) (n : Nat)
    (hf : ∀ x, x < n → f x = some (g x)) :
    ∀ fuel i j, i ≤ j → j ≤ n → j - i < fuel →
      ∃ k, searchLoop f fuel i j = some k ∧ i ≤ k ∧ k ≤ j ∧
        (i < k → g (k - 1) = false) ∧ (k < j → g k = true) := by
  intro fuel
  induction fuel with
  | zero => intro i j _ _ h; omega
  | succ fuel ih =>
    intro i j hij hjn hfuel
    unfold searchLoop
    by_cases hlt : i < j
    · simp only [hlt, if_true]
      have hh : (i + j) / 2 < n := by omega
      rw [hf _ hh]
      cases hg : g ((i + j) / 2) with
      | false =>
        obtain ⟨k, hk, h1, h2, h3, h4⟩ := ih ((i + j) / 2 + 1) j (by omega) hjn (by omega)
        refine ⟨k, hk, by omega, h2, ?_, h4⟩
        intro _
        by_cases hk1 : (i + j) / 2 + 1 < k
        · exact h3 hk1
        · have : k - 1 = (i + j) / 2 := by omega
          rw [this]; exact hg
      | true =>
        obtain ⟨k, hk, h1, h2, h3, h4⟩ := ih i ((i + j) / 2) (by omega) (by omega) (by omega)
        refine ⟨k, hk, h1, by omega, h3, ?_⟩
        intro _
        by_cases hk1 : k < (i + j) / 2
        · exact h4 hk1
        · have : k = (i + j) / 2 := by omega
          rw [this]; exact hg
    · simp only [hlt, if_false]
      exact ⟨i, rfl, le_refl _, hij, by omega, by omega⟩

/-! ## The binary search and the collecting loops -/

theorem Search_neg (f : Nat → Option Bool) (n : Int) (hn : n ≤ 0) : Search n f = some 0 := by
  have : n.toNat = 0 := by omega
  simp [Search, this, searchLoop]

theorem getMorphEntryMatch_text {st : MorphState} {i : Nat} {m : ParseMatch}
    (h : getMorphEntryMatch st i = some m) : getMorphEntryText st i = some m.Text := by
  unfold getMorphEntryMatch at h
  cases he : st.entries[i]? with
  | none => simp [he] at h
  | some e =>
    simp only [he] at h
    simp only [Option.bind_eq_some] at h
    obtain ⟨_, _, _, _, _, _, t, ht, hm⟩ := h
    simp only [Option.some.injEq] at hm
    rw [← hm]; exact ht

theorem collectLoop_text (st : MorphState) (p : GoString) :
    ∀ fuel i found out,
      collectLoop st (fun t => decide (t = p)) fuel i found = some out →
      (∀ m ∈ found, m.Text = p) → ∀ m ∈ out, m.Text = p := by
  intro fuel
  induction fuel with
  | zero => intro i found out h; simp [collectLoop] at h
  | succ fuel ih =>
    intro i found out h hfound
    unfold collectLoop at h
    by_cases hi : i < st.entries.length
    · simp only [hi, if_true] at h
      cases ht : getMorphEntryText st i with
      | none => simp [ht] at h
      | some t =>
        simp only [ht] at h
        by_cases hc : t = p
        · simp only [hc, decide_True, if_true] at h
          cases hm : getMorphEntryMatch st i with
          | none => simp [hm] at h
          | some m =>
            simp only [hm] at h
            refine ih _ _ _ h ?_
            intro m' hm'
            rcases List.mem_append.1 hm' with h1 | h1
            · exact hfound _ h1
            · have := getMorphEntryMatch_text hm
              simp at h1
              rw [ht] at this
              rw [h1]
              simp at this
              rw [← this, hc]
        · simp only [hc, decide_False] at h
          simp at h
          rw [← h]; exact hfound
    · simp only [hi, if_false] at h
      simp at h
      rw [← h]; exact hfound
theorem Search_spec (f : Nat → Option Bool) (g : Nat → Bool) (n : Int)
    (hf : ∀ x, x < n.toNat → f x = some (g x)) :
    ∃ k, Search n f = some k ∧ k ≤ n.toNat ∧
      (0 < k → g (k - 1) = false) ∧ (k < n.toNat → g k = true) := by
  obtain ⟨k, hk, _, h2, h3, h4⟩ :=
    searchLoop_spec f g n.toNat hf (n.toNat + 1) 0 n.toNat (Nat.zero_le _) (le_refl _) (by omega)
  exact ⟨k, by simpa [Search] using hk, h2, h3, h4⟩

theorem text_isSome_of_decodable {st : MorphState} (h : Decodable st) :
    ∀ i, i < st.entries.length → (getMorphEntryText st i).isSome = true := by
  intro i hi
  have := h i hi
  cases hm : getMorphEntryMatch st i with
  | none => simp [hm] at this
  | some m => simp [getMorphEntryMatch_text hm]

theorem decodeAll_isSome {st : MorphState} (h : Decodable st) :
    ∀ l : List Nat, (∀ i ∈ l, i < st.entries.length) → (decodeAll st l).isSome = true := by
  intro l
  induction l with
  | nil => intro _; rfl
  | cons a l ih =>
    intro hl
    have ha := h a (hl a (List.mem_cons_self _ _))
    have hr := ih (fun i hi => hl i (List.mem_cons_of_mem _ hi))
    cases hm : getMorphEntryMatch st a with
    | none => simp [hm] at ha
    | some m =>
      cases hd : decodeAll st l with
      | none => simp [hd] at hr
      | some ms => simp [decodeAll, hm, hd]

theorem collectLoop_eq (st : MorphState) (cond : GoString → Bool)
    (htext : ∀ x, x < st.entries.length → (getMorphEntryText st x).isSome = true) :
    ∀ fuel i found, st.entries.length - i < fuel →
      collectLoop st cond fuel i found =
        (decodeAll st ((List.range' i (st.entries.length - i)).takeWhile (textCond st cond))).map
          (fun ms => found ++ ms) := by
  intro fuel
  induction fuel with
  | zero => intro i found h; omega
  | succ fuel ih =>
    intro i found hfuel
    unfold collectLoop
    by_cases hi : i < st.entries.length
    · simp only [hi, if_true]
      have hr : st.entries.length - i = (st.entries.length - (i + 1)) + 1 := by omega
      rw [hr, List.range'_succ]
      have ht := htext i hi
      cases htx : getMorphEntryText st i with
      | none => simp [htx] at ht
      | some t =>
        simp only []
        by_cases hc : cond t = true
        · have hcc : textCond st cond i = true := by simp [textCond, htx, hc]
          simp only [hc, if_true, List.takeWhile_cons, hcc]
          cases hm : getMorphEntryMatch st i with
          | none => simp [decodeAll, hm]
          | some m =>
            simp only [decodeAll, hm]
            rw [ih (i + 1) (found ++ [m]) (by omega)]
            cases decodeAll st (List.takeWhile (textCond st cond)
              (List.range' (i + 1) (st.entries.length - (i + 1)))) with
            | none => rfl
            | some ms => simp
        · have hcc : textCond st cond i = false := by simp [textCond, htx, hc]
          simp [hc, List.takeWhile_cons, hcc, decodeAll]
    · have : st.entries.length - i = 0 := by omega
      simp [hi, this, decodeAll]

theorem filter_eq_takeWhile (c : Nat → Bool) :
    ∀ l : List Nat, l.Pairwise (fun a b => c b = true → c a = true) →
      l.filter c = l.takeWhile c := by
  intro l
  induction l with
  | nil => intro _; rfl
  | cons a l ih =>
    intro h
    rw [List.pairwise_cons] at h
    by_cases ha : c a = true
    · simp [List.filter_cons, List.takeWhile_cons, ha, ih h.2]
    · have : ∀ b ∈ l, c b = false := by
        intro b hb
        by_contra hcb
        exact ha (h.1 b hb (by simpa using hcb))
      simp only [List.filter_cons, List.takeWhile_cons, ha]
      simp
      exact fun b hb => by simp [this b hb]

theorem textCond_ge_mono {st : MorphState} (hs : SortedByText st) (q : GoString)
    {x y : Nat} (hxy : x ≤ y) (hy : y < st.entries.length)
    (hx : textCond st (fun t => strGe t q) x = true) :
    textCond st (fun t => strGe t q) y = true := by
  rcases Nat.eq_or_lt_of_le hxy with h | h
  · subst h; exact hx
  · have hle := hs.2 y hy x h
    unfold textLe at hle
    unfold textCond at hx ⊢
    cases htx : getMorphEntryText st x with
    | none => simp [htx] at hx
    | some a =>
      cases hty : getMorphEntryText st y with
      | none => simp [htx, hty] at hle
      | some b =>
        simp only [htx, hty] at hle hx ⊢
        exact strLe_trans hx hle

theorem Search_sorted (st : MorphState) (q : GoString) (hs : SortedByText st)
    (base : Nat) (n : Int) (hn : n = (st.entries.length : Int) - base)
    (f : Nat → Option Bool)
    (hf : ∀ i, f i = (getMorphEntryText st (base + i)).map (fun t => strGe t q)) :
    ∃ k, Search n f = some k ∧ k ≤ n.toNat ∧
      (∀ x, base ≤ x → x < base + k → textCond st (fun t => strGe t q) x = false) ∧
      (∀ x, base + k ≤ x → x < st.entries.length →
        textCond st (fun t => strGe t q) x = true) := by
  have hf' : ∀ x, x < n.toNat → f x = some (textCond st (fun t => strGe t q) (base + x)) := by
    intro x hx
    have hb : base + x < st.entries.length := by omega
    have := hs.1 _ hb
    rw [hf]
    unfold textCond
    cases ht : getMorphEntryText st (base + x) with
    | none => simp [ht] at this
    | some t => simp
  obtain ⟨k, hk, hkn, h1, h2⟩ :=
    Search_spec f (fun x => textCond st (fun t => strGe t q) (base + x)) n hf'
  refine ⟨k, hk, hkn, ?_, ?_⟩
  · intro x hbx hxk
    by_contra hx
    have hx' : textCond st (fun t => strGe t q) x = true := by simpa using hx
    have hlast := h1 (by omega)
    have := textCond_ge_mono hs q (show x ≤ base + (k - 1) by omega) (by omega) hx'
    simp only [] at hlast
    rw [this] at hlast
    exact Bool.noConfusion hlast
  · intro x hkx hxn
    have hk' := h2 (by omega)
    exact textCond_ge_mono hs q hkx hxn hk'

theorem FindTerminals_isSome (st : MorphState) (p s : GoString) (hd : Decodable st) :
    ∃ found, FindTerminals st p s = some found := by
  have htext := text_isSome_of_decodable hd
  have hsearch : ∀ (base : Nat) (n : Int) (q : GoString), n = (st.entries.length : Int) - base →
      ∃ k, Search n (fun i => (getMorphEntryText st (base + i)).map (fun t => strGe t q))
        = some k := by
    intro base n q hn
    have hf' : ∀ x, x < n.toNat →
        (fun i => (getMorphEntryText st (base + i)).map (fun t => strGe t q)) x
          = some (textCond st (fun t => strGe t q) (base + x)) := by
      intro x hx
      have := htext (base + x) (by omega)
      unfold textCond
      cases ht : getMorphEntryText st (base + x) with
      | none => simp [ht] at this
      | some t => simp [ht]
    obtain ⟨k, hk, _⟩ := Search_spec _ _ n hf'
    exact ⟨k, hk⟩
  have hcollect : ∀ cond i found, ∃ out,
      collectLoop st cond (st.entries.length + 1) i found = some out := by
    intro cond i found
    rw [collectLoop_eq st cond htext _ _ _ (by omega)]
    have := decodeAll_isSome hd
      ((List.range' i (st.entries.length - i)).takeWhile (textCond st cond)) (by
        intro x hx
        have := List.mem_range'_1.1 ((List.takeWhile_sublist _).subset hx)
        omega)
    cases hda : decodeAll st ((List.range' i (st.entries.length - i)).takeWhile
      (textCond st cond)) with
    | none => simp [hda] at this
    | some ms => exact ⟨found ++ ms, rfl⟩
  obtain ⟨k, hk⟩ := hsearch 0 st.entries.length p (by simp)
  simp only [Nat.zero_add] at hk
  obtain ⟨found, hfound⟩ := hcollect (fun t => decide (t = p)) k []
  unfold FindTerminals
  simp only [Option.bind_eq_bind, hk, Option.some_bind, hfound]
  by_cases hsep : s.length = 0
  · simp [hsep]
  · simp only [hsep, if_false]
    obtain ⟨k2, hk2⟩ := hsearch (k + 1) ((st.entries.length : Int) - k - 1) (p ++ s)
      (by push_cast; ring)
    have hfun : (fun i => (getMorphEntryText st (k + i + 1)).map (fun t => strGe t (p ++ s)))
        = (fun i => (getMorphEntryText st (k + 1 + i)).map (fun t => strGe t (p ++ s))) := by
      funext i
      rw [show k + i + 1 = k + 1 + i by omega]
    rw [hfun, hk2]
    simp only [Option.some_bind]
    exact hcollect _ _ _

/-! ## Lookup with the empty separator -/

/-- C1 (exact-match isolation): whatever the loaded database,
`FindTerminals(p, "")` returns only matches whose `Text` is `p` itself, so no
entry whose text merely starts with `p` is returned; and the call does return
(does not panic) when every entry of the table decodes. -/
theorem FindTerminals_exact_match (st : MorphState) (p : GoString) :
    (∀ found, FindTerminals st p [] = some found → ∀ m ∈ found, m.Text = p) ∧
    (Decodable st → ∃ found, FindTerminals st p [] = some found) := by
  refine ⟨?_, fun hd => FindTerminals_isSome st p [] hd⟩
  intro found h
  unfold FindTerminals at h
  simp only [Option.bind_eq_bind, Option.bind_eq_some, List.length_nil, if_true] at h
  obtain ⟨index, _, out, hout, hfound⟩ := h
  simp only [Option.some.injEq] at hfound
  subst hfound
  exact collectLoop_text st p _ _ _ _ hout (by simp)

theorem FindTerminals_exact_match_witness :
    (∀ m ∈ exampleDomMatches, m.Text = dom) ∧
    ∃ found, FindTerminals exampleDb dom [] = some found :=
  ⟨(FindTerminals_exact_match exampleDb dom).1 exampleDomMatches (by decide),
   (FindTerminals_exact_match exampleDb dom).2 (by decide)⟩

theorem exact_run_eq (st : MorphState) (p : GoString) (hs : SortedByText st) (k : Nat)
    (hkn : k ≤ st.entries.length)
    (hlow : ∀ x, x < k → textCond st (fun t => strGe t p) x = false)
    (hhigh : ∀ x, k ≤ x → x < st.entries.length →
      textCond st (fun t => strGe t p) x = true) :
    (List.range' k (st.entries.length - k)).takeWhile (textCond st (fun t => decide (t = p)))
      = indicesWhere st (fun t => decide (t = p)) := by
  unfold indicesWhere
  have hsplit : List.range st.entries.length
      = List.range' 0 k ++ List.range' k (st.entries.length - k) := by
    rw [List.range_eq_range']
    have := List.range'_append_1 0 k (st.entries.length - k)
    simp only [Nat.zero_add] at this
    rw [this]
    congr 1; omega
  rw [hsplit, List.filter_append]
  have hfirst : (List.range' 0 k).filter (textCond st (fun t => decide (t = p))) = [] := by
    rw [List.filter_eq_nil_iff]
    intro x hx
    have hx' := List.mem_range'_1.1 hx
    have := hlow x (by omega)
    unfold textCond at this ⊢
    cases ht : getMorphEntryText st x with
    | none => simp
    | some t =>
      simp only [ht] at this ⊢
      intro hc
      have : t = p := by simpa using hc
      subst this
      simp [strGe, strLe_refl] at *
  rw [hfirst, List.nil_append]
  symm
  apply filter_eq_takeWhile
  have hpw := List.pairwise_lt_range' k (st.entries.length - k) 1
  refine hpw.imp_of_mem ?_
  intro a b ha hb hab hcb
  have ha' := List.mem_range'_1.1 ha
  have hb' := List.mem_range'_1.1 hb
  have hga := hhigh a (by omega) (by omega)
  have hle := hs.2 b (by omega) a hab
  unfold textCond at hcb hga ⊢
  unfold textLe at hle
  cases hta : getMorphEntryText st a with
  | none => simp [hta] at hga
  | some ta =>
    cases htb : getMorphEntryText st b with
    | none => simp [htb] at hcb
    | some tb =>
      simp only [hta, htb] at hcb hga hle ⊢
      have : tb = p := by simpa using hcb
      subst this
      simp only [strGe] at hga
      simp [strLe_antisymm hle hga]

/-- C2 (lookup completeness): on a table sorted by referenced text,
`FindTerminals(p, "")` is the list of the decoded entries whose text equals `p`,
all of them, once each, in table order; it is the empty list (not an error) when
no entry has text `p`; and it does return when every entry decodes. -/
theorem FindTerminals_complete (st : MorphState) (p : GoString) (hs : SortedByText st) :
    FindTerminals st p [] = decodeAll st (indicesWhere st (fun t => decide (t = p))) ∧
    ((∀ i, i < st.entries.length → getMorphEntryText st i ≠ some p) →
      FindTerminals st p [] = some []) ∧
    (Decodable st → ∃ found, FindTerminals st p [] = some found) := by
  have hmain : FindTerminals st p [] =
      decodeAll st (indicesWhere st (fun t => decide (t = p))) := by
    obtain ⟨k, hk, hkn, hlow, hhigh⟩ := Search_sorted st p hs 0 st.entries.length (by simp)
      (fun i => (getMorphEntryText st i).map (fun t => strGe t p)) (by intro i; simp)
    have hkn' : k ≤ st.entries.length := by simpa using hkn
    unfold FindTerminals
    simp only [Option.bind_eq_bind, hk, Option.some_bind, List.length_nil, if_true]
    rw [collectLoop_eq st _ hs.1 _ _ _ (by omega)]
    rw [exact_run_eq st p hs k hkn' (fun x hx => hlow x (Nat.zero_le _) (by omega))
      (fun x hx hxn => hhigh x (by omega) hxn)]
    cases decodeAll st (indicesWhere st (fun t => decide (t = p))) with
    | none => rfl
    | some ms => simp
  refine ⟨hmain, ?_, fun hd => FindTerminals_isSome st p [] hd⟩
  intro hno
  rw [hmain]
  have : indicesWhere st (fun t => decide (t = p)) = [] := by
    unfold indicesWhere
    rw [List.filter_eq_nil_iff]
    intro x hx
    have hx' : x < st.entries.length := List.mem_range.1 hx
    have := hno x hx'
    unfold textCond
    cases ht : getMorphEntryText st x with
    | none => simp
    | some t =>
      simp only [ht] at this ⊢
      simpa using fun h => this (by rw [h])
  rw [this]; rfl

theorem FindTerminals_complete_witness :
    FindTerminals exampleDb dom [] = some exampleDomMatches ∧
    FindTerminals exampleDb dom []
      = decodeAll exampleDb (indicesWhere exampleDb (fun t => decide (t = dom))) :=
  ⟨by decide, (FindTerminals_complete exampleDb dom (by decide)).1⟩

/-! ## Lookup with a separator -/

/-- C3 (multi-token lookup), evaluation at a failing input: on the sorted table
"a b", "a c", which has no entry "a", `FindTerminals("a", " ")` returns only the
reading of "a c", whereas the entries whose text starts with "a " are "a b" and
"a c": the second search starts one entry after the first entry `>= p`, and
that entry is the head of the run when no entry has text `p`. -/
theorem FindTerminals_separator_skips_run_head :
    SortedByText idiomDb ∧
    FindTerminals idiomDb (ascii "a") (ascii " ")
      = some [⟨ascii "a c", [⟨ascii "pos", ascii "noun"⟩]⟩] ∧
    multiTokenExpected idiomDb (ascii "a") (ascii " ")
      = some [⟨ascii "a b", [⟨ascii "pos", ascii "noun"⟩]⟩,
              ⟨ascii "a c", [⟨ascii "pos", ascii "noun"⟩]⟩] := by
  decide

/-! ## Sortedness of built tables -/

/-- C6 (sortedness invariant), evaluation at a failing input: the lexicon with
the words "a" and "a\x01" is built and loaded without error, but whole-line
order puts "a\x01\t..." before "a\t..." (0x01 is below the tab), so the table
holds "a\x01" before "a" and is not sorted by text; the binary search of
`FindTerminals` then misses the word "a". -/
theorem build_table_not_sorted :
    (buildThenLoad asciiToLower controlLexicon).1 = none ∧
    getMorphEntryText (buildThenLoad asciiToLower controlLexicon).2 0 = some [97, 1] ∧
    getMorphEntryText (buildThenLoad asciiToLower controlLexicon).2 1 = some [97] ∧
    ¬ SortedByText (buildThenLoad asciiToLower controlLexicon).2 ∧
    FindTerminals (buildThenLoad asciiToLower controlLexicon).2 [97] [] = some [] := by
  decide

/-! ## Loading -/

theorem min_16_maxRW : min 16 maxRW = 16 := by decide

/-- C9 (truncated file), evaluation at a failing input: a file that holds the
four magic bytes and nothing else is shorter than its 16-byte header, yet
`InitMorph` returns no error and leaves an empty, non-nil entry table loaded:
the count of the header read is not checked, and the zero-filled sizes make
both later reads succeed. -/
theorem InitMorph_accepts_truncated_header (st : MorphState) :
    InitMorph st (.ok magicBytes) = (none, { morphText := [], morphEntries := some [] }) := by
  rfl

/-- C8 (bad magic): when the first four bytes of the file are not the magic
number (also when the file is shorter than four bytes), `InitMorph` returns the
error "bad file magic" and leaves `morphText` empty and `morphEntries` nil,
whatever was loaded before the call. -/
theorem InitMorph_bad_magic (st : MorphState) (content : List Nat)
    (hbytes : ∀ b ∈ content, b < 256) (hmagic : content.take 4 ≠ magicBytes) :
    InitMorph st (.ok content)
      = (some "bad file magic", { morphText := [], morphEntries := none }) := by
  have key : (bytesToMorphDbHeader (File.Read { content := content, pos := 0 } 16).1).magic
      ≠ morphDbMagic := by
    rcases content with _ | ⟨b0, _ | ⟨b1, _ | ⟨b2, _ | ⟨b3, rest⟩⟩⟩⟩
    · simp [File.Read, min_16_maxRW, bytesToMorphDbHeader, bytesToUint32, morphDbMagic]
    · have h0 := hbytes b0 (by simp)
      simp [File.Read, min_16_maxRW, bytesToMorphDbHeader, bytesToUint32, morphDbMagic]
      omega
    · have h0 := hbytes b0 (by simp)
      have h1 := hbytes b1 (by simp)
      simp [File.Read, min_16_maxRW, bytesToMorphDbHeader, bytesToUint32, morphDbMagic]
      omega
    · have h0 := hbytes b0 (by simp)
      have h1 := hbytes b1 (by simp)
      have h2 := hbytes b2 (by simp)
      simp [File.Read, min_16_maxRW, bytesToMorphDbHeader, bytesToUint32, morphDbMagic]
      omega
    · have h0 := hbytes b0 (by simp)
      have h1 := hbytes b1 (by simp)
      have h2 := hbytes b2 (by simp)
      have h3 := hbytes b3 (by simp)
      simp [File.Read, min_16_maxRW, bytesToMorphDbHeader, bytesToUint32, morphDbMagic]
      intro h
      apply hmagic
      have e0 : b0 = 0xC8 := by omega
      have e1 : b1 = 0x90 := by omega
      have e2 : b2 = 0x12 := by omega
      have e3 : b3 = 0xFC := by omega
      simp [magicBytes, e0, e1, e2, e3]
  simp only [InitMorph, FinalizeMorph]
  rw [if_pos key]

theorem InitMorph_bad_magic_witness :
    InitMorph exampleDb (.ok [0xC8, 0x90, 0x12])
      = (some "bad file magic", { morphText := [], morphEntries := none }) :=
  InitMorph_bad_magic exampleDb [0xC8, 0x90, 0x12] (by decide) (by decide)

/-! ## Attribute encoding -/

theorem update_pos (e : morphDbEntry) (i : Nat) (v : GoString)
    (h : morphPosValues[i]? = some v) :
    updateMorphDbEntry e v = { e with pos := i + 1 } := by
  have hi : i < 17 := by
    have := (List.getElem?_eq_some.1 h).1
    simpa [morphPosValues] using this
  interval_cases i <;> (simp [morphPosValues] at h; subst h; rfl)

theorem update_number (e : morphDbEntry) (i : Nat) (v : GoString)
    (h : morphNumberValues[i]? = some v) :
    updateMorphDbEntry e v = { e with number := i + 1 } := by
  have hi : i < 2 := by
    have := (List.getElem?_eq_some.1 h).1
    simpa [morphNumberValues] using this
  interval_cases i <;> (simp [morphNumberValues] at h; subst h; rfl)

theorem update_case (e : morphDbEntry) (i : Nat) (v : GoString)
    (h : morphCaseValues[i]? = some v) :
    updateMorphDbEntry e v = { e with case_ := i + 1 } := by
  have hi : i < 11 := by
    have := (List.getElem?_eq_some.1 h).1
    simpa [morphCaseValues] using this
  interval_cases i <;> (simp [morphCaseValues] at h; subst h; rfl)

theorem appendAttr_eq (attrs : List Attribute) (name : GoString) (values : List GoString)
    (field : Nat) (h : field ≤ values.length) :
    appendAttr attrs name values field = some (attrs ++ attributeOf name values field) := by
  unfold appendAttr attributeOf
  by_cases hf : field = 0
  · simp [hf]
  · have h1 : field > 0 := by omega
    have h2 : field - 1 < values.length := by omega
    simp [hf, h1, List.getElem?_eq_getElem h2, List.getD_eq_getElem?_getD]

theorem getMorphEntryMatch_eq (st : MorphState) (i : Nat) (e : morphDbEntry) (t : GoString)
    (he : st.entries[i]? = some e) (ht : getMorphEntryText st i = some t)
    (hp : e.pos ≤ 17) (hn : e.number ≤ 2) (hc : e.case_ ≤ 11) :
    getMorphEntryMatch st i = some
      { Text := t,
        Attributes := attributeOf (ascii "pos") morphPosValues e.pos
          ++ attributeOf (ascii "number") morphNumberValues e.number
          ++ attributeOf (ascii "case") morphCaseValues e.case_ } := by
  unfold getMorphEntryMatch
  simp only [he]
  rw [appendAttr_eq _ _ _ _ (by simpa [morphPosValues] using hp)]
  simp only [Option.some_bind]
  rw [appendAttr_eq _ _ _ _ (by simpa [morphNumberValues] using hn)]
  simp only [Option.some_bind]
  rw [appendAttr_eq _ _ _ _ (by simpa [morphCaseValues] using hc)]
  simp [ht]

/-- C10 (attribute encoding round trip): `updateMorphDbEntry` with the tag at
index `i` of the pos, number or case enumeration stores `i+1` in the matching
field (and changes nothing else); `getMorphEntryMatch` decodes an entry whose
fields are within the enumerations to the attributes pos, number, case in that
order, none for a field equal to 0 and the tag at index `field-1` otherwise; and
an entry updated with one tag of each enumeration decodes to exactly these three
tags. -/
theorem attribute_encoding_roundtrip :
    (∀ (e : morphDbEntry) (i : Nat) (v : GoString), morphPosValues[i]? = some v →
      updateMorphDbEntry e v = { e with pos := i + 1 }) ∧
    (∀ (e : morphDbEntry) (i : Nat) (v : GoString), morphNumberValues[i]? = some v →
      updateMorphDbEntry e v = { e with number := i + 1 }) ∧
    (∀ (e : morphDbEntry) (i : Nat) (v : GoString), morphCaseValues[i]? = some v →
      updateMorphDbEntry e v = { e with case_ := i + 1 }) ∧
    (∀ (st : MorphState) (i : Nat) (e : morphDbEntry) (t : GoString),
      st.entries[i]? = some e → getMorphEntryText st i = some t →
      e.pos ≤ 17 → e.number ≤ 2 → e.case_ ≤ 11 →
      getMorphEntryMatch st i = some
        { Text := t,
          Attributes := attributeOf (ascii "pos") morphPosValues e.pos
            ++ attributeOf (ascii "number") morphNumberValues e.number
            ++ attributeOf (ascii "case") morphCaseValues e.case_ }) ∧
    (∀ (st : MorphState) (i : Nat) (e : morphDbEntry) (t vp vn vc : GoString)
      (ip jn kc : Nat),
      morphPosValues[ip]? = some vp → morphNumberValues[jn]? = some vn →
      morphCaseValues[kc]? = some vc →
      st.entries[i]? =
        some (updateMorphDbEntry (updateMorphDbEntry (updateMorphDbEntry e vp) vn) vc) →
      getMorphEntryText st i = some t →
      getMorphEntryMatch st i = some
        { Text := t,
          Attributes := [⟨ascii "pos", vp⟩, ⟨ascii "number", vn⟩, ⟨ascii "case", vc⟩] }) := by
  refine ⟨update_pos, update_number, update_case, getMorphEntryMatch_eq, ?_⟩
  intro st i e t vp vn vc ip jn kc hp hn hc he ht
  rw [update_pos _ _ _ hp, update_number _ _ _ hn, update_case _ _ _ hc] at he
  have hip := (List.getElem?_eq_some.1 hp).1
  have hjn := (List.getElem?_eq_some.1 hn).1
  have hkc := (List.getElem?_eq_some.1 hc).1
  have hip' : ip < 17 := by simpa [morphPosValues] using hip
  have hjn' : jn < 2 := by simpa [morphNumberValues] using hjn
  have hkc' : kc < 11 := by simpa [morphCaseValues] using hkc
  rw [getMorphEntryMatch_eq st i _ t he ht (by simp only []; omega) (by simp only []; omega)
    (by simp only []; omega)]
  simp [attributeOf, List.getD_eq_getElem?_getD, hp, hn, hc]

theorem attribute_encoding_roundtrip_witness :
    updateMorphDbEntry ⟨0, 0, 0, 0, 0⟩ (ascii "verb") = ⟨0, 6, 0, 0, 0⟩ ∧
    getMorphEntryMatch exampleDb 1 = some
      { Text := dom,
        Attributes := [⟨ascii "pos", ascii "noun"⟩, ⟨ascii "number", ascii "sing"⟩,
          ⟨ascii "case", ascii "accs"⟩] } :=
  ⟨attribute_encoding_roundtrip.1 ⟨0, 0, 0, 0, 0⟩ 5 (ascii "verb") (by decide),
   attribute_encoding_roundtrip.2.2.2.2 exampleDb 1 ⟨0, 0, 0, 0, 0⟩ dom (ascii "noun")
     (ascii "sing") (ascii "accs") 0 0 5 (by decide) (by decide) (by decide) (by decide)
     (by decide)⟩

/-! ## Lines, words and their order -/

theorem Split_two (sep : Nat) :
    ∀ (l w t : GoString) (ts : List GoString), Split sep l = w :: t :: ts →
      sep ∉ w ∧ ∃ r, l = w ++ sep :: r := by
  intro l
  induction l with
  | nil => intro w t ts h; simp [Split] at h
  | cons c cs ih =>
    intro w t ts h
    unfold Split at h
    by_cases hc : c = sep
    · simp only [hc, if_true, List.cons.injEq] at h
      refine ⟨by rw [← h.1]; simp, cs, ?_⟩
      rw [← h.1, hc]; rfl
    · simp only [hc, if_false] at h
      cases hs : Split sep cs with
      | nil => simp [hs] at h
      | cons x xs =>
        simp only [hs, List.cons.injEq] at h
        obtain ⟨hw, hxs⟩ := h
        rw [hxs] at hs
        obtain ⟨h1, r, h2⟩ := ih x t ts hs
        refine ⟨?_, r, ?_⟩
        · rw [← hw]
          intro hm
          rcases List.mem_cons.1 hm with e | e
          · exact hc e.symm
          · exact h1 e
        · rw [← hw, h2]; rfl

theorem parseLine_eq_some {l w tags : GoString} (h : parseLine l = some (w, tags)) :
    9 ∉ w ∧ ∃ r, l = w ++ 9 :: r := by
  unfold parseLine at h
  cases hs : Split 9 l with
  | nil => simp [hs] at h
  | cons x xs =>
    cases xs with
    | nil => simp [hs] at h
    | cons t ts =>
      simp only [hs, Option.some.injEq, Prod.mk.injEq] at h
      rw [← h.1]
      exact Split_two 9 l x t ts hs

theorem strLe_between_prefix (p : GoString) :
    ∀ (a b x : GoString), strLe (p ++ a) x = true → strLe x (p ++ b) = true →
      ∃ c, x = p ++ c := by
  induction p with
  | nil => intro a b x _ _; exact ⟨x, rfl⟩
  | cons q p ih =>
    intro a b x h1 h2
    cases x with
    | nil => simp [strLe] at h1
    | cons y ys =>
      simp only [List.cons_append, strLe] at h1 h2
      have hyq : y = q := by
        by_contra hne
        rcases Nat.lt_or_gt_of_ne hne with h | h
        · have : ¬ q < y := by omega
          simp [this, h] at h1
        · have : ¬ y < q := by omega
          simp [this, h] at h2
      subst hyq
      simp only [lt_irrefl, if_false] at h1 h2
      obtain ⟨c, hc⟩ := ih a b ys h1 h2
      exact ⟨c, by rw [hc]; rfl⟩

theorem keyLe_of_line_le :
    ∀ (w1 w2 r1 r2 : GoString), 9 ∉ w1 → 9 ∉ w2 →
      strLe (w1 ++ 9 :: r1) (w2 ++ 9 :: r2) = true → keyLe w1 w2 = true := by
  intro w1
  induction w1 with
  | nil =>
    intro w2 r1 r2 _ h2 h
    cases w2 with
    | nil => simp [keyLe, strLe]
    | cons b w2 =>
      have hb : b ≠ 9 := fun e => h2 (by simp [e])
      simp only [keyLe, List.nil_append, List.cons_append, strLe] at h ⊢
      by_cases h9 : 9 < b
      · simp [h9]
      · have : b < 9 := by omega
        simp [h9, this] at h
  | cons a w1 ih =>
    intro w2 r1 r2 h1 h2 h
    have ha : a ≠ 9 := fun e => h1 (by simp [e])
    cases w2 with
    | nil =>
      simp only [keyLe, List.nil_append, List.cons_append, strLe] at h ⊢
      by_cases h9 : a < 9
      · simp [h9]
      · have : 9 < a := by omega
        simp [h9, this] at h
    | cons b w2 =>
      simp only [keyLe, List.cons_append, strLe] at h ⊢
      by_cases hab : a < b
      · simp [hab]
      · by_cases hba : b < a
        · simp [hab, hba] at h
        · simp only [hab, hba, if_false] at h ⊢
          exact ih w2 r1 r2 (fun hm => h1 (List.mem_cons_of_mem _ hm))
            (fun hm => h2 (List.mem_cons_of_mem _ hm)) h

theorem keyLe_antisymm {a b : GoString} (h1 : keyLe a b = true) (h2 : keyLe b a = true) :
    a = b := by
  have := strLe_antisymm h1 h2
  exact List.append_cancel_right this

theorem keyLe_of_parseLine {l1 l2 w1 w2 t1 t2 : GoString}
    (h1 : parseLine l1 = some (w1, t1)) (h2 : parseLine l2 = some (w2, t2))
    (hle : strLe l1 l2 = true) : keyLe w1 w2 = true := by
  obtain ⟨hw1, r1, e1⟩ := parseLine_eq_some h1
  obtain ⟨hw2, r2, e2⟩ := parseLine_eq_some h2
  subst e1 e2
  exact keyLe_of_line_le w1 w2 r1 r2 hw1 hw2 hle

theorem sortStrings_sorted (lines : List GoString) :
    (sortStrings lines).Pairwise (fun a b => strLe a b = true) := by
  haveI : IsTotal GoString (fun a b => strLe a b = true) := ⟨strLe_total⟩
  haveI : IsTrans GoString (fun a b => strLe a b = true) := ⟨fun _ _ _ => strLe_trans⟩
  exact List.sorted_insertionSort (fun a b => strLe a b = true) lines

theorem sortStrings_perm (lines : List GoString) : (sortStrings lines).Perm lines :=
  List.perm_insertionSort _ lines

theorem sortStrings_eq_of_perm {l1 l2 : List GoString} (h : l1.Perm l2) :
    sortStrings l1 = sortStrings l2 := by
  haveI : IsAntisymm GoString (fun a b => strLe a b = true) := ⟨fun _ _ => strLe_antisymm⟩
  exact @List.eq_of_perm_of_sorted _ (fun a b => strLe a b = true) _ _ _
    (((sortStrings_perm l1).trans h).trans (sortStrings_perm l2).symm)
    (sortStrings_sorted l1) (sortStrings_sorted l2)

/-! ## The loop of `parseMorphLines` -/

theorem findMorphDbEntryFrom_eq (entry : morphDbEntry) :
    ∀ (l : List morphDbEntry) (i : Nat),
      findMorphDbEntryFrom entry l i = -1 ↔ entry ∉ l := by
  intro l
  induction l with
  | nil => intro i; simp [findMorphDbEntryFrom]
  | cons e l ih =>
    intro i
    unfold findMorphDbEntryFrom
    by_cases he : e = entry
    · simp only [he, if_true, List.mem_cons, true_or, not_true_eq_false, iff_false]
      omega
    · simp only [he, if_false, List.mem_cons, ih]
      constructor
      · intro h hm
        rcases hm with h1 | h1
        · exact he h1.symm
        · exact h h1
      · intro h hm
        exact h (Or.inr hm)

theorem findMorphDbEntry_eq (l : List morphDbEntry) (entry : morphDbEntry) :
    findMorphDbEntry l entry = -1 ↔ entry ∉ l :=
  findMorphDbEntryFrom_eq entry l 0

theorem textBlob_append (E F : List GoString) :
    textBlob (E ++ F) = textBlob E ++ textBlob F := by
  induction E with
  | nil => rfl
  | cons w E ih => simp [textBlob, ih]

theorem wordOffset_append_of_mem {E : List GoString} {w : GoString} (h : w ∈ E)
    (F : List GoString) : wordOffset (E ++ F) w = wordOffset E w := by
  induction E with
  | nil => simp at h
  | cons x E ih =>
    simp only [List.cons_append, wordOffset]
    by_cases hx : x = w
    · simp [hx]
    · simp only [hx, if_false]
      rcases List.mem_cons.1 h with e | e
      · exact absurd e.symm hx
      · have := ih e
        simp only [List.append_eq] at this ⊢
        rw [this]

theorem wordOffset_append_of_not_mem {E : List GoString} {w : GoString} (h : w ∉ E)
    (F : List GoString) :
    wordOffset (E ++ w :: F) w = (textBlob E).length := by
  induction E with
  | nil => simp [wordOffset, textBlob]
  | cons x E ih =>
    have hx : x ≠ w := fun e => h (by simp [e])
    simp only [List.cons_append, wordOffset, hx, if_false, textBlob, List.length_append,
      List.length_cons, List.length_nil]
    have := ih (fun hm => h (List.mem_cons_of_mem _ hm))
    simp only [List.append_eq] at this ⊢
    rw [this]

theorem uint32_add (a b : Nat) : uint32 (uint32 a + uint32 b) = uint32 (a + b) := by
  simp only [uint32]
  omega

theorem uint32_add_left (a b : Nat) : uint32 (uint32 a + b) = uint32 (a + b) := by
  simp only [uint32]
  omega

theorem parseLoop_eq (lines : List GoString) :
    parseLoop lines = (lineRecords lines).foldl (fun st r => addLine st r.1 r.2) parseInit := by
  unfold parseLoop lineRecords
  generalize parseInit = st
  induction lines generalizing st with
  | nil => rfl
  | cons l ls ih =>
    simp only [List.foldl_cons, List.filterMap_cons]
    cases hp : parseLine l with
    | none => simp only [parseStep, hp]; exact ih st
    | some r => simp only [parseStep, hp, List.foldl_cons]; exact ih _

theorem BuildInv_init : BuildInv [] parseInit [] [] := by
  constructor <;> simp [parseInit, textBlob, uint32]

theorem addLine_inv_same {pre : List (GoString × GoString)} {st : ParseState}
    {E : List GoString} {T : List (GoString × morphDbEntry)} (h : BuildInv pre st E T)
    (w tags : GoString) (hl : E.getLast? = some w) :
    ∃ T', BuildInv (pre ++ [(w, tags)]) (addLine st w tags) E T' := by
  have hpt : st.prevText = w ++ [0] := by rw [h.prevText, hl]
  have hps : st.prevTsize = uint32 (wordOffset E w) := by rw [h.prevTsize, hl]
  have hpe : st.prevEntries = (T.filter (fun p => decide (p.1 = w))).map Prod.snd := by
    rw [h.prevEntries, hl]
  have hwE : w ∈ E := List.mem_of_getLast?_eq_some hl
  have hsw : startWord st (w ++ [0]) = st := by simp [startWord, hpt]
  have hmem : ∀ x, x ∈ E ↔ x ∈ (pre ++ [(w, tags)]).map Prod.fst := by
    intro x
    rw [h.memE]
    simp only [List.map_append, List.map_cons, List.map_nil, List.mem_append,
      List.mem_singleton]
    constructor
    · intro hx; exact Or.inl hx
    · rintro (hx | hx)
      · exact hx
      · rw [hx]; exact (h.memE w).1 hwE
  have hlast : E.getLast? = ((pre ++ [(w, tags)]).map Prod.fst).getLast? := by
    simp [hl]
  have hsound : ∀ p ∈ T, ∃ tags', (p.1, tags') ∈ pre ++ [(w, tags)] ∧
      p.2 = lineEntry (uint32 (wordOffset E p.1)) tags' := by
    intro p hp
    obtain ⟨t, ht, he⟩ := h.sound p hp
    exact ⟨t, List.mem_append_left _ ht, he⟩
  unfold addLine
  simp only [hsw]
  by_cases hf : findMorphDbEntry st.prevEntries (lineEntry st.prevTsize tags) = -1
  · have hnot : lineEntry st.prevTsize tags ∉ st.prevEntries := (findMorphDbEntry_eq _ _).1 hf
    refine ⟨T ++ [(w, lineEntry st.prevTsize tags)], ?_⟩
    simp only [hf, if_true]
    exact
      { written := h.written
        tsize := h.tsize
        entries := by simp [h.entries]
        esize := by
          simp only [h.esize, List.length_append, List.length_singleton]
          rw [uint32_add_left]
          congr 1
        nodupE := h.nodupE
        memE := hmem
        lastE := hlast
        prevText := by simp only [hl]; exact hpt
        prevTsize := by simp only [hl]; exact hps
        prevEntries := by
          simp only [hl, hpe, List.filter_append, List.map_append]
          simp
        sound := by
          intro p hp
          rcases List.mem_append.1 hp with hp | hp
          · exact hsound p hp
          · simp only [List.mem_singleton] at hp
            subst hp
            exact ⟨tags, by simp, by simp only []; rw [hps]⟩
        complete := by
          intro r hr
          rcases List.mem_append.1 hr with hr | hr
          · exact List.mem_append_left _ (h.complete r hr)
          · simp only [List.mem_singleton] at hr
            subst hr
            simp only []
            rw [← hps]
            simp
        nodupT := by
          rw [List.nodup_append]
          refine ⟨h.nodupT, by simp, ?_⟩
          intro a ha hb
          simp only [List.mem_singleton] at hb
          subst hb
          apply hnot
          rw [hpe]
          simp only [List.mem_map, List.mem_filter]
          exact ⟨_, ⟨ha, by simp⟩, rfl⟩
        ordered := by
          simp only [List.map_append, List.map_cons, List.map_nil]
          exact h.ordered.append (List.Sublist.refl _) }
  · have hin : lineEntry st.prevTsize tags ∈ st.prevEntries := by
      by_contra hc
      exact hf ((findMorphDbEntry_eq _ _).2 hc)
    refine ⟨T, ?_⟩
    simp only [hf, if_false]
    exact
      { written := h.written
        tsize := h.tsize
        entries := h.entries
        esize := h.esize
        nodupE := h.nodupE
        memE := hmem
        lastE := hlast
        prevText := h.prevText
        prevTsize := h.prevTsize
        prevEntries := h.prevEntries
        sound := hsound
        complete := by
          intro r hr
          rcases List.mem_append.1 hr with hr | hr
          · exact h.complete r hr
          · simp only [List.mem_singleton] at hr
            subst hr
            simp only []
            rw [hpe] at hin
            simp only [List.mem_map, List.mem_filter] at hin
            obtain ⟨p, ⟨hpT, hpw⟩, hpe2⟩ := hin
            have hpw' : p.1 = w := by simpa using hpw
            rw [← hps, ← hpe2, ← hpw']
            exact hpT
        nodupT := h.nodupT
        ordered := by
          simp only [List.map_append]
          exact h.ordered.trans (List.sublist_append_left _ _) }

theorem addLine_inv_new {pre : List (GoString × GoString)} {st : ParseState}
    {E : List GoString} {T : List (GoString × morphDbEntry)} (h : BuildInv pre st E T)
    (w tags : GoString) (hl : E.getLast? ≠ some w) (hw : w ∉ E) :
    ∃ T', BuildInv (pre ++ [(w, tags)]) (addLine st w tags) (E ++ [w]) T' := by
  have hpt : w ++ [0] ≠ st.prevText := by
    rw [h.prevText]
    cases hE : E.getLast? with
    | none => simp
    | some c =>
      simp only []
      intro he
      have : w = c := List.append_cancel_right he
      exact hl (by rw [hE, this])
  have hTw : ∀ p ∈ T, p.1 ∈ E := by
    intro p hp
    obtain ⟨t, ht, _⟩ := h.sound p hp
    exact (h.memE p.1).2 (List.mem_map.2 ⟨_, ht, rfl⟩)
  have hoff : wordOffset (E ++ [w]) w = (textBlob E).length :=
    wordOffset_append_of_not_mem hw []
  have hfilter : T.filter (fun p => decide (p.1 = w)) = [] := by
    rw [List.filter_eq_nil_iff]
    intro p hp
    have := hTw p hp
    have : p.1 ≠ w := fun e => hw (e ▸ this)
    simpa using this
  refine ⟨T ++ [(w, lineEntry st.tsize tags)], ?_⟩
  have hadd : addLine st w tags =
      { st with
        written := st.written ++ (w ++ [0]),
        prevTsize := st.tsize,
        tsize := uint32 (st.tsize + uint32 (w ++ [0]).length),
        prevText := w ++ [0],
        entries := st.entries ++ [lineEntry st.tsize tags],
        esize := uint32 (st.esize + 8),
        prevEntries := [lineEntry st.tsize tags] } := by
    simp [addLine, startWord, hpt, findMorphDbEntry, findMorphDbEntryFrom]
  rw [hadd]
  exact
    { written := by
        simp only [h.written, textBlob_append, textBlob, List.append_nil]
      tsize := by
        simp only [h.tsize, textBlob_append, textBlob, List.append_nil, List.length_append]
        rw [uint32_add]
      entries := by simp [h.entries]
      esize := by
        simp only [h.esize, List.length_append, List.length_singleton]
        rw [uint32_add_left]
        congr 1
      nodupE := by
        rw [List.nodup_append]
        refine ⟨h.nodupE, by simp, ?_⟩
        intro a ha hb
        simp only [List.mem_singleton] at hb
        exact hw (hb ▸ ha)
      memE := by
        intro x
        simp only [List.map_append, List.map_cons, List.map_nil, List.mem_append,
          List.mem_singleton, h.memE]
      lastE := by simp
      prevText := by simp
      prevTsize := by
        simp only [List.getLast?_concat, hoff]
        exact h.tsize
      prevEntries := by
        simp only [List.getLast?_concat, List.filter_append, hfilter, List.nil_append]
        simp
      sound := by
        intro p hp
        rcases List.mem_append.1 hp with hp | hp
        · obtain ⟨t, ht, he⟩ := h.sound p hp
          refine ⟨t, List.mem_append_left _ ht, ?_⟩
          rw [wordOffset_append_of_mem (hTw p hp)]
          exact he
        · simp only [List.mem_singleton] at hp
          subst hp
          refine ⟨tags, by simp, ?_⟩
          simp only [hoff]
          rw [h.tsize]
      complete := by
        intro r hr
        rcases List.mem_append.1 hr with hr | hr
        · have hrE : r.1 ∈ E := (h.memE r.1).2 (List.mem_map.2 ⟨_, hr, rfl⟩)
          rw [wordOffset_append_of_mem hrE]
          exact List.mem_append_left _ (h.complete r hr)
        · simp only [List.mem_singleton] at hr
          subst hr
          simp only [hoff]
          rw [← h.tsize]
          simp
      nodupT := by
        rw [List.nodup_append]
        refine ⟨h.nodupT, by simp, ?_⟩
        intro a ha hb
        simp only [List.mem_singleton] at hb
        subst hb
        exact hw (hTw _ ha)
      ordered := by
        simp only [List.map_append, List.map_cons, List.map_nil]
        exact h.ordered.append (List.Sublist.refl _) }

theorem keyLe_refl (a : GoString) : keyLe a a = true := strLe_refl _

theorem parseRecords_inv :
    ∀ recs : List (GoString × GoString),
      recs.Pairwise (fun a b => keyLe a.1 b.1 = true) →
      ∃ E T, BuildInv recs (recs.foldl (fun st r => addLine st r.1 r.2) parseInit) E T := by
  intro recs
  induction recs using List.reverseRecOn with
  | nil => intro _; exact ⟨[], [], BuildInv_init⟩
  | append_singleton pre r ih =>
    intro hpw
    rw [List.pairwise_append] at hpw
    obtain ⟨hpre, _, hlt⟩ := hpw
    obtain ⟨E, T, hinv⟩ := ih hpre
    rw [List.foldl_append]
    simp only [List.foldl_cons, List.foldl_nil]
    by_cases hl : E.getLast? = some r.1
    · obtain ⟨T', h'⟩ := addLine_inv_same hinv r.1 r.2 hl
      exact ⟨E, T', h'⟩
    · have hw : r.1 ∉ E := by
        intro hmem
        apply hl
        have hmem' := (hinv.memE r.1).1 hmem
        obtain ⟨x, hx, hxr⟩ := List.mem_map.1 hmem'
        rw [hinv.lastE]
        have hne : pre ≠ [] := List.ne_nil_of_mem hx
        obtain ⟨ys, hys⟩ := List.getLast?_eq_some_iff.1 (List.getLast?_eq_getLast pre hne)
        rw [List.getLast?_map, List.getLast?_eq_getLast pre hne]
        simp only [Option.map_some']
        congr 1
        have h1 : keyLe (pre.getLast hne).1 r.1 = true :=
          hlt _ (List.getLast_mem hne) r (by simp)
        have h2 : keyLe x.1 (pre.getLast hne).1 = true := by
          rw [hys] at hx hpre
          rcases List.mem_append.1 hx with hx | hx
          · rw [List.pairwise_append] at hpre
            exact hpre.2.2 x hx _ (by simp)
          · simp only [List.mem_singleton] at hx
            rw [hx]; exact keyLe_refl _
        rw [hxr] at h2
        exact keyLe_antisymm h1 h2
      obtain ⟨T', h'⟩ := addLine_inv_new hinv r.1 r.2 hl hw
      exact ⟨E ++ [r.1], T', h'⟩

theorem lineRecords_sorted (lines : List GoString) :
    (lineRecords (sortStrings lines)).Pairwise (fun a b => keyLe a.1 b.1 = true) := by
  unfold lineRecords
  rw [List.pairwise_filterMap]
  refine (sortStrings_sorted lines).imp ?_
  intro l1 l2 hle r1 hr1 r2 hr2
  have h1 : parseLine l1 = some (r1.1, r1.2) := by simpa using hr1
  have h2 : parseLine l2 = some (r2.1, r2.2) := by simpa using hr2
  exact keyLe_of_parseLine h1 h2 hle

theorem parseLoop_inv (lines : List GoString) :
    ∃ E T, BuildInv (lineRecords (sortStrings lines)) (parseLoop (sortStrings lines)) E T := by
  rw [parseLoop_eq]
  exact parseRecords_inv _ (lineRecords_sorted lines)

/-! ## Word grouping and dedup -/

theorem updateMorphDbEntry_text (e : morphDbEntry) (off : Nat) (v : GoString) :
    updateMorphDbEntry { e with text := off } v = { updateMorphDbEntry e v with text := off } := by
  unfold updateMorphDbEntry
  split_ifs <;> rfl

theorem updateMorphDbEntry_reserved (e : morphDbEntry) (v : GoString) :
    (updateMorphDbEntry e v).reserved = e.reserved := by
  unfold updateMorphDbEntry
  split_ifs <;> rfl

theorem foldl_update_text (fields : List GoString) :
    ∀ (e : morphDbEntry) (off : Nat),
      fields.foldl updateMorphDbEntry { e with text := off }
        = { fields.foldl updateMorphDbEntry e with text := off } := by
  induction fields with
  | nil => intro e off; rfl
  | cons v vs ih =>
    intro e off
    simp only [List.foldl_cons]
    rw [updateMorphDbEntry_text, ih]

theorem foldl_update_reserved (fields : List GoString) :
    ∀ e : morphDbEntry, (fields.foldl updateMorphDbEntry e).reserved = e.reserved := by
  induction fields with
  | nil => intro e; rfl
  | cons v vs ih =>
    intro e
    simp only [List.foldl_cons]
    rw [ih, updateMorphDbEntry_reserved]

theorem lineEntry_eq (off : Nat) (tags : GoString) :
    lineEntry off tags = { lineEntry 0 tags with text := off } := by
  unfold lineEntry
  exact foldl_update_text _ ⟨0, 0, 0, 0, 0⟩ off

theorem lineEntry_text (off : Nat) (tags : GoString) : (lineEntry off tags).text = off := by
  rw [lineEntry_eq]

theorem lineEntry_reserved (off : Nat) (tags : GoString) :
    (lineEntry off tags).reserved = 0 := by
  unfold lineEntry
  rw [foldl_update_reserved]

theorem mem_lineRecords {lines : List GoString} {r : GoString × GoString} :
    r ∈ lineRecords lines ↔ ∃ l ∈ lines, parseLine l = some r := by
  unfold lineRecords
  rw [List.mem_filterMap]

theorem mem_lineRecords_sort {lines : List GoString} {r : GoString × GoString} :
    r ∈ lineRecords (sortStrings lines) ↔ ∃ l ∈ lines, parseLine l = some r := by
  rw [mem_lineRecords]
  constructor
  · rintro ⟨l, hl, h⟩; exact ⟨l, (sortStrings_perm lines).mem_iff.1 hl, h⟩
  · rintro ⟨l, hl, h⟩; exact ⟨l, (sortStrings_perm lines).mem_iff.2 hl, h⟩

theorem bytesToUint32_uint32ToBytes (x : Nat) (h : x < 2 ^ 32) :
    bytesToUint32 (x % 256) (x / 256 % 256) (x / 65536 % 256) (x / 16777216 % 256) = x := by
  unfold bytesToUint32
  omega

theorem castMorphDbEntriesToBytes_length (es : List morphDbEntry) :
    (castMorphDbEntriesToBytes es).length = 8 * es.length := by
  induction es with
  | nil => rfl
  | cons e es ih =>
    simp only [castMorphDbEntriesToBytes, castMorphDbEntryToBytes, uint32ToBytes,
      List.length_append, List.length_cons, List.length_nil, ih]
    omega

theorem bytesToMorphDbEntries_cast (es : List morphDbEntry)
    (h : ∀ e ∈ es, e.text < 2 ^ 32) :
    bytesToMorphDbEntries (castMorphDbEntriesToBytes es) = es := by
  induction es with
  | nil => rfl
  | cons e es ih =>
    have he := h e (List.mem_cons_self _ _)
    simp only [castMorphDbEntriesToBytes, castMorphDbEntryToBytes, uint32ToBytes,
      List.cons_append, List.nil_append, bytesToMorphDbEntries, List.append_eq]
    rw [bytesToUint32_uint32ToBytes _ he, ih (fun x hx => h x (List.mem_cons_of_mem _ hx))]

theorem bytesToMorphDbHeader_cast (hd : morphDbHeader) (hm : hd.magic < 2 ^ 32)
    (ht : hd.text_size < 2 ^ 32) (he : hd.entries_size < 2 ^ 32) (hr : hd.reserved < 2 ^ 32) :
    bytesToMorphDbHeader (castMorphDbHeaderToBytes hd) = hd := by
  simp only [bytesToMorphDbHeader, castMorphDbHeaderToBytes, uint32ToBytes, List.cons_append,
    List.nil_append, List.getD_cons_zero, List.getD_cons_succ]
  rw [bytesToUint32_uint32ToBytes _ hm, bytesToUint32_uint32ToBytes _ ht,
    bytesToUint32_uint32ToBytes _ he, bytesToUint32_uint32ToBytes _ hr]

theorem castMorphDbHeaderToBytes_length (hd : morphDbHeader) :
    (castMorphDbHeaderToBytes hd).length = 16 := by
  simp [castMorphDbHeaderToBytes, uint32ToBytes]

theorem maxRW_lt : maxRW < 2 ^ 32 := by decide

theorem File_Read_exact (a b c : List Nat) (pos n : Nat) (hp : pos = a.length)
    (hn : n = b.length) (hmax : n ≤ maxRW) :
    File.Read { content := a ++ (b ++ c), pos := pos } n
      = (b, n, { content := a ++ (b ++ c), pos := pos + n }) := by
  subst hp hn
  have h1 : ((a ++ (b ++ c)).drop a.length).take (min b.length maxRW) = b := by
    rw [Nat.min_eq_left hmax, List.drop_left, List.take_left]
  simp only [File.Read, h1, Nat.sub_self, List.replicate_zero, List.append_nil]

theorem InitMorph_of_parts (st : MorphState) (hb text eb : List Nat)
    (es : List morphDbEntry) (tsize esize : Nat)
    (hlen : hb.length = 16)
    (hhd : bytesToMorphDbHeader hb
      = { magic := morphDbMagic, text_size := tsize, entries_size := esize, reserved := 0 })
    (hts : tsize = text.length) (hes : esize = eb.length)
    (h8 : esize / 8 * 8 = esize)
    (hdec : bytesToMorphDbEntries eb = es)
    (ht : text.length ≤ maxRW) (he : eb.length ≤ maxRW) :
    InitMorph st (.ok (hb ++ (text ++ eb)))
      = (none, { morphText := text, morphEntries := some es }) := by
  have hr1 : File.Read { content := hb ++ (text ++ eb), pos := 0 } 16
      = (hb, 16, { content := hb ++ (text ++ eb), pos := 16 }) := by
    have := File_Read_exact [] hb (text ++ eb) 0 16 rfl hlen.symm (by decide)
    simpa using this
  have hr2 : File.Read { content := hb ++ (text ++ eb), pos := 16 } tsize
      = (text, tsize, { content := hb ++ (text ++ eb), pos := 16 + tsize }) :=
    File_Read_exact hb text eb 16 tsize hlen.symm hts (by rw [hts]; exact ht)
  have hr3 : File.Read { content := hb ++ (text ++ eb), pos := 16 + tsize } (esize / 8 * 8)
      = (eb, esize / 8 * 8,
          { content := hb ++ (text ++ eb), pos := 16 + tsize + esize / 8 * 8 }) := by
    have := File_Read_exact (hb ++ text) eb [] (16 + tsize) (esize / 8 * 8)
      (by rw [List.length_append, hlen, hts]) (by rw [h8, hes]) (by rw [h8, hes]; exact he)
    simpa using this
  have e1 : uint32 tsize = tsize := by
    rw [hts]; exact Nat.mod_eq_of_lt (lt_of_le_of_lt ht maxRW_lt)
  have e2 : uint32 (esize / 8 * 8) = esize := by
    rw [h8, hes]; exact Nat.mod_eq_of_lt (lt_of_le_of_lt he maxRW_lt)
  unfold InitMorph
  simp only [hr1, hhd, ne_eq, not_true_eq_false, if_false, hr2, e1, lt_irrefl, hr3, e2, hdec]

theorem InitMorph_BuildMorphDb (st : MorphState) (ToLower : GoString → GoString)
    (content : GoString)
    (ht : (parseLoop (buildLines ToLower content)).written.length ≤ maxRW)
    (he : 8 * (parseLoop (buildLines ToLower content)).entries.length ≤ maxRW)
    (hes : ∀ e ∈ (parseLoop (buildLines ToLower content)).entries, e.text < 2 ^ 32)
    (hts : (parseLoop (buildLines ToLower content)).tsize
      = (parseLoop (buildLines ToLower content)).written.length)
    (hesz : (parseLoop (buildLines ToLower content)).esize
      = 8 * (parseLoop (buildLines ToLower content)).entries.length) :
    InitMorph st (.ok (BuildMorphDb ToLower content))
      = (none, { morphText := (parseLoop (buildLines ToLower content)).written,
                 morphEntries := some (parseLoop (buildLines ToLower content)).entries }) := by
  have hhd := bytesToMorphDbHeader_cast
    { magic := morphDbMagic, text_size := (parseLoop (buildLines ToLower content)).tsize,
      entries_size := (parseLoop (buildLines ToLower content)).esize, reserved := 0 }
    (by simp [morphDbMagic]) (by simp only []; rw [hts]; exact lt_of_le_of_lt ht maxRW_lt)
    (by simp only []; rw [hesz]; exact lt_of_le_of_lt he maxRW_lt) (by simp)
  exact InitMorph_of_parts st _ (parseLoop (buildLines ToLower content)).written
    (castMorphDbEntriesToBytes (parseLoop (buildLines ToLower content)).entries)
    (parseLoop (buildLines ToLower content)).entries
    (parseLoop (buildLines ToLower content)).tsize
    (parseLoop (buildLines ToLower content)).esize
    (castMorphDbHeaderToBytes_length _) hhd hts
    (by rw [castMorphDbEntriesToBytes_length]; exact hesz)
    (by rw [hesz]; omega)
    (bytesToMorphDbEntries_cast _ hes) ht
    (by rw [castMorphDbEntriesToBytes_length]; exact he)

/-! ## Decoding a built table -/

theorem IndexByte_append (c : Nat) (w r : GoString) (h : c ∉ w) :
    IndexByte c (w ++ c :: r) = w.length := by
  induction w with
  | nil => simp [IndexByte]
  | cons b w ih =>
    have hb : b ≠ c := fun e => h (by simp [e])
    have hw : c ∉ w := fun hm => h (List.mem_cons_of_mem _ hm)
    have hne : (w.length : Int) ≠ -1 := by omega
    simp only [List.cons_append, IndexByte, hb, if_false, List.length_cons, List.append_eq]
    rw [ih hw]
    simp only [hne, if_false]
    push_cast
    rfl

theorem wordOffset_le (E : List GoString) (w : GoString) :
    wordOffset E w ≤ (textBlob E).length := by
  induction E with
  | nil => simp [wordOffset]
  | cons x E ih =>
    simp only [wordOffset, textBlob, List.length_append, List.length_cons, List.length_nil]
    split_ifs <;> omega

theorem drop_wordOffset {E : List GoString} {w : GoString} (h : w ∈ E) :
    ∃ r, (textBlob E).drop (wordOffset E w) = w ++ 0 :: r := by
  induction E with
  | nil => simp at h
  | cons x E ih =>
    by_cases hx : x = w
    · subst hx
      exact ⟨textBlob E, by simp [wordOffset, textBlob]⟩
    · have hw : w ∈ E := by
        rcases List.mem_cons.1 h with e | e
        · exact absurd e.symm hx
        · exact e
      obtain ⟨r, hr⟩ := ih hw
      refine ⟨r, ?_⟩
      simp only [wordOffset, hx, if_false, textBlob]
      have hlen : x.length + 1 + wordOffset E w = (x ++ [0]).length + wordOffset E w := by
        simp
      rw [hlen, List.drop_append]
      exact hr

theorem getMorphEntryText_built (E : List GoString) (es : List morphDbEntry) (i : Nat)
    (e : morphDbEntry) (w : GoString) (he : es[i]? = some e) (hw : w ∈ E) (h0 : 0 ∉ w)
    (htext : e.text = wordOffset E w) :
    getMorphEntryText { morphText := textBlob E, morphEntries := some es } i = some w := by
  obtain ⟨r, hr⟩ := drop_wordOffset hw
  have hle := wordOffset_le E w
  unfold getMorphEntryText
  simp only [MorphState.entries, Option.getD_some, he, htext, hle, if_true, hr,
    IndexByte_append 0 w r h0]
  simp

theorem findStringFrom_eq_neg_one (str : GoString) :
    ∀ (l : List GoString) (i : Nat), findStringFrom str l i = -1 ↔ str ∉ l := by
  intro l
  induction l with
  | nil => intro i; simp [findStringFrom]
  | cons s l ih =>
    intro i
    unfold findStringFrom
    by_cases hs : s = str
    · simp only [hs, if_true, List.mem_cons, true_or, not_true_eq_false, iff_false]
      omega
    · simp only [hs, if_false, List.mem_cons, ih]
      constructor
      · intro h hm
        rcases hm with h1 | h1
        · exact hs h1.symm
        · exact h h1
      · intro h hm
        exact h (Or.inr hm)

theorem update_unrecognised (e : morphDbEntry) (v : GoString) (hp : v ∉ morphPosValues)
    (hn : v ∉ morphNumberValues) (hc : v ∉ morphCaseValues) : updateMorphDbEntry e v = e := by
  unfold updateMorphDbEntry findString
  rw [(findStringFrom_eq_neg_one v _ 0).2 hp, (findStringFrom_eq_neg_one v _ 0).2 hn,
    (findStringFrom_eq_neg_one v _ 0).2 hc]
  simp

theorem enumerations_disjoint :
    (∀ v ∈ morphPosValues, v ∉ morphNumberValues ∧ v ∉ morphCaseValues) ∧
    (∀ v ∈ morphNumberValues, v ∉ morphPosValues ∧ v ∉ morphCaseValues) ∧
    (∀ v ∈ morphCaseValues, v ∉ morphPosValues ∧ v ∉ morphNumberValues) := by
  decide

theorem lastRecognised_append_mem (values fields : List GoString) (v : GoString)
    (h : v ∈ values) : lastRecognised values (fields ++ [v]) = some v := by
  simp [lastRecognised, List.filter_append, h]

theorem lastRecognised_append_not_mem (values fields : List GoString) (v : GoString)
    (h : v ∉ values) : lastRecognised values (fields ++ [v]) = lastRecognised values fields := by
  simp [lastRecognised, List.filter_append, h]

theorem attributeOf_succ (name : GoString) (values : List GoString) (i : Nat) (v : GoString)
    (h : values[i]? = some v) : attributeOf name values (i + 1) = attributeOpt name (some v) := by
  simp [attributeOf, attributeOpt, List.getD_eq_getElem?_getD, h]

/-- What the fold of `updateMorphDbEntry` over the fields of a tag list
maintains: each field of the entry is within its enumeration and encodes the
last recognised tag of that enumeration. -/
theorem foldl_update_recognised (fields : List GoString) (e0 : morphDbEntry)
    (h0 : e0.pos = 0 ∧ e0.number = 0 ∧ e0.case_ = 0) :
    (fields.foldl updateMorphDbEntry e0).pos ≤ 17 ∧
    (fields.foldl updateMorphDbEntry e0).number ≤ 2 ∧
    (fields.foldl updateMorphDbEntry e0).case_ ≤ 11 ∧
    attributeOf (ascii "pos") morphPosValues (fields.foldl updateMorphDbEntry e0).pos
      = attributeOpt (ascii "pos") (lastRecognised morphPosValues fields) ∧
    attributeOf (ascii "number") morphNumberValues (fields.foldl updateMorphDbEntry e0).number
      = attributeOpt (ascii "number") (lastRecognised morphNumberValues fields) ∧
    attributeOf (ascii "case") morphCaseValues (fields.foldl updateMorphDbEntry e0).case_
      = attributeOpt (ascii "case") (lastRecognised morphCaseValues fields) := by
  induction fields using List.reverseRecOn with
  | nil =>
    simp [h0.1, h0.2.1, h0.2.2, attributeOf, attributeOpt, lastRecognised]
  | append_singleton fields v ih =>
    obtain ⟨b1, b2, b3, a1, a2, a3⟩ := ih
    rw [List.foldl_append]
    simp only [List.foldl_cons, List.foldl_nil]
    by_cases hp : v ∈ morphPosValues
    · obtain ⟨i, hi, hiv⟩ := List.getElem_of_mem hp
      have hget : morphPosValues[i]? = some v := by
        rw [List.getElem?_eq_getElem hi, hiv]
      have hi17 : i < 17 := by simpa [morphPosValues] using hi
      have hd := enumerations_disjoint.1 v hp
      rw [update_pos _ i v hget]
      simp only []
      rw [lastRecognised_append_mem _ _ _ hp, lastRecognised_append_not_mem _ _ _ hd.1,
        lastRecognised_append_not_mem _ _ _ hd.2]
      exact ⟨by omega, b2, b3, attributeOf_succ _ _ _ _ hget, a2, a3⟩
    · by_cases hn : v ∈ morphNumberValues
      · obtain ⟨i, hi, hiv⟩ := List.getElem_of_mem hn
        have hget : morphNumberValues[i]? = some v := by
          rw [List.getElem?_eq_getElem hi, hiv]
        have hi2 : i < 2 := by simpa [morphNumberValues] using hi
        have hd := enumerations_disjoint.2.1 v hn
        rw [update_number _ i v hget]
        simp only []
        rw [lastRecognised_append_mem _ _ _ hn, lastRecognised_append_not_mem _ _ _ hp,
          lastRecognised_append_not_mem _ _ _ hd.2]
        exact ⟨b1, by omega, b3, a1, attributeOf_succ _ _ _ _ hget, a3⟩
      · by_cases hc : v ∈ morphCaseValues
        · obtain ⟨i, hi, hiv⟩ := List.getElem_of_mem hc
          have hget : morphCaseValues[i]? = some v := by
            rw [List.getElem?_eq_getElem hi, hiv]
          have hi11 : i < 11 := by simpa [morphCaseValues] using hi
          rw [update_case _ i v hget]
          simp only []
          rw [lastRecognised_append_mem _ _ _ hc, lastRecognised_append_not_mem _ _ _ hp,
            lastRecognised_append_not_mem _ _ _ hn]
          exact ⟨b1, b2, by omega, a1, a2, attributeOf_succ _ _ _ _ hget⟩
        · rw [update_unrecognised _ v hp hn hc,
            lastRecognised_append_not_mem _ _ _ hp, lastRecognised_append_not_mem _ _ _ hn,
            lastRecognised_append_not_mem _ _ _ hc]
          exact ⟨b1, b2, b3, a1, a2, a3⟩

theorem lineEntry_recognised (off : Nat) (tags : GoString) :
    (lineEntry off tags).pos ≤ 17 ∧ (lineEntry off tags).number ≤ 2 ∧
    (lineEntry off tags).case_ ≤ 11 ∧
    attributeOf (ascii "pos") morphPosValues (lineEntry off tags).pos
        ++ attributeOf (ascii "number") morphNumberValues (lineEntry off tags).number
        ++ attributeOf (ascii "case") morphCaseValues (lineEntry off tags).case_
      = recognisedAttributes tags := by
  obtain ⟨b1, b2, b3, a1, a2, a3⟩ :=
    foldl_update_recognised (FieldsFunc isTagSeparator tags) ⟨off, 0, 0, 0, 0⟩ ⟨rfl, rfl, rfl⟩
  refine ⟨b1, b2, b3, ?_⟩
  unfold recognisedAttributes lineEntry
  rw [a1, a2, a3]

/-! ## Build, then load -/

theorem getD_lt_256 (l : List Nat) (k : Nat) (h : ∀ b ∈ l, b < 256) : l.getD k 0 < 256 := by
  rw [List.getD_eq_getElem?_getD]
  cases hk : l[k]? with
  | none => simp
  | some b =>
    simp only [Option.getD_some]
    exact h b (List.mem_iff_getElem?.2 ⟨k, hk⟩)

theorem bytesToUint32_lt (b0 b1 b2 b3 : Nat) (h0 : b0 < 256) (h1 : b1 < 256) (h2 : b2 < 256)
    (h3 : b3 < 256) : bytesToUint32 b0 b1 b2 b3 < 2 ^ 32 := by
  unfold bytesToUint32
  omega

theorem File_Read_length (f : File) (n : Nat) :
    (File.Read f n).2.1 = min (min n maxRW) (f.content.length - f.pos) ∧
    (File.Read f n).2.2
      = { f with pos := f.pos + min (min n maxRW) (f.content.length - f.pos) } := by
  simp [File.Read, List.length_take, List.length_drop]

/-- The truncation check of `InitMorph` does work once the 16-byte header is
whole: a file of at least 16 bytes with the magic, shorter than the header plus
the two sizes it declares, is refused with "unexpected end of file" and nothing
is left loaded. -/
theorem InitMorph_truncated_payload (st : MorphState) (content : List Nat)
    (hbytes : ∀ b ∈ content, b < 256) (hlen : 16 ≤ content.length)
    (hmagic : (bytesToMorphDbHeader (content.take 16)).magic = morphDbMagic)
    (htrunc : content.length < 16 + (bytesToMorphDbHeader (content.take 16)).text_size
      + (bytesToMorphDbHeader (content.take 16)).entries_size) :
    InitMorph st (.ok content)
      = (some "unexpected end of file", { morphText := [], morphEntries := none }) := by
  have hb16 : ∀ b ∈ content.take 16, b < 256 :=
    fun b hb => hbytes b (List.mem_of_mem_take hb)
  have htlt : (bytesToMorphDbHeader (content.take 16)).text_size < 2 ^ 32 :=
    bytesToUint32_lt _ _ _ _ (getD_lt_256 _ _ hb16) (getD_lt_256 _ _ hb16)
      (getD_lt_256 _ _ hb16) (getD_lt_256 _ _ hb16)
  have helt : (bytesToMorphDbHeader (content.take 16)).entries_size < 2 ^ 32 :=
    bytesToUint32_lt _ _ _ _ (getD_lt_256 _ _ hb16) (getD_lt_256 _ _ hb16)
      (getD_lt_256 _ _ hb16) (getD_lt_256 _ _ hb16)
  have hr1 : File.Read { content := content, pos := 0 } 16
      = (content.take 16, 16, { content := content, pos := 16 }) := by
    have h1 : (content.take 16).length = 16 := by
      rw [List.length_take]; omega
    simp [File.Read, min_16_maxRW, h1]
  unfold InitMorph FinalizeMorph
  simp only [hr1, ne_eq, hmagic, not_true_eq_false, if_false]
  obtain ⟨hc2, hf2⟩ := File_Read_length { content := content, pos := 16 }
    (bytesToMorphDbHeader (content.take 16)).text_size
  simp only [] at hc2 hf2
  by_cases hlt : uint32 (File.Read { content := content, pos := 16 }
      (bytesToMorphDbHeader (content.take 16)).text_size).2.1
      < (bytesToMorphDbHeader (content.take 16)).text_size
  · rw [if_pos hlt]
  · rw [if_neg hlt, hf2]
    have hcount : min (min (bytesToMorphDbHeader (content.take 16)).text_size maxRW)
        (content.length - 16) = (bytesToMorphDbHeader (content.take 16)).text_size := by
      rw [hc2] at hlt
      have hle : uint32 (min (min (bytesToMorphDbHeader (content.take 16)).text_size maxRW)
          (content.length - 16))
          = min (min (bytesToMorphDbHeader (content.take 16)).text_size maxRW)
            (content.length - 16) := by
        apply Nat.mod_eq_of_lt
        omega
      rw [hle] at hlt
      omega
    rw [hcount]
    obtain ⟨hc3, _⟩ := File_Read_length
      { content := content,
        pos := 16 + (bytesToMorphDbHeader (content.take 16)).text_size }
      ((bytesToMorphDbHeader (content.take 16)).entries_size / 8 * 8)
    simp only [] at hc3
    have hlt3 : uint32 (File.Read
        { content := content,
          pos := 16 + (bytesToMorphDbHeader (content.take 16)).text_size }
        ((bytesToMorphDbHeader (content.take 16)).entries_size / 8 * 8)).2.1
        < (bytesToMorphDbHeader (content.take 16)).entries_size := by
      rw [hc3]
      exact lt_of_le_of_lt (Nat.mod_le _ _) (by omega)
    rw [if_pos hlt3]

theorem InitMorph_truncated_payload_witness :
    InitMorph exampleDb (.ok (magicBytes ++ [1, 0, 0, 0, 0, 0, 0, 0, 0, 0, 0, 0]))
      = (some "unexpected end of file", { morphText := [], morphEntries := none }) :=
  InitMorph_truncated_payload exampleDb _ (by decide) (by decide) (by decide) (by decide)

/-- A whole file is refused too when its header declares a text blob longer than
one `Read` returns: the read of the blob comes back short of `text_size`, which
`InitMorph` reports as "unexpected end of file". -/
theorem InitMorph_large_blob_refused (st : MorphState) (content : List Nat)
    (hlen : 16 ≤ content.length)
    (hmagic : (bytesToMorphDbHeader (content.take 16)).magic = morphDbMagic)
    (hbig : maxRW < (bytesToMorphDbHeader (content.take 16)).text_size) :
    InitMorph st (.ok content)
      = (some "unexpected end of file", { morphText := [], morphEntries := none }) := by
  have hr1 : File.Read { content := content, pos := 0 } 16
      = (content.take 16, 16, { content := content, pos := 16 }) := by
    have h1 : (content.take 16).length = 16 := by
      rw [List.length_take]; omega
    simp [File.Read, min_16_maxRW, h1]
  unfold InitMorph FinalizeMorph
  simp only [hr1, ne_eq, hmagic, not_true_eq_false, if_false]
  obtain ⟨hc2, _⟩ := File_Read_length { content := content, pos := 16 }
    (bytesToMorphDbHeader (content.take 16)).text_size
  simp only [] at hc2
  have hlt : uint32 (File.Read { content := content, pos := 16 }
      (bytesToMorphDbHeader (content.take 16)).text_size).2.1
      < (bytesToMorphDbHeader (content.take 16)).text_size := by
    rw [hc2]
    exact lt_of_le_of_lt (Nat.mod_le _ _) (by omega)
  rw [if_pos hlt]

theorem InitMorph_large_blob_refused_witness :
    InitMorph exampleDb (.ok (magicBytes ++ [0, 0, 0, 128, 0, 0, 0, 0, 0, 0, 0, 0]))
      = (some "unexpected end of file", { morphText := [], morphEntries := none }) :=
  InitMorph_large_blob_refused exampleDb _ (by decide) (by decide) (by decide)

/-! ## Lookup with a separator when the word itself is in the table -/

theorem HasPrefix_iff (t q : GoString) : HasPrefix t q = true ↔ ∃ c, t = q ++ c := by
  induction q generalizing t with
  | nil => cases t <;> simp [HasPrefix]
  | cons b q ih =>
    cases t with
    | nil => simp [HasPrefix]
    | cons a t =>
      simp only [HasPrefix, List.cons_append, List.cons.injEq]
      by_cases hab : a = b
      · simp only [hab, if_true, true_and]
        exact ih t
      · simp [hab]

theorem strLe_append_right (q c : GoString) : strLe q (q ++ c) = true := by
  induction q with
  | nil => rfl
  | cons b q ih => simp [strLe, ih]

theorem strLe_append_self_iff (p s : GoString) (hs : s ≠ []) : strLe (p ++ s) p = false := by
  induction p with
  | nil =>
    cases s with
    | nil => exact absurd rfl hs
    | cons a s => rfl
  | cons b p ih => simp [strLe, ih]

theorem decodeAll_append (st : MorphState) (A B : List Nat) :
    decodeAll st (A ++ B)
      = (decodeAll st A).bind (fun f1 => (decodeAll st B).map (fun ms => f1 ++ ms)) := by
  induction A with
  | nil =>
    simp only [List.nil_append, decodeAll, Option.some_bind]
    cases decodeAll st B <;> simp
  | cons a A ih =>
    simp only [List.cons_append, decodeAll]
    cases getMorphEntryMatch st a with
    | none => rfl
    | some m =>
      simp only [List.append_eq]
      rw [ih]
      cases decodeAll st A with
      | none => rfl
      | some f1 =>
        simp only [Option.some_bind, Option.map_some']
        cases decodeAll st B <;> simp

theorem prefix_run_eq (st : MorphState) (q : GoString) (hs : SortedByText st) (k : Nat)
    (hlow : ∀ x, x < k → x < st.entries.length →
      textCond st (fun t => HasPrefix t q) x = false)
    (hhigh : ∀ x, k ≤ x → x < st.entries.length →
      textCond st (fun t => strGe t q) x = true) :
    (List.range' k (st.entries.length - k)).takeWhile (textCond st (fun t => HasPrefix t q))
      = indicesWhere st (fun t => HasPrefix t q) := by
  unfold indicesWhere
  have hfilter : (List.range st.entries.length).filter (textCond st (fun t => HasPrefix t q))
      = (List.range' k (st.entries.length - k)).filter
          (textCond st (fun t => HasPrefix t q)) := by
    by_cases hkn : k ≤ st.entries.length
    · have hsplit : List.range st.entries.length
          = List.range' 0 k ++ List.range' k (st.entries.length - k) := by
        rw [List.range_eq_range']
        have := List.range'_append_1 0 k (st.entries.length - k)
        simp only [Nat.zero_add] at this
        rw [this]
        congr 1; omega
      rw [hsplit, List.filter_append]
      have hfirst : (List.range' 0 k).filter (textCond st (fun t => HasPrefix t q)) = [] := by
        rw [List.filter_eq_nil_iff]
        intro x hx
        have hx' := List.mem_range'_1.1 hx
        simp [hlow x (by omega) (by omega)]
      rw [hfirst, List.nil_append]
    · have h0 : st.entries.length - k = 0 := by omega
      rw [h0]
      simp only [List.range'_zero, List.filter_nil]
      rw [List.filter_eq_nil_iff]
      intro x hx
      have hx' : x < st.entries.length := List.mem_range.1 hx
      simp [hlow x (by omega) hx']
  rw [hfilter]
  symm
  apply filter_eq_takeWhile
  have hpw := List.pairwise_lt_range' k (st.entries.length - k) 1
  refine hpw.imp_of_mem ?_
  intro a b ha hb hab hcb
  have ha' := List.mem_range'_1.1 ha
  have hb' := List.mem_range'_1.1 hb
  have hga := hhigh a (by omega) (by omega)
  have hle := hs.2 b (by omega) a hab
  unfold textCond at hcb hga ⊢
  unfold textLe at hle
  cases hta : getMorphEntryText st a with
  | none => simp [hta] at hga
  | some ta =>
    cases htb : getMorphEntryText st b with
    | none => simp [htb] at hcb
    | some tb =>
      simp only [hta, htb] at hcb hga hle ⊢
      obtain ⟨c, hc⟩ := (HasPrefix_iff tb q).1 hcb
      rw [hc] at hle
      obtain ⟨c', hc'⟩ := strLe_between_prefix q [] c ta (by simpa [strGe] using hga) hle
      exact (HasPrefix_iff ta q).2 ⟨c', hc'⟩

/-- The multi-token lookup is as described whenever the word itself is in the
table: on a table sorted by text in which some entry has text `p`,
`FindTerminals(p, s)` with a non-empty separator is the decoded entries with text
`p` followed by the decoded entries whose text starts with `p ++ s`, in table
order. -/
theorem FindTerminals_separator_of_exact (st : MorphState) (p s : GoString)
    (hs : SortedByText st) (hsep : s ≠ [])
    (hex : ∃ i, i < st.entries.length ∧ getMorphEntryText st i = some p) :
    FindTerminals st p s = multiTokenExpected st p s := by
  obtain ⟨k, hk, hkn, hlow, hhigh⟩ := Search_sorted st p hs 0 st.entries.length (by simp)
    (fun i => (getMorphEntryText st i).map (fun t => strGe t p)) (by intro i; simp)
  have hkn' : k ≤ st.entries.length := by simpa using hkn
  have hlow' : ∀ x, x < k → textCond st (fun t => strGe t p) x = false :=
    fun x hx => hlow x (Nat.zero_le _) (by omega)
  have hhigh' : ∀ x, k ≤ x → x < st.entries.length →
      textCond st (fun t => strGe t p) x = true :=
    fun x hx hxn => hhigh x (by omega) hxn
  obtain ⟨i0, hi0, hti0⟩ := hex
  have hki0 : k ≤ i0 := by
    by_contra hlt
    have := hlow' i0 (by omega)
    simp [textCond, hti0, strGe, strLe_refl] at this
  have hklt : k < st.entries.length := by omega
  have htk : getMorphEntryText st k = some p := by
    have hgk := hhigh' k (le_refl _) hklt
    rcases Nat.eq_or_lt_of_le hki0 with e | e
    · rw [e]; exact hti0
    · have hle := hs.2 i0 hi0 k e
      unfold textCond at hgk
      unfold textLe at hle
      cases htk : getMorphEntryText st k with
      | none => simp [htk] at hgk
      | some tk =>
        simp only [htk, hti0] at hgk hle
        simp only [strGe] at hgk
        rw [strLe_antisymm hle hgk]
  obtain ⟨k2, hk2, _, hlow2, hhigh2⟩ := Search_sorted st (p ++ s) hs (k + 1)
    ((st.entries.length : Int) - k - 1) (by push_cast; ring)
    (fun i => (getMorphEntryText st (k + i + 1)).map (fun t => strGe t (p ++ s)))
    (by intro i; simp only []; rw [show k + i + 1 = k + 1 + i by omega])
  have hnoprefix : ∀ t : GoString, strLe (p ++ s) t = false → HasPrefix t (p ++ s) = false := by
    intro t ht
    by_contra hc
    have hc' : HasPrefix t (p ++ s) = true := by simpa using hc
    obtain ⟨c, hc2⟩ := (HasPrefix_iff t (p ++ s)).1 hc'
    rw [hc2, strLe_append_right] at ht
    exact Bool.noConfusion ht
  have hrun2 := prefix_run_eq st (p ++ s) hs (k + k2 + 1)
    (by
      intro x hx hxn
      have hsome := hs.1 x hxn
      cases htx : getMorphEntryText st x with
      | none => simp [htx] at hsome
      | some t =>
        simp only [textCond, htx]
        apply hnoprefix
        by_cases hxk : x < k
        · have := hlow' x hxk
          simp only [textCond, htx, strGe] at this
          by_contra hc
          have hc' : strLe (p ++ s) t = true := by simpa using hc
          have := strLe_trans (strLe_append_right p s) hc'
          simp_all
        · by_cases hxk2 : x = k
          · rw [hxk2, htk] at htx
            simp only [Option.some.injEq] at htx
            rw [← htx]
            exact strLe_append_self_iff p s hsep
          · have := hlow2 x (by omega) (by omega)
            simpa [textCond, htx, strGe] using this)
    (by
      intro x hx hxn
      exact hhigh2 x (by omega) hxn)
  unfold FindTerminals multiTokenExpected
  have hlen : ¬ s.length = 0 := by
    intro h
    exact hsep (List.length_eq_zero.1 h)
  simp only [Option.bind_eq_bind, hk, Option.some_bind]
  rw [collectLoop_eq st _ hs.1 _ _ _ (by omega), exact_run_eq st p hs k hkn' hlow' hhigh',
    decodeAll_append]
  cases hd1 : decodeAll st (indicesWhere st (fun t => decide (t = p))) with
  | none => rfl
  | some f1 =>
    simp only [Option.map_some', Option.some_bind, hlen, if_false, List.nil_append, hk2]
    rw [collectLoop_eq st _ hs.1 _ _ _ (by omega), hrun2]

theorem FindTerminals_separator_of_exact_witness :
    FindTerminals exampleDb dom (ascii " ") = multiTokenExpected exampleDb dom (ascii " ") :=
  FindTerminals_separator_of_exact exampleDb dom (ascii " ") (by decide) (by decide)
    ⟨0, by decide, by decide⟩

/-! ## Sortedness of built tables whose words hold no byte below the tab -/

theorem strLe_of_keyLe :
    ∀ (a b : GoString), (∀ x ∈ a, 9 ≤ x) → (∀ x ∈ b, 9 ≤ x) → keyLe a b = true →
      strLe a b = true := by
  intro a
  induction a with
  | nil => intro b _ _ _; rfl
  | cons x a ih =>
    intro b ha hb h
    have hx := ha x (List.mem_cons_self _ _)
    cases b with
    | nil =>
      simp only [keyLe, List.cons_append, List.nil_append, strLe] at h
      by_cases h9 : x < 9
      · omega
      · by_cases h9' : 9 < x
        · simp [h9, h9'] at h
        · simp only [h9, h9', if_false] at h
          cases a <;> simp [strLe] at h
    | cons y b =>
      simp only [keyLe, List.cons_append, strLe] at h ⊢
      by_cases hxy : x < y
      · simp [hxy]
      · by_cases hyx : y < x
        · simp [hxy, hyx] at h
        · simp only [hxy, hyx, if_false] at h ⊢
          exact ih b (fun z hz => ha z (List.mem_cons_of_mem _ hz))
            (fun z hz => hb z (List.mem_cons_of_mem _ hz)) h

/-- The table built and loaded is sorted by text when no word of the lexicon
holds a byte below 0x09 and the text blob and the entry table are each at most
`maxRW` bytes long: then the order of whole lines and the order of words agree. -/
theorem build_table_sorted (ToLower : GoString → GoString) (content : GoString)
    (hbytes : ∀ r ∈ lineRecords (Split 10 (ToLower content)), ∀ x ∈ r.1, 9 ≤ x)
    (ht : (parseLoop (buildLines ToLower content)).written.length ≤ maxRW)
    (he : 8 * (parseLoop (buildLines ToLower content)).entries.length ≤ maxRW) :
    (buildThenLoad ToLower content).1 = none ∧
    SortedByText (buildThenLoad ToLower content).2 := by
  obtain ⟨E, T, hinv⟩ := parseLoop_inv (Split 10 (ToLower content))
  have hbl : buildLines ToLower content = sortStrings (Split 10 (ToLower content)) := rfl
  rw [hbl] at ht he
  have hwlen : (textBlob E).length < 2 ^ 32 := by
    rw [← hinv.written]; exact lt_of_le_of_lt ht maxRW_lt
  have hTlen : 8 * T.length < 2 ^ 32 := by
    have := he
    rw [hinv.entries, List.length_map] at this
    exact lt_of_le_of_lt this maxRW_lt
  have hoff : ∀ w, uint32 (wordOffset E w) = wordOffset E w := by
    intro w
    exact Nat.mod_eq_of_lt (lt_of_le_of_lt (wordOffset_le E w) hwlen)
  have hload : buildThenLoad ToLower content
      = (none, { morphText := textBlob E, morphEntries := some (T.map Prod.snd) }) := by
    unfold buildThenLoad
    rw [InitMorph_BuildMorphDb _ ToLower content (by rw [hbl]; exact ht)
      (by rw [hbl]; exact he)]
    · rw [hbl, hinv.written, hinv.entries]
    · rw [hbl, hinv.entries]
      intro e hmem
      obtain ⟨p, hp, hpe⟩ := List.mem_map.1 hmem
      obtain ⟨tags, _, hp2⟩ := hinv.sound p hp
      rw [← hpe, hp2, lineEntry_text]
      exact Nat.mod_lt _ (by norm_num)
    · rw [hbl, hinv.tsize, hinv.written]
      exact Nat.mod_eq_of_lt hwlen
    · rw [hbl, hinv.esize, hinv.entries, List.length_map]
      exact Nat.mod_eq_of_lt hTlen
  have hword : ∀ p ∈ T, ∀ x ∈ p.1, 9 ≤ x := by
    intro p hp
    obtain ⟨tags, hrec, _⟩ := hinv.sound p hp
    obtain ⟨l, hl, hpl⟩ := mem_lineRecords_sort.1 hrec
    exact hbytes (p.1, tags) (mem_lineRecords.2 ⟨l, hl, hpl⟩)
  have htext : ∀ (i : Nat) (p : GoString × morphDbEntry), T[i]? = some p →
      getMorphEntryText { morphText := textBlob E, morphEntries := some (T.map Prod.snd) } i
        = some p.1 := by
    intro i p hi
    have hpT : p ∈ T := List.mem_iff_getElem?.2 ⟨i, hi⟩
    obtain ⟨tags, hrec, hp2⟩ := hinv.sound p hpT
    rw [hoff] at hp2
    have hwE : p.1 ∈ E := (hinv.memE p.1).2 (List.mem_map.2 ⟨_, hrec, rfl⟩)
    have h0 : 0 ∉ p.1 := by
      intro hm
      have := hword p hpT 0 hm
      omega
    exact getMorphEntryText_built E (T.map Prod.snd) i p.2 p.1
      (by simp [List.getElem?_map, hi]) hwE h0 (by rw [hp2, lineEntry_text])
  have hsorted : (T.map Prod.fst).Pairwise (fun a b => keyLe a b = true) := by
    have hrecs := lineRecords_sorted (Split 10 (ToLower content))
    have hmap : ((lineRecords (sortStrings (Split 10 (ToLower content)))).map Prod.fst).Pairwise
        (fun a b => keyLe a b = true) := by
      rw [List.pairwise_map]
      exact hrecs
    exact hmap.sublist hinv.ordered
  rw [hload]
  refine ⟨rfl, ?_, ?_⟩
  · intro i hi
    have hiT : i < T.length := by simpa [MorphState.entries] using hi
    rw [htext i T[i] (List.getElem?_eq_getElem hiT)]
    rfl
  · intro j hj i hij
    have hjT : j < T.length := by simpa [MorphState.entries] using hj
    have hiT : i < T.length := by omega
    unfold textLe
    rw [htext i T[i] (List.getElem?_eq_getElem hiT), htext j T[j] (List.getElem?_eq_getElem hjT)]
    simp only []
    have hkey : keyLe T[i].1 T[j].1 = true := by
      have h := List.pairwise_iff_getElem.1 hsorted i j (by simpa using hiT) (by simpa using hjT)
        hij
      simpa using h
    exact strLe_of_keyLe _ _ (hword _ (List.getElem_mem hiT)) (hword _ (List.getElem_mem hjT))
      hkey

theorem build_table_sorted_witness :
    (buildThenLoad asciiToLower domLexicon).1 = none ∧
    SortedByText (buildThenLoad asciiToLower domLexicon).2 :=
  build_table_sorted asciiToLower domLexicon (by decide) (by decide) (by decide)

/-! ## Lookup on an absent database -/

/-- C18 (lookup on an absent database): after `FinalizeMorph`, and in the state
before any successful `InitMorph` (empty text, nil entries), `FindTerminals(p, s)`
returns the empty sequence for every `p` and every `s`, empty or not: no probe
and no loop body runs; the second search is called with length
`len(morphEntries)-index-1 = -1` and returns `0` without probing. -/
theorem FindTerminals_absent (st : MorphState) (p s : GoString) :
    FindTerminals (FinalizeMorph st) p s = some [] ∧
    FindTerminals { morphText := [], morphEntries := none } p s = some [] ∧
    (((FinalizeMorph st).entries.length : Int) - (0 : Nat) - 1 = -1 ∧
      ∀ f : Nat → Option Bool, Search (-1) f = some 0) := by
  have h : FindTerminals { morphText := [], morphEntries := none } p s = some [] := by
    unfold FindTerminals
    by_cases hs : s.length = 0
    · simp [MorphState.entries, Search, searchLoop, collectLoop, hs]
    · simp [MorphState.entries, Search, searchLoop, collectLoop, hs]
  refine ⟨h, h, by simp [FinalizeMorph, MorphState.entries], fun f => Search_neg f (-1) (by omega)⟩

/-! ## The grammar table -/

theorem mapIndex_ne_nil_mem (name : GoString) :
    FindNonterminalRules name ≠ [] ↔ name ∈ nonterminalNames := by
  unfold FindNonterminalRules nonterminals nonterminalNames
  simp only [mapIndex, List.mem_cons, List.mem_singleton, List.not_mem_nil, or_false]
  by_cases h1 : ascii "sentence" = name
  · simp [h1.symm]
  · by_cases h2 : ascii "in_adverbial_modifier" = name
    · subst h2; decide
    · by_cases h3 : ascii "extended_objects" = name
      · subst h3; decide
      · by_cases h4 : ascii "extended_object" = name
        · subst h4; decide
        · by_cases h5 : ascii "participle_phrase" = name
          · subst h5; decide
          · simp only [h1, h2, h3, h4, h5, if_false, ne_eq, not_true_eq_false, false_iff]
            intro h
            rcases h with h | h | h | h | h
            · exact h1 h.symm
            · exact h2 h.symm
            · exact h3 h.symm
            · exact h4 h.symm
            · exact h5 h.symm

/-- C14 (grammar table lookup): `FindNonterminalRules(name)` returns the
alternatives of each of the five nonterminals in their declared order, the empty
sequence for every other name, and so a non-empty result exactly for the known
nonterminals. -/
theorem FindNonterminalRules_spec :
    FindNonterminalRules (ascii "sentence") =
      [ascii "{in_adverbial_modifier} {pos=verb number=@2} {extended_objects case=@1 number=@2}, {participle_phrase case=@1 number=@2}."] ∧
    FindNonterminalRules (ascii "in_adverbial_modifier") =
      [cyrV ++ ascii " {extended_objects case=loct}"] ∧
    FindNonterminalRules (ascii "extended_objects") =
      [ascii "{extended_object !case !number}",
       ascii "@{number=plur}{extended_object !case=@1}, {extended_objects case=@1}",
       ascii "@{number=plur}{extended_object !case=@1} " ++ cyrI
         ++ ascii " {extended_objects case=@1}"] ∧
    FindNonterminalRules (ascii "extended_object") =
      [ascii "{pos=noun !case !number}",
       ascii "{pos=adjf case=@1 number=@2} {pos=noun !case=@1 !number=@2}",
       ascii "{pos=adjf case=@1 number=@2} {pos=noun !case=@1 !number=@2} {extended_objects case=gent}"] ∧
    FindNonterminalRules (ascii "participle_phrase") =
      [ascii "{pos=prtf !case !number} {extended_objects case=ablt}"] ∧
    (∀ name, name ∉ nonterminalNames → FindNonterminalRules name = []) ∧
    (∀ name, FindNonterminalRules name ≠ [] ↔ name ∈ nonterminalNames) := by
  refine ⟨by decide, by decide, by decide, by decide, by decide, ?_, mapIndex_ne_nil_mem⟩
  intro name hn
  by_contra hne
  exact hn ((mapIndex_ne_nil_mem name).1 hne)

theorem FindNonterminalRules_spec_witness :
    FindNonterminalRules (ascii "noun") = [] :=
  FindNonterminalRules_spec.2.2.2.2.2.1 (ascii "noun") (by decide)

/-! ## Frame of `updateMorphDbEntry` -/

theorem recognised_cases {v : GoString} (h : recognised v) :
    (∃ i : Nat, morphPosValues[i]? = some v) ∨ (∃ i : Nat, morphNumberValues[i]? = some v) ∨
      (∃ i : Nat, morphCaseValues[i]? = some v) := by
  rcases h with h | h | h
  · exact Or.inl (List.mem_iff_getElem?.1 h)
  · exact Or.inr (Or.inl (List.mem_iff_getElem?.1 h))
  · exact Or.inr (Or.inr (List.mem_iff_getElem?.1 h))

/-- C11 (unrecognised tags are ignored, as amended): a value in none of the three
enumerations leaves the entry unchanged; a recognised value sets the matching
field to its index plus one and leaves the text offset, the reserved byte and
the other two attribute fields as they were, so at most one of pos, number, case
changes, and exactly one does precisely when the entry is not left as it was
(the matching field did not already hold that value). -/
theorem updateMorphDbEntry_frame (e : morphDbEntry) (v : GoString) :
    (¬ recognised v → updateMorphDbEntry e v = e) ∧
    (∀ i : Nat, morphPosValues[i]? = some v →
      updateMorphDbEntry e v = { e with pos := i + 1 }) ∧
    (∀ i : Nat, morphNumberValues[i]? = some v →
      updateMorphDbEntry e v = { e with number := i + 1 }) ∧
    (∀ i : Nat, morphCaseValues[i]? = some v →
      updateMorphDbEntry e v = { e with case_ := i + 1 }) ∧
    (recognised v →
      (updateMorphDbEntry e v).text = e.text ∧
      (updateMorphDbEntry e v).reserved = e.reserved ∧
      changedAttributeFields e (updateMorphDbEntry e v) ≤ 1 ∧
      (changedAttributeFields e (updateMorphDbEntry e v) = 1 ↔ updateMorphDbEntry e v ≠ e)) := by
  refine ⟨?_, fun i h => update_pos e i v h, fun i h => update_number e i v h,
    fun i h => update_case e i v h, ?_⟩
  · intro h
    unfold recognised at h
    push_neg at h
    exact update_unrecognised e v h.1 h.2.1 h.2.2
  · intro h
    obtain ⟨t, p, n, c, r⟩ := e
    rcases recognised_cases h with ⟨i, hi⟩ | ⟨i, hi⟩ | ⟨i, hi⟩
    · rw [update_pos _ i v hi]
      simp only [changedAttributeFields, morphDbEntry.mk.injEq, true_and, and_true]
      by_cases hp : p = i + 1
      · simp [hp]
      · simp [hp, Ne.symm hp]
    · rw [update_number _ i v hi]
      simp only [changedAttributeFields, morphDbEntry.mk.injEq, true_and, and_true]
      by_cases hp : n = i + 1
      · simp [hp]
      · simp [hp, Ne.symm hp]
    · rw [update_case _ i v hi]
      simp only [changedAttributeFields, morphDbEntry.mk.injEq, true_and, and_true]
      by_cases hp : c = i + 1
      · simp [hp]
      · simp [hp, Ne.symm hp]

theorem updateMorphDbEntry_frame_witness :
    updateMorphDbEntry ⟨7, 1, 0, 0, 0⟩ (ascii "masc") = ⟨7, 1, 0, 0, 0⟩ ∧
    updateMorphDbEntry ⟨7, 1, 0, 0, 0⟩ (ascii "plur") = ⟨7, 1, 2, 0, 0⟩ ∧
    changedAttributeFields ⟨7, 1, 0, 0, 0⟩ (updateMorphDbEntry ⟨7, 1, 0, 0, 0⟩ (ascii "plur")) ≤ 1 :=
  ⟨(updateMorphDbEntry_frame ⟨7, 1, 0, 0, 0⟩ (ascii "masc")).1 (by decide),
   (updateMorphDbEntry_frame ⟨7, 1, 0, 0, 0⟩ (ascii "plur")).2.2.1 1 (by decide),
   ((updateMorphDbEntry_frame ⟨7, 1, 0, 0, 0⟩ (ascii "plur")).2.2.2.2 (by decide)).2.2.1⟩

/-- C11 as stated fails when the matching field already holds the value: "noun"
is recognised, and updating an entry whose pos is already 1 with it changes none
of pos, number, case. -/
theorem update_recognised_changes_nothing :
    recognised (ascii "noun") ∧
    updateMorphDbEntry ⟨0, 1, 0, 0, 0⟩ (ascii "noun") = ⟨0, 1, 0, 0, 0⟩ ∧
    changedAttributeFields ⟨0, 1, 0, 0, 0⟩ (updateMorphDbEntry ⟨0, 1, 0, 0, 0⟩ (ascii "noun")) = 0 ∧
    ¬ changedAttributeFields ⟨0, 1, 0, 0, 0⟩
        (updateMorphDbEntry ⟨0, 1, 0, 0, 0⟩ (ascii "noun")) = 1 := by
  decide

/-! ## Independence of the order of lines -/

theorem Split_map (f : Nat → Nat) (sep : Nat) (hf : ∀ b, f b = sep ↔ b = sep) :
    ∀ s : GoString, Split sep (s.map f) = (Split sep s).map (fun l => l.map f) := by
  intro s
  induction s with
  | nil => rfl
  | cons c cs ih =>
    by_cases hc : c = sep
    · have hfc : f c = sep := (hf c).2 hc
      simp [Split, hc, hfc, ih, (hf sep).2 rfl]
    · have hfc : ¬ f c = sep := fun h => hc ((hf c).1 h)
      simp only [List.map_cons, Split, hfc, hc, if_false, ih]
      cases Split sep cs <;> simp

theorem asciiToLower_linewise (c : GoString) :
    Split 10 (asciiToLower c) = (Split 10 c).map asciiToLower := by
  unfold asciiToLower
  exact Split_map _ 10 (by intro b; split_ifs <;> omega) c

/-- C12 (line-order independence): two lexicons whose lower-cased lines are the
same up to order are built into the same loop state (text blob, entry table,
sizes), the same payload and the same file; and when lower-casing acts line by
line, as `strings.ToLower` does, this holds for every reordering of the lines of
the lexicon itself. -/
theorem build_line_order_independent (ToLower : GoString → GoString) (c1 c2 : GoString) :
    ((Split 10 (ToLower c1)).Perm (Split 10 (ToLower c2)) →
      parseLoop (buildLines ToLower c1) = parseLoop (buildLines ToLower c2) ∧
      parseMorphLines (buildLines ToLower c1) = parseMorphLines (buildLines ToLower c2) ∧
      BuildMorphDb ToLower c1 = BuildMorphDb ToLower c2) ∧
    ((∀ c, Split 10 (ToLower c) = (Split 10 c).map ToLower) →
      (Split 10 c1).Perm (Split 10 c2) →
      parseLoop (buildLines ToLower c1) = parseLoop (buildLines ToLower c2) ∧
      parseMorphLines (buildLines ToLower c1) = parseMorphLines (buildLines ToLower c2) ∧
      BuildMorphDb ToLower c1 = BuildMorphDb ToLower c2) := by
  have key : (Split 10 (ToLower c1)).Perm (Split 10 (ToLower c2)) →
      parseLoop (buildLines ToLower c1) = parseLoop (buildLines ToLower c2) ∧
      parseMorphLines (buildLines ToLower c1) = parseMorphLines (buildLines ToLower c2) ∧
      BuildMorphDb ToLower c1 = BuildMorphDb ToLower c2 := by
    intro hperm
    have hl : buildLines ToLower c1 = buildLines ToLower c2 := sortStrings_eq_of_perm hperm
    unfold BuildMorphDb
    rw [hl]
    exact ⟨rfl, rfl, rfl⟩
  refine ⟨key, ?_⟩
  intro hT hperm
  apply key
  rw [hT c1, hT c2]
  exact hperm.map ToLower

theorem build_line_order_independent_witness :
    parseLoop (buildLines asciiToLower domLexicon)
        = parseLoop (buildLines asciiToLower domLexiconPermuted) ∧
    parseMorphLines (buildLines asciiToLower domLexicon)
        = parseMorphLines (buildLines asciiToLower domLexiconPermuted) ∧
    BuildMorphDb asciiToLower domLexicon = BuildMorphDb asciiToLower domLexiconPermuted :=
  (build_line_order_independent asciiToLower domLexicon domLexiconPermuted).2
    asciiToLower_linewise (by decide)

/-! ## Well-formedness of the built-in grammar -/

/-- C16 (the built-in grammar is well-formed): every raw pattern of the
`nonterminals` table is an alternative of the pattern mini-language: braces
balanced and not nested, no empty term, every clause of the form
`['!'] name ['=' (value | '@' digits)]`, and `@` outside braces only as the
first byte, immediately before the first `{`. The recogniser does refuse an
unclosed brace, a nested brace, an empty term, a malformed clause and a
misplaced `@` (in the strings below `\x7b` and `\x7d` are the two braces). -/
theorem nonterminals_well_formed :
    (∀ kv ∈ nonterminals, ∀ alt ∈ kv.2, isAlternative alt = true) ∧
    isAlternative (ascii "\x7bpos=noun") = false ∧
    isAlternative (ascii "\x7bpos=noun \x7bcase\x7d\x7d") = false ∧
    isAlternative (ascii "a \x7b\x7d b") = false ∧
    isAlternative (ascii "\x7bpos=\x7d") = false ∧
    isAlternative (ascii "\x7bpos=@x\x7d") = false ∧
    isAlternative (ascii "\x7bpos=noun\x7d@\x7bcase\x7d") = false ∧
    isAlternative (ascii "@ \x7bpos=noun\x7d") = false := by
  decide

/-! ## The header is written last -/

theorem writeAt_empty (data : List Nat) (h : data ≠ []) :
    writeAt [] 16 data = List.replicate 16 0 ++ data := by
  simp [writeAt, h]

theorem writeAt_chunks (a b : List Nat) :
    writeAt (writeAt [] 16 a) (16 + a.length) b = writeAt [] 16 (a ++ b) := by
  by_cases ha : a = []
  · subst ha
    simp [writeAt]
  · by_cases hb : b = []
    · subst hb
      simp [writeAt]
    · have hab : a ++ b ≠ [] := by simp [ha]
      rw [writeAt_empty a ha, writeAt_empty (a ++ b) hab]
      simp only [writeAt, hb, if_false]
      have hlen : (List.replicate 16 0 ++ a).length = 16 + a.length := by
        rw [List.length_append, List.length_replicate]
      rw [hlen, Nat.sub_self, List.replicate_zero, List.append_nil,
        List.take_of_length_le (by omega), List.drop_of_length_le (by rw [hlen]; omega)]
      simp

theorem writeAt_header (hb data : List Nat) (hlen : hb.length = 16) (hne : hb ≠ []) :
    writeAt (writeAt [] 16 data) 0 hb = hb ++ data := by
  by_cases hd : data = []
  · subst hd
    simp [writeAt, hne]
  · rw [writeAt_empty data hd]
    simp only [writeAt, hne, if_false, List.take_zero, List.nil_append, Nat.zero_add, hlen]
    rw [List.drop_left' (by simp)]

theorem InitMorph_of_magic_ne (st : MorphState) (content : List Nat)
    (key : (bytesToMorphDbHeader (File.Read { content := content, pos := 0 } 16).1).magic
      ≠ morphDbMagic) :
    InitMorph st (.ok content)
      = (some "bad file magic", { morphText := [], morphEntries := none }) := by
  simp only [InitMorph, FinalizeMorph]
  rw [if_pos key]

theorem InitMorph_zero_header (st : MorphState) (rest : List Nat) :
    InitMorph st (.ok (0 :: 0 :: 0 :: 0 :: rest))
      = (some "bad file magic", { morphText := [], morphEntries := none }) := by
  apply InitMorph_of_magic_ne
  simp [File.Read, min_16_maxRW, bytesToMorphDbHeader, bytesToUint32, morphDbMagic]

/-- C13 (header written last): at every point before the final `WriteAt`,
whatever part of the payload has reached the destination file, the file is empty
or starts with 16 zero bytes, so its first four bytes are not the magic and
`InitMorph` refuses it with "bad file magic", leaving nothing loaded; successive
writes of the buffered writer leave a prefix of the payload at offset 16; and
the header write at offset 0 on the fully written payload gives the file of
`BuildMorphDb`. -/
theorem BuildMorphDb_header_last (ToLower : GoString → GoString) (content : GoString)
    (k : Nat) (st : MorphState) :
    (BuildMorphDbPartial ToLower content k = [] ∨
      BuildMorphDbPartial ToLower content k
        = List.replicate 16 0 ++ (buildPayload ToLower content).take k) ∧
    (BuildMorphDbPartial ToLower content k).take 4 ≠ magicBytes ∧
    InitMorph st (.ok (BuildMorphDbPartial ToLower content k))
      = (some "bad file magic", { morphText := [], morphEntries := none }) ∧
    InitMorph st (.ok []) = (some "bad file magic", { morphText := [], morphEntries := none }) ∧
    (∀ a b : List Nat, writeAt (writeAt [] 16 a) (16 + a.length) b = writeAt [] 16 (a ++ b)) ∧
    writeAt (BuildMorphDbPartial ToLower content (buildPayload ToLower content).length) 0
        (castMorphDbHeaderToBytes
          { magic := morphDbMagic,
            text_size := (parseMorphLines (buildLines ToLower content)).1,
            entries_size := (parseMorphLines (buildLines ToLower content)).2.1,
            reserved := 0 })
      = BuildMorphDb ToLower content := by
  have hempty : InitMorph st (.ok [])
      = (some "bad file magic", { morphText := [], morphEntries := none }) := by
    apply InitMorph_of_magic_ne
    simp [File.Read, min_16_maxRW, bytesToMorphDbHeader, bytesToUint32, morphDbMagic]
  have hform : BuildMorphDbPartial ToLower content k = [] ∨
      BuildMorphDbPartial ToLower content k
        = List.replicate 16 0 ++ (buildPayload ToLower content).take k := by
    unfold BuildMorphDbPartial
    by_cases hd : (buildPayload ToLower content).take k = []
    · left; simp [writeAt, hd]
    · right; exact writeAt_empty _ hd
  refine ⟨hform, ?_, ?_, hempty, writeAt_chunks, ?_⟩
  · rcases hform with h | h
    · rw [h]; decide
    · rw [h]
      simp [List.replicate, magicBytes]
  · rcases hform with h | h
    · rw [h]; exact hempty
    · rw [h]
      exact InitMorph_zero_header st _
  · unfold BuildMorphDbPartial BuildMorphDb buildPayload
    rw [List.take_length]
    exact writeAt_header _ _ (castMorphDbHeaderToBytes_length _)
      (by simp [castMorphDbHeaderToBytes, uint32ToBytes])

/-! ## The loop invariant on arbitrary lines -/

theorem LoopInv_init : LoopInv [] parseInit [] := by
  constructor <;> simp [parseInit, uint32]

theorem addLine_LoopInv {pre : List (GoString × GoString)} {st : ParseState}
    {T : List (GoString × morphDbEntry)} (h : LoopInv pre st T) (w tags : GoString) :
    ∃ T', LoopInv (pre ++ [(w, tags)]) (addLine st w tags) T' := by
  have hsound : ∀ (b' : List Nat), ∀ p ∈ T, ∃ tags' a b, (p.1, tags') ∈ pre ++ [(w, tags)] ∧
      p.2 = lineEntry (uint32 a.length) tags' ∧ st.written ++ b' = a ++ (p.1 ++ [0]) ++ b := by
    intro b' p hp
    obtain ⟨t, a, b, ht, he, hw⟩ := h.sound p hp
    exact ⟨t, a, b ++ b', List.mem_append_left _ ht, he, by rw [hw]; simp⟩
  by_cases hpt : w ++ [0] = st.prevText
  · -- the word of the previous line
    have hsw : startWord st (w ++ [0]) = st := by simp [startWord, hpt]
    obtain ⟨a, hwr, hps⟩ : ∃ a, st.written = a ++ (w ++ [0]) ∧ st.prevTsize = uint32 a.length := by
      rcases h.current with ⟨h1, _⟩ | ⟨a, w', h1, h2, h3⟩
      · rw [h1] at hpt; simp at hpt
      · have : w = w' := List.append_cancel_right (hpt.trans h2)
        subst this
        exact ⟨a, h1, h3⟩
    unfold addLine
    simp only [hsw]
    by_cases hf : findMorphDbEntry st.prevEntries (lineEntry st.prevTsize tags) = -1
    · refine ⟨T ++ [(w, lineEntry st.prevTsize tags)], ?_⟩
      simp only [hf, if_true]
      exact
        { tsize := h.tsize
          esize := by
            simp only [h.esize, List.length_append, List.length_singleton]
            rw [uint32_add_left]
            congr 1
          entries := by simp [h.entries]
          current := h.current
          sound := by
            intro p hp
            rcases List.mem_append.1 hp with hp | hp
            · have := hsound [] p hp
              simpa using this
            · simp only [List.mem_singleton] at hp
              subst hp
              exact ⟨tags, a, [], by simp, by simp only []; rw [hps], by simp [hwr]⟩ }
    · refine ⟨T, ?_⟩
      simp only [hf, if_false]
      exact
        { tsize := h.tsize
          esize := h.esize
          entries := h.entries
          current := h.current
          sound := by
            intro p hp
            have := hsound [] p hp
            simpa using this }
  · -- a new word
    have hadd : addLine st w tags =
        { st with
          written := st.written ++ (w ++ [0]),
          prevTsize := st.tsize,
          tsize := uint32 (st.tsize + uint32 (w ++ [0]).length),
          prevText := w ++ [0],
          entries := st.entries ++ [lineEntry st.tsize tags],
          esize := uint32 (st.esize + 8),
          prevEntries := [lineEntry st.tsize tags] } := by
      simp [addLine, startWord, hpt, findMorphDbEntry, findMorphDbEntryFrom]
    refine ⟨T ++ [(w, lineEntry st.tsize tags)], ?_⟩
    rw [hadd]
    exact
      { tsize := by
          simp only [h.tsize, List.length_append]
          rw [uint32_add]
        esize := by
          simp only [h.esize, List.length_append, List.length_singleton]
          rw [uint32_add_left]
          congr 1
        entries := by simp [h.entries]
        current := Or.inr ⟨st.written, w, rfl, rfl, h.tsize⟩
        sound := by
          intro p hp
          rcases List.mem_append.1 hp with hp | hp
          · exact hsound (w ++ [0]) p hp
          · simp only [List.mem_singleton] at hp
            subst hp
            exact ⟨tags, st.written, [], by simp, by simp only []; rw [h.tsize], by simp⟩ }

theorem parseRecords_LoopInv :
    ∀ recs : List (GoString × GoString),
      ∃ T, LoopInv recs (recs.foldl (fun st r => addLine st r.1 r.2) parseInit) T := by
  intro recs
  induction recs using List.reverseRecOn with
  | nil => exact ⟨[], LoopInv_init⟩
  | append_singleton pre r ih =>
    obtain ⟨T, hinv⟩ := ih
    rw [List.foldl_append]
    simp only [List.foldl_cons, List.foldl_nil]
    exact addLine_LoopInv hinv r.1 r.2

theorem parseLoop_LoopInv (lines : List GoString) :
    ∃ T, LoopInv (lineRecords lines) (parseLoop lines) T := by
  rw [parseLoop_eq]
  exact parseRecords_LoopInv _
/-! ## Declared sizes -/

theorem textBlob_length (E : List GoString) :
    (textBlob E).length = (E.map (fun w => w.length + 1)).sum := by
  induction E with
  | nil => rfl
  | cons w E ih =>
    simp only [textBlob, List.length_append, List.length_cons, List.length_nil, ih,
      List.map_cons, List.sum_cons]

theorem uint32_mul8_mod (n : Nat) : uint32 (8 * n) % 8 = 0 := by
  unfold uint32
  omega

theorem sorted_written_length (lines : List GoString) :
    (parseLoop (sortStrings lines)).written.length = distinctWordBytes lines := by
  obtain ⟨E, T, hinv⟩ := parseLoop_inv lines
  rw [hinv.written, textBlob_length]
  unfold distinctWordBytes
  apply List.Perm.sum_eq
  apply List.Perm.map
  rw [List.perm_ext_iff_of_nodup hinv.nodupE (List.nodup_dedup _)]
  intro w
  rw [hinv.memE, List.mem_dedup, List.mem_map, List.mem_map]
  constructor
  · rintro ⟨r, hr, hw⟩
    obtain ⟨l, hl, hp⟩ := mem_lineRecords_sort.1 hr
    exact ⟨r, mem_lineRecords.2 ⟨l, hl, hp⟩, hw⟩
  · rintro ⟨r, hr, hw⟩
    obtain ⟨l, hl, hp⟩ := mem_lineRecords.1 hr
    exact ⟨r, mem_lineRecords_sort.2 ⟨l, hl, hp⟩, hw⟩

/-- C15 (declared sizes match the payload, as amended): on every list of lines
`parseMorphLines` returns `tsize`, the number of bytes it wrote to the text blob,
and `esize`, 8 times the number of entries it wrote, both as `uint32`, hence
exactly when these numbers are below 2^32; `esize` is a multiple of 8 in any
case; the payload is the blob followed by 8 bytes per entry, so with sizes below
2^32 the header of `BuildMorphDb` declares exactly the lengths of the two parts
of the payload; and on lines sorted as `BuildMorphDb` sorts them, the number of
bytes of the blob is the sum of `len(word)+1` over the distinct words. -/
theorem parseMorphLines_sizes (lines : List GoString) (ToLower : GoString → GoString)
    (content : GoString) :
    (parseMorphLines lines).1 = uint32 (parseLoop lines).written.length ∧
    (parseMorphLines lines).2.1 = uint32 (8 * (parseLoop lines).entries.length) ∧
    (parseMorphLines lines).2.2
      = (parseLoop lines).written ++ castMorphDbEntriesToBytes (parseLoop lines).entries ∧
    (castMorphDbEntriesToBytes (parseLoop lines).entries).length
      = 8 * (parseLoop lines).entries.length ∧
    (parseMorphLines lines).2.1 % 8 = 0 ∧
    ((parseLoop lines).written.length < 2 ^ 32 →
      (parseMorphLines lines).1 = (parseLoop lines).written.length) ∧
    (8 * (parseLoop lines).entries.length < 2 ^ 32 →
      (parseMorphLines lines).2.1 = 8 * (parseLoop lines).entries.length) ∧
    ((parseLoop (buildLines ToLower content)).written.length < 2 ^ 32 →
      8 * (parseLoop (buildLines ToLower content)).entries.length < 2 ^ 32 →
      BuildMorphDb ToLower content
        = castMorphDbHeaderToBytes
            { magic := morphDbMagic,
              text_size := (parseLoop (buildLines ToLower content)).written.length,
              entries_size :=
                (castMorphDbEntriesToBytes (parseLoop (buildLines ToLower content)).entries).length,
              reserved := 0 }
          ++ ((parseLoop (buildLines ToLower content)).written
            ++ castMorphDbEntriesToBytes (parseLoop (buildLines ToLower content)).entries)) ∧
    (parseLoop (sortStrings lines)).written.length = distinctWordBytes lines := by
  have hsz : ∀ ls : List GoString,
      (parseLoop ls).tsize = uint32 (parseLoop ls).written.length ∧
      (parseLoop ls).esize = uint32 (8 * (parseLoop ls).entries.length) := by
    intro ls
    obtain ⟨T, hinv⟩ := parseLoop_LoopInv ls
    exact ⟨hinv.tsize, hinv.esize⟩
  obtain ⟨h1, h2⟩ := hsz lines
  have e1 : (parseMorphLines lines).1 = (parseLoop lines).tsize := rfl
  have e2 : (parseMorphLines lines).2.1 = (parseLoop lines).esize := rfl
  refine ⟨by rw [e1, h1], by rw [e2, h2], rfl, castMorphDbEntriesToBytes_length _, ?_, ?_, ?_,
    ?_, sorted_written_length lines⟩
  · rw [e2, h2]; exact uint32_mul8_mod _
  · intro hlt
    rw [e1, h1]
    exact Nat.mod_eq_of_lt hlt
  · intro hlt
    rw [e2, h2]
    exact Nat.mod_eq_of_lt hlt
  · intro ht he
    obtain ⟨h3, h4⟩ := hsz (buildLines ToLower content)
    have e3 : (parseMorphLines (buildLines ToLower content)).1
        = (parseLoop (buildLines ToLower content)).written.length := by
      show (parseLoop (buildLines ToLower content)).tsize = _
      rw [h3]; exact Nat.mod_eq_of_lt ht
    have e4 : (parseMorphLines (buildLines ToLower content)).2.1
        = (castMorphDbEntriesToBytes (parseLoop (buildLines ToLower content)).entries).length := by
      show (parseLoop (buildLines ToLower content)).esize = _
      rw [h4, castMorphDbEntriesToBytes_length]; exact Nat.mod_eq_of_lt he
    unfold BuildMorphDb
    simp only [e3, e4]
    rfl

theorem parseMorphLines_sizes_witness :
    (parseMorphLines (buildLines asciiToLower domLexicon)).1 = 7 ∧
    (parseMorphLines (buildLines asciiToLower domLexicon)).2.1 = 16 :=
  ⟨((parseMorphLines_sizes (buildLines asciiToLower domLexicon) asciiToLower
      domLexicon).2.2.2.2.2.1 (by decide)).trans (by decide),
   ((parseMorphLines_sizes (buildLines asciiToLower domLexicon) asciiToLower
      domLexicon).2.2.2.2.2.2.1 (by decide)).trans (by decide)⟩

/-- C15 as stated fails on a list that is not sorted: on the lines "a", "b", "a"
`parseMorphLines` writes the word "a" twice and returns `tsize = 6`, the number
of bytes written, while the sum of `len(word)+1` over the distinct words is 4. -/
theorem tsize_exceeds_distinct_words :
    (parseMorphLines unsortedLines).1 = 6 ∧
    (parseLoop unsortedLines).written.length = 6 ∧
    distinctWordBytes unsortedLines = 4 ∧
    (parseMorphLines unsortedLines).1 ≠ distinctWordBytes unsortedLines := by
  decide
/-! ## Lookup with a separator extends the plain lookup -/

theorem collectLoop_indices (st : MorphState) (cond : GoString → Bool) :
    ∀ fuel i found,
      collectLoop st cond fuel i found
        = (collectIndices st cond fuel i).bind
            (fun I => (decodeAll st I).map (fun ms => found ++ ms)) := by
  intro fuel
  induction fuel with
  | zero => intro i found; rfl
  | succ fuel ih =>
    intro i found
    unfold collectLoop collectIndices
    by_cases hi : i < st.entries.length
    · simp only [hi, if_true]
      cases ht : getMorphEntryText st i with
      | none => rfl
      | some t =>
        simp only []
        by_cases hc : cond t = true
        · simp only [hc, if_true]
          cases hm : getMorphEntryMatch st i with
          | none =>
            simp only []
            cases collectIndices st cond fuel (i + 1) with
            | none => rfl
            | some I => simp [decodeAll, hm]
          | some m =>
            simp only []
            rw [ih]
            cases collectIndices st cond fuel (i + 1) with
            | none => rfl
            | some I =>
              simp only [Option.some_bind, Option.map_some', decodeAll, hm]
              cases decodeAll st I <;> simp
        · simp [hc, decodeAll]
    · simp [hi, decodeAll]

theorem collectIndices_spec (st : MorphState) (cond : GoString → Bool) :
    ∀ fuel i I, collectIndices st cond fuel i = some I →
      I = List.range' i I.length ∧
      ∀ x ∈ I, x < st.entries.length ∧ ∃ t, getMorphEntryText st x = some t ∧ cond t = true := by
  intro fuel
  induction fuel with
  | zero => intro i I h; simp [collectIndices] at h
  | succ fuel ih =>
    intro i I h
    unfold collectIndices at h
    by_cases hi : i < st.entries.length
    · simp only [hi, if_true] at h
      cases ht : getMorphEntryText st i with
      | none => simp [ht] at h
      | some t =>
        simp only [ht] at h
        by_cases hc : cond t = true
        · simp only [hc, if_true, Option.map_eq_some'] at h
          obtain ⟨rest, hrest, hI⟩ := h
          obtain ⟨h1, h2⟩ := ih (i + 1) rest hrest
          subst hI
          refine ⟨?_, ?_⟩
          · simp only [List.length_cons, List.range'_succ]
            rw [← h1]
          · intro x hx
            rcases List.mem_cons.1 hx with e | e
            · rw [e]; exact ⟨hi, t, ht, hc⟩
            · exact h2 x e
        · simp only [hc] at h
          simp at h
          subst h
          simp
    · simp only [hi, if_false, Option.some.injEq] at h
      subst h
      simp

theorem decodeAll_mem (st : MorphState) :
    ∀ (I : List Nat) (ms : List ParseMatch), decodeAll st I = some ms →
      ∀ m ∈ ms, ∃ i ∈ I, getMorphEntryMatch st i = some m := by
  intro I
  induction I with
  | nil => intro ms h m hm; simp [decodeAll] at h; subst h; simp at hm
  | cons a I ih =>
    intro ms h m hm
    unfold decodeAll at h
    cases hma : getMorphEntryMatch st a with
    | none => simp [hma] at h
    | some m0 =>
      simp only [hma, Option.map_eq_some'] at h
      obtain ⟨rest, hrest, hms⟩ := h
      subst hms
      rcases List.mem_cons.1 hm with e | e
      · exact ⟨a, List.mem_cons_self _ _, by rw [e]; exact hma⟩
      · obtain ⟨i, hi, hmi⟩ := ih rest hrest m e
        exact ⟨i, List.mem_cons_of_mem _ hi, hmi⟩

theorem FindTerminals_eq_indices (st : MorphState) (p s : GoString) :
    FindTerminals st p s = (FindTerminalIndices st p s).bind (decodeAll st) := by
  unfold FindTerminals FindTerminalIndices
  simp only [Option.bind_eq_bind]
  cases Search st.entries.length
      (fun i => (getMorphEntryText st i).map (fun t => strGe t p)) with
  | none => rfl
  | some index =>
    simp only [Option.some_bind]
    rw [collectLoop_indices]
    cases collectIndices st (fun t => decide (t = p)) (st.entries.length + 1) index with
    | none => rfl
    | some I1 =>
      simp only [Option.some_bind]
      by_cases hs : s.length = 0
      · simp only [hs, if_true, Option.some_bind]
        cases decodeAll st I1 <;> simp
      · simp only [hs, if_false]
        cases hd1 : decodeAll st I1 with
        | none =>
          simp only [Option.map_none', Option.none_bind]
          cases Search ((st.entries.length : Int) - index - 1)
              (fun i => (getMorphEntryText st (index + i + 1)).map
                (fun t => strGe t (p ++ s))) with
          | none => rfl
          | some k =>
            simp only [Option.some_bind]
            cases collectIndices st (fun t => HasPrefix t (p ++ s)) (st.entries.length + 1)
                (index + k + 1) with
            | none => rfl
            | some I2 => simp [decodeAll_append, hd1]
        | some r1 =>
          simp only [Option.map_some', Option.some_bind, List.nil_append]
          cases Search ((st.entries.length : Int) - index - 1)
              (fun i => (getMorphEntryText st (index + i + 1)).map
                (fun t => strGe t (p ++ s))) with
          | none => rfl
          | some k =>
            simp only [Option.some_bind]
            rw [collectLoop_indices]
            cases collectIndices st (fun t => HasPrefix t (p ++ s)) (st.entries.length + 1)
                (index + k + 1) with
            | none => rfl
            | some I2 => simp [decodeAll_append, hd1]
theorem HasPrefix_self_append (p s : GoString) (hs : s ≠ []) : HasPrefix p (p ++ s) = false := by
  by_contra h
  have h' : HasPrefix p (p ++ s) = true := by simpa using h
  obtain ⟨c, hc⟩ := (HasPrefix_iff p (p ++ s)).1 h'
  have hl := congrArg List.length hc
  simp only [List.length_append] at hl
  have : s.length ≠ 0 := fun e => hs (List.length_eq_zero.1 e)
  omega

theorem FindTerminalIndices_split (st : MorphState) (p s : GoString) (hsep : s ≠ [])
    (I : List Nat) (h : FindTerminalIndices st p s = some I) :
    ∃ I1 I2, I = I1 ++ I2 ∧ FindTerminalIndices st p [] = some I1 ∧
      I1 = List.range' (I1.headD 0) I1.length ∧ I2 = List.range' (I2.headD 0) I2.length ∧
      (∀ i ∈ I1, i < st.entries.length ∧ getMorphEntryText st i = some p) ∧
      (∀ i ∈ I2, i < st.entries.length ∧
        ∃ t, getMorphEntryText st i = some t ∧ HasPrefix t (p ++ s) = true) := by
  have hlen : ¬ s.length = 0 := fun e => hsep (List.length_eq_zero.1 e)
  unfold FindTerminalIndices at h ⊢
  simp only [Option.bind_eq_bind, Option.bind_eq_some, hlen, if_false, List.length_nil,
    if_true] at h ⊢
  obtain ⟨index, hidx, I1, hI1, k, _, I2, hI2, hI⟩ := h
  simp only [Option.some.injEq] at hI
  obtain ⟨r1, c1⟩ := collectIndices_spec st _ _ _ _ hI1
  obtain ⟨r2, c2⟩ := collectIndices_spec st _ _ _ _ hI2
  have hhead : ∀ (J : List Nat) (i0 : Nat), J = List.range' i0 J.length →
      J = List.range' (J.headD 0) J.length := by
    intro J i0 hJ
    cases J with
    | nil => rfl
    | cons a J =>
      have hJ' := hJ
      rw [List.length_cons, List.range'_succ] at hJ'
      have : a = i0 := (List.cons.inj hJ').1
      subst this
      exact hJ
  refine ⟨I1, I2, hI.symm, ⟨index, hidx, I1, hI1, rfl⟩, hhead I1 _ r1, hhead I2 _ r2, ?_, ?_⟩
  · intro i hi
    obtain ⟨hlt, t, ht, hc⟩ := c1 i hi
    have : t = p := by simpa using hc
    rw [this] at ht
    exact ⟨hlt, ht⟩
  · intro i hi
    exact c2 i hi

/-- C19 (separator lookup extends plain lookup): for every state, prefix `p` and
non-empty separator `s`, when `FindTerminals(p, s)` returns, `FindTerminals(p, "")`
returns too and is a prefix of it, and every further match has a text starting
with `p ++ s`; the matches returned are those of the table entries at the indices
`FindTerminalIndices`, which are two runs of consecutive indices, the first of
entries with text `p` and the second of entries whose text starts with `p ++ s`,
and no index occurs twice; and the call does return when every entry decodes. -/
theorem FindTerminals_separator_extends (st : MorphState) (p s : GoString) (hsep : s ≠ []) :
    FindTerminals st p s = (FindTerminalIndices st p s).bind (decodeAll st) ∧
    FindTerminals st p [] = (FindTerminalIndices st p []).bind (decodeAll st) ∧
    (∀ r2, FindTerminals st p s = some r2 →
      ∃ r1 extra, FindTerminals st p [] = some r1 ∧ r2 = r1 ++ extra ∧
        ∀ m ∈ extra, HasPrefix m.Text (p ++ s) = true) ∧
    (∀ I, FindTerminalIndices st p s = some I →
      I.Nodup ∧
      ∃ I1 I2, I = I1 ++ I2 ∧ FindTerminalIndices st p [] = some I1 ∧
        I1 = List.range' (I1.headD 0) I1.length ∧ I2 = List.range' (I2.headD 0) I2.length ∧
        (∀ i ∈ I1, i < st.entries.length ∧ getMorphEntryText st i = some p) ∧
        (∀ i ∈ I2, i < st.entries.length ∧
          ∃ t, getMorphEntryText st i = some t ∧ HasPrefix t (p ++ s) = true)) ∧
    (Decodable st → ∃ r2, FindTerminals st p s = some r2) := by
  refine ⟨FindTerminals_eq_indices st p s, FindTerminals_eq_indices st p [], ?_, ?_,
    fun hd => FindTerminals_isSome st p s hd⟩
  · intro r2 h
    rw [FindTerminals_eq_indices] at h
    cases hI : FindTerminalIndices st p s with
    | none => simp [hI] at h
    | some I =>
      simp only [hI, Option.some_bind] at h
      obtain ⟨I1, I2, hsplit, hplain, _, _, _, c2⟩ := FindTerminalIndices_split st p s hsep I hI
      rw [hsplit, decodeAll_append] at h
      cases hd1 : decodeAll st I1 with
      | none => simp [hd1] at h
      | some r1 =>
        cases hd2 : decodeAll st I2 with
        | none => simp [hd1, hd2] at h
        | some extra =>
          simp only [hd1, hd2, Option.some_bind, Option.map_some', Option.some.injEq] at h
          refine ⟨r1, extra, ?_, h.symm, ?_⟩
          · rw [FindTerminals_eq_indices, hplain]
            exact hd1
          · intro m hm
            obtain ⟨i, hi, hmi⟩ := decodeAll_mem st I2 extra hd2 m hm
            obtain ⟨_, t, ht, hc⟩ := c2 i hi
            have := getMorphEntryMatch_text hmi
            rw [ht] at this
            simp only [Option.some.injEq] at this
            rw [← this]; exact hc
  · intro I hI
    obtain ⟨I1, I2, hsplit, hplain, r1, r2, c1, c2⟩ := FindTerminalIndices_split st p s hsep I hI
    refine ⟨?_, I1, I2, hsplit, hplain, r1, r2, c1, c2⟩
    rw [hsplit, List.nodup_append]
    refine ⟨?_, ?_, ?_⟩
    · rw [r1]; exact List.nodup_range' _ _
    · rw [r2]; exact List.nodup_range' _ _
    · intro a ha hb
      obtain ⟨_, hta⟩ := c1 a ha
      obtain ⟨_, t, ht, hc⟩ := c2 a hb
      rw [hta] at ht
      simp only [Option.some.injEq] at ht
      rw [← ht, HasPrefix_self_append p s hsep] at hc
      exact Bool.noConfusion hc

theorem FindTerminals_separator_extends_witness :
    (∃ r1 extra, FindTerminals phraseDb (ascii "a") [] = some r1 ∧
      phraseMatches = r1 ++ extra ∧
      ∀ m ∈ extra, HasPrefix m.Text (ascii "a" ++ ascii " ") = true) ∧
    ([0, 1, 2, 3].Nodup ∧
      ∃ I1 I2, [0, 1, 2, 3] = I1 ++ I2 ∧
        FindTerminalIndices phraseDb (ascii "a") [] = some I1 ∧
        I1 = List.range' (I1.headD 0) I1.length ∧ I2 = List.range' (I2.headD 0) I2.length ∧
        (∀ i ∈ I1, i < phraseDb.entries.length ∧
          getMorphEntryText phraseDb i = some (ascii "a")) ∧
        (∀ i ∈ I2, i < phraseDb.entries.length ∧
          ∃ t, getMorphEntryText phraseDb i = some t ∧
            HasPrefix t (ascii "a" ++ ascii " ") = true)) ∧
    FindTerminals phraseDb (ascii "a") [] = some (phraseMatches.take 2) ∧
    FindTerminalIndices phraseDb (ascii "a") [] = some [0, 1] ∧
    ∃ r2, FindTerminals phraseDb (ascii "a") (ascii " ") = some r2 :=
  ⟨(FindTerminals_separator_extends phraseDb (ascii "a") (ascii " ") (by decide)).2.2.1
      phraseMatches (by decide),
    (FindTerminals_separator_extends phraseDb (ascii "a") (ascii " ") (by decide)).2.2.2.1
      [0, 1, 2, 3] (by decide),
    by decide, by decide,
    (FindTerminals_separator_extends phraseDb (ascii "a") (ascii " ") (by decide)).2.2.2.2
      (by decide)⟩

/-! ## Built tables are safe to decode -/

theorem parseStepTraced_fst (lines : List GoString) :
    ∀ s : ParseState × List GoString,
      (lines.foldl parseStepTraced s).1 = lines.foldl parseStep s.1 := by
  induction lines with
  | nil => intro s; rfl
  | cons l ls ih =>
    intro s
    simp only [List.foldl_cons]
    rw [ih]
    rfl

theorem TraceInv_init : TraceInv [] (parseInit, []) [] := by
  constructor <;> simp [parseInit, uint32]

theorem parseStepTraced_TraceInv {pre : List GoString} {s : ParseState × List GoString}
    {L : List (GoString × morphDbEntry)} (h : TraceInv pre s L) (l : GoString) :
    ∃ L', TraceInv (pre ++ [l]) (parseStepTraced s l) L' := by
  have hsound : ∀ (b' : List Nat), ∀ p ∈ L, p.1 ∈ pre ++ [l] ∧
      ∃ w tags a b, parseLine p.1 = some (w, tags) ∧
        p.2 = lineEntry (uint32 a.length) tags ∧ s.1.written ++ b' = a ++ (w ++ [0]) ++ b := by
    intro b' p hp
    obtain ⟨hm, w, t, a, b, hl, he, hw⟩ := h.sound p hp
    exact ⟨List.mem_append_left _ hm, w, t, a, b ++ b', hl, he, by rw [hw]; simp⟩
  cases hpl : parseLine l with
  | none =>
    have hst : parseStepTraced s l = s := by
      simp [parseStepTraced, parseStep, hpl]
    rw [hst]
    exact ⟨L,
      { tsize := h.tsize
        entries := h.entries
        lines := h.lines
        current := h.current
        sound := by
          intro p hp
          have := hsound [] p hp
          simpa using this }⟩
  | some r =>
    obtain ⟨w, tags⟩ := r
    have hstep : parseStep s.1 l = addLine s.1 w tags := by
      simp [parseStep, hpl]
    by_cases hpt : w ++ [0] = s.1.prevText
    · -- the word of the previous line
      have hsw : startWord s.1 (w ++ [0]) = s.1 := by simp [startWord, hpt]
      obtain ⟨a, hwr, hps⟩ :
          ∃ a, s.1.written = a ++ (w ++ [0]) ∧ s.1.prevTsize = uint32 a.length := by
        rcases h.current with ⟨h1, _⟩ | ⟨a, w', h1, h2, h3⟩
        · rw [h1] at hpt; simp at hpt
        · have : w = w' := List.append_cancel_right (hpt.trans h2)
          subst this
          exact ⟨a, h1, h3⟩
      by_cases hf : findMorphDbEntry s.1.prevEntries (lineEntry s.1.prevTsize tags) = -1
      · have hadd : addLine s.1 w tags =
            { s.1 with
              entries := s.1.entries ++ [lineEntry s.1.prevTsize tags],
              esize := uint32 (s.1.esize + 8),
              prevEntries := s.1.prevEntries ++ [lineEntry s.1.prevTsize tags] } := by
          unfold addLine
          simp only [hsw, hf, if_true]
        have hst : parseStepTraced s l = (addLine s.1 w tags, s.2 ++ [l]) := by
          simp [parseStepTraced, hstep, hadd]
        rw [hst, hadd]
        exact ⟨L ++ [(l, lineEntry s.1.prevTsize tags)],
          { tsize := h.tsize
            entries := by simp [h.entries]
            lines := by simp [h.lines]
            current := h.current
            sound := by
              intro p hp
              rcases List.mem_append.1 hp with hp | hp
              · have := hsound [] p hp
                simpa using this
              · simp only [List.mem_singleton] at hp
                subst hp
                exact ⟨by simp, w, tags, a, [], hpl, by simp only []; rw [hps],
                  by simp [hwr]⟩ }⟩
      · have hadd : addLine s.1 w tags = s.1 := by
          unfold addLine
          simp only [hsw, hf, if_false]
        have hst : parseStepTraced s l = s := by
          simp [parseStepTraced, hstep, hadd]
        rw [hst]
        exact ⟨L,
          { tsize := h.tsize
            entries := h.entries
            lines := h.lines
            current := h.current
            sound := by
              intro p hp
              have := hsound [] p hp
              simpa using this }⟩
    · -- a new word
      have hadd : addLine s.1 w tags =
          { s.1 with
            written := s.1.written ++ (w ++ [0]),
            prevTsize := s.1.tsize,
            tsize := uint32 (s.1.tsize + uint32 (w ++ [0]).length),
            prevText := w ++ [0],
            entries := s.1.entries ++ [lineEntry s.1.tsize tags],
            esize := uint32 (s.1.esize + 8),
            prevEntries := [lineEntry s.1.tsize tags] } := by
        simp [addLine, startWord, hpt, findMorphDbEntry, findMorphDbEntryFrom]
      have hst : parseStepTraced s l = (addLine s.1 w tags, s.2 ++ [l]) := by
        simp [parseStepTraced, hstep, hadd]
      rw [hst, hadd]
      exact ⟨L ++ [(l, lineEntry s.1.tsize tags)],
        { tsize := by
            simp only [h.tsize, List.length_append]
            rw [uint32_add]
          entries := by simp [h.entries]
          lines := by simp [h.lines]
          current := Or.inr ⟨s.1.written, w, rfl, rfl, h.tsize⟩
          sound := by
            intro p hp
            rcases List.mem_append.1 hp with hp | hp
            · exact hsound (w ++ [0]) p hp
            · simp only [List.mem_singleton] at hp
              subst hp
              exact ⟨by simp, w, tags, s.1.written, [], hpl, by simp only []; rw [h.tsize],
                by simp⟩ }⟩

theorem parseLoop_TraceInv (lines : List GoString) :
    ∃ L, TraceInv lines (parseLoop lines, entryLines lines) L := by
  have key : ∀ ls : List GoString,
      ∃ L, TraceInv ls (ls.foldl parseStepTraced (parseInit, [])) L := by
    intro ls
    induction ls using List.reverseRecOn with
    | nil => exact ⟨[], TraceInv_init⟩
    | append_singleton pre l ih =>
      obtain ⟨L, hinv⟩ := ih
      rw [List.foldl_append]
      simp only [List.foldl_cons, List.foldl_nil]
      exact parseStepTraced_TraceInv hinv l
  obtain ⟨L, hinv⟩ := key lines
  have h1 : (lines.foldl parseStepTraced (parseInit, [])).1 = parseLoop lines :=
    parseStepTraced_fst lines (parseInit, [])
  have h2 : lines.foldl parseStepTraced (parseInit, []) = (parseLoop lines, entryLines lines) := by
    rw [← h1]; rfl
  rw [h2] at hinv
  exact ⟨L, hinv⟩

/-- C17 (built databases are safe to decode, as amended): for every list of
lines whose words hold no 0x00 byte and whose text blob is shorter than 2^32
bytes, every entry produced by `parseMorphLines` was appended on a line of the
list, its text offset is the start of that line's word followed by 0x00 inside
the blob, its pos, number and case are within the enumerations, and on the blob
and table `getMorphEntryText` returns exactly the word of that line and
`getMorphEntryMatch` that word with the recognised attributes of that line,
neither slicing nor indexing out of range (`SafeToDecode`). -/
theorem parseMorphLines_safe_to_decode (lines : List GoString)
    (hnul : ∀ r ∈ lineRecords lines, 0 ∉ r.1)
    (ht : (parseLoop lines).written.length < 2 ^ 32) :
    SafeToDecode lines := by
  obtain ⟨L, hinv⟩ := parseLoop_TraceInv lines
  have hE : (parseLoop lines).entries = L.map Prod.snd := hinv.entries
  have hL : entryLines lines = L.map Prod.fst := hinv.lines
  refine ⟨by rw [hE, hL, List.length_map, List.length_map], ?_⟩
  intro i e l hi hl
  rw [hE, List.getElem?_map] at hi
  rw [hL, List.getElem?_map] at hl
  cases hLi : L[i]? with
  | none => simp [hLi] at hi
  | some p =>
    simp only [hLi, Option.map_some', Option.some.injEq] at hi hl
    have hpL : p ∈ L := List.mem_iff_getElem?.2 ⟨i, hLi⟩
    obtain ⟨hmem, w, tags, a, b, hpl, hent, hwr⟩ := hinv.sound p hpL
    have hwr' : (parseLoop lines).written = a ++ (w ++ [0]) ++ b := hwr
    rw [hl] at hmem hpl
    rw [hi] at hent
    have halen : a.length < 2 ^ 32 := by
      have : a.length ≤ (parseLoop lines).written.length := by
        rw [hwr']; simp only [List.length_append]; omega
      omega
    have hoff : uint32 a.length = a.length := Nat.mod_eq_of_lt halen
    rw [hoff] at hent
    have h0 : 0 ∉ w := hnul (w, tags) (mem_lineRecords.2 ⟨l, hmem, hpl⟩)
    obtain ⟨b1, b2, b3, hattrs⟩ := lineEntry_recognised a.length tags
    have hentry : (MorphState.entries (builtState lines))[i]? = some e := by
      simp [MorphState.entries, builtState, hE, List.getElem?_map, hLi, hi]
    have htext : getMorphEntryText (builtState lines) i = some w := by
      unfold getMorphEntryText
      have hle : e.text ≤ (builtState lines).morphText.length := by
        show e.text ≤ (parseLoop lines).written.length
        rw [hent, lineEntry_text, hwr']; simp only [List.length_append]; omega
      have hdrop : (builtState lines).morphText.drop e.text = w ++ 0 :: b := by
        show (parseLoop lines).written.drop e.text = w ++ 0 :: b
        rw [hent, lineEntry_text, hwr', List.append_assoc, List.drop_left]
        simp
      simp only [hentry, hle, if_true, hdrop, IndexByte_append 0 w b h0]
      simp
    refine ⟨hmem, w, tags, a, b, hpl, hwr', by rw [hent, lineEntry_text], hent, ?_, ?_, ?_,
      htext, ?_⟩
    · rw [hent]; exact b1
    · rw [hent]; exact b2
    · rw [hent]; exact b3
    · rw [getMorphEntryMatch_eq _ i e w hentry htext (by rw [hent]; exact b1)
        (by rw [hent]; exact b2) (by rw [hent]; exact b3)]
      rw [hent, hattrs]

theorem parseMorphLines_safe_to_decode_witness :
    (parseLoop unsortedLines).entries[2]? = some ⟨4, 1, 0, 0, 0⟩ ∧
    (entryLines unsortedLines)[2]? = some (ascii "a\tnoun") ∧
    ∃ w tags a b, parseLine (ascii "a\tnoun") = some (w, tags) ∧
      (parseLoop unsortedLines).written = a ++ (w ++ [0]) ++ b ∧
      (⟨4, 1, 0, 0, 0⟩ : morphDbEntry).text = a.length ∧
      (⟨4, 1, 0, 0, 0⟩ : morphDbEntry) = lineEntry a.length tags ∧
      (⟨4, 1, 0, 0, 0⟩ : morphDbEntry).pos ≤ 17 ∧ (⟨4, 1, 0, 0, 0⟩ : morphDbEntry).number ≤ 2 ∧
      (⟨4, 1, 0, 0, 0⟩ : morphDbEntry).case_ ≤ 11 ∧
      getMorphEntryText (builtState unsortedLines) 2 = some w ∧
      getMorphEntryMatch (builtState unsortedLines) 2
        = some { Text := w, Attributes := recognisedAttributes tags } :=
  ⟨by decide, by decide,
    ((parseMorphLines_safe_to_decode unsortedLines (by decide) (by decide)).2 2 ⟨4, 1, 0, 0, 0⟩
      (ascii "a\tnoun") (by decide) (by decide)).2⟩

theorem Split_prefix_exact (sep : Nat) (r : GoString) :
    ∀ w : GoString, sep ∉ w → Split sep (w ++ sep :: r) = w :: Split sep r := by
  intro w
  induction w with
  | nil => intro _; simp [Split]
  | cons c w ih =>
    intro hw
    have hc : c ≠ sep := fun e => hw (by simp [e])
    have := ih (fun hm => hw (List.mem_cons_of_mem _ hm))
    simp [Split, hc, this]

theorem hugeWord_length : hugeWord.length = 2 ^ 32 - 1 := by
  unfold hugeWord
  rw [List.length_replicate]

theorem hugeWord_mem {b : Nat} (h : b ∈ hugeWord) : b = 97 := by
  unfold hugeWord at h
  exact (List.mem_replicate.1 h).2

theorem parseLoop_two_words_wrap (w : GoString) (h9 : 9 ∉ w) (h0 : 0 ∉ w)
    (hw : w ≠ ascii "b") (hlen : uint32 (w.length + 1) = 0) :
    lineRecords [w ++ ascii "\tnoun", ascii "b\tnoun"]
      = [(w, ascii "noun"), (ascii "b", ascii "noun")] ∧
    (parseLoop [w ++ ascii "\tnoun", ascii "b\tnoun"]).written = w ++ [0] ++ [98, 0] ∧
    (parseLoop [w ++ ascii "\tnoun", ascii "b\tnoun"]).entries
      = [⟨0, 1, 0, 0, 0⟩, ⟨0, 1, 0, 0, 0⟩] ∧
    entryLines [w ++ ascii "\tnoun", ascii "b\tnoun"]
      = [w ++ ascii "\tnoun", ascii "b\tnoun"] ∧
    getMorphEntryText (builtState [w ++ ascii "\tnoun", ascii "b\tnoun"]) 1 = some w := by
  have hl1 : parseLine (w ++ ascii "\tnoun") = some (w, ascii "noun") := by
    have hsplit : Split 9 (w ++ ascii "\tnoun") = w :: Split 9 (ascii "noun") :=
      Split_prefix_exact 9 (ascii "noun") w h9
    have hs2 : Split 9 (ascii "noun") = [ascii "noun"] := by decide
    unfold parseLine
    rw [hsplit, hs2]
  have hl2 : parseLine (ascii "b\tnoun") = some (ascii "b", ascii "noun") := by decide
  have hentry : lineEntry 0 (ascii "noun") = ⟨0, 1, 0, 0, 0⟩ := by decide
  have hne : ¬ w ++ [0] = [] := by simp
  have hne2 : ¬ ascii "b" ++ [0] = w ++ [0] := by
    intro h
    exact hw (List.append_cancel_right h).symm
  have hlen' : uint32 ((w ++ [0]).length) = 0 := by
    rw [List.length_append]; exact hlen
  have hstep1 : parseStep parseInit (w ++ ascii "\tnoun")
      = { prevText := w ++ [0], prevEntries := [⟨0, 1, 0, 0, 0⟩], prevTsize := 0,
          tsize := 0, esize := 8, entries := [⟨0, 1, 0, 0, 0⟩], written := w ++ [0] } := by
    simp only [parseStep, hl1, addLine, startWord, parseInit, ne_eq, hne, not_false_eq_true,
      if_true, List.nil_append, Nat.zero_add, hlen', hentry, findMorphDbEntry,
      findMorphDbEntryFrom]
    rfl
  have hstep2 : parseStep
      { prevText := w ++ [0], prevEntries := [⟨0, 1, 0, 0, 0⟩], prevTsize := 0,
        tsize := 0, esize := 8, entries := [⟨0, 1, 0, 0, 0⟩], written := w ++ [0] }
      (ascii "b\tnoun")
      = { prevText := ascii "b" ++ [0], prevEntries := [⟨0, 1, 0, 0, 0⟩], prevTsize := 0,
          tsize := 2, esize := 16, entries := [⟨0, 1, 0, 0, 0⟩, ⟨0, 1, 0, 0, 0⟩],
          written := w ++ [0] ++ [98, 0] } := by
    simp only [parseStep, hl2, addLine, startWord, ne_eq, hne2, not_false_eq_true, if_true,
      hentry, findMorphDbEntry, findMorphDbEntryFrom]
    rfl
  have hstate : parseLoop [w ++ ascii "\tnoun", ascii "b\tnoun"]
      = { prevText := ascii "b" ++ [0], prevEntries := [⟨0, 1, 0, 0, 0⟩], prevTsize := 0,
          tsize := 2, esize := 16, entries := [⟨0, 1, 0, 0, 0⟩, ⟨0, 1, 0, 0, 0⟩],
          written := w ++ [0] ++ [98, 0] } := by
    simp only [parseLoop, List.foldl_cons, List.foldl_nil, hstep1, hstep2]
  have hlines : entryLines [w ++ ascii "\tnoun", ascii "b\tnoun"]
      = [w ++ ascii "\tnoun", ascii "b\tnoun"] := by
    simp only [entryLines, List.foldl_cons, List.foldl_nil, parseStepTraced, hstep1, hstep2]
    simp [parseInit]
  refine ⟨by simp [lineRecords, hl1, hl2], by rw [hstate], by rw [hstate], hlines, ?_⟩
  unfold builtState
  rw [hstate]
  unfold getMorphEntryText
  simp only [MorphState.entries, Option.getD_some, List.getElem?_cons_succ,
    List.getElem?_cons_zero, Nat.zero_le, if_true, List.drop_zero, List.append_assoc,
    List.singleton_append, IndexByte_append 0 w [98, 0] h0]
  simp

/-- C17 as stated fails once the text blob reaches 2^32 bytes: of the two lines
with the words `hugeWord` (2^32 - 1 bytes, no 0x00) and "b", the second entry of
the table was appended on the line of "b" and gets the text offset
`uint32(2^32) = 0`, which is the start of `hugeWord`, not of "b";
`getMorphEntryText` returns `hugeWord` for it, not the word of its line, so the
table is not `SafeToDecode`. -/
theorem offset_wraps_on_huge_word :
    (∀ r ∈ lineRecords hugeLines, 0 ∉ r.1) ∧
    (parseLoop hugeLines).entries[1]? = some ⟨0, 1, 0, 0, 0⟩ ∧
    (entryLines hugeLines)[1]? = some (ascii "b\tnoun") ∧
    parseLine (ascii "b\tnoun") = some (ascii "b", ascii "noun") ∧
    getMorphEntryText (builtState hugeLines) 1 = some hugeWord ∧
    hugeWord ≠ ascii "b" ∧
    ¬ SafeToDecode hugeLines := by
  have h9 : 9 ∉ hugeWord := by
    intro h
    have := hugeWord_mem h
    omega
  have h0 : 0 ∉ hugeWord := by
    intro h
    have := hugeWord_mem h
    omega
  have hne : hugeWord ≠ ascii "b" := by
    intro h
    have hl := congrArg List.length h
    rw [hugeWord_length] at hl
    have h1 : (ascii "b").length = 1 := by decide
    rw [h1] at hl
    norm_num at hl
  have hlen : uint32 (hugeWord.length + 1) = 0 := by
    rw [hugeWord_length]
    unfold uint32
    norm_num
  obtain ⟨hrecs, _, hentries, hlines, htext⟩ :=
    parseLoop_two_words_wrap hugeWord h9 h0 hne hlen
  have hentries' : (parseLoop hugeLines).entries = [⟨0, 1, 0, 0, 0⟩, ⟨0, 1, 0, 0, 0⟩] :=
    hentries
  have hlines' : entryLines hugeLines = [hugeWord ++ ascii "\tnoun", ascii "b\tnoun"] := hlines
  have htext' : getMorphEntryText (builtState hugeLines) 1 = some hugeWord := htext
  have hl2 : parseLine (ascii "b\tnoun") = some (ascii "b", ascii "noun") := by decide
  have he1 : (parseLoop hugeLines).entries[1]? = some ⟨0, 1, 0, 0, 0⟩ := by
    rw [hentries']; rfl
  have hline1 : (entryLines hugeLines)[1]? = some (ascii "b\tnoun") := by
    rw [hlines']; rfl
  refine ⟨?_, he1, hline1, hl2, htext', hne, ?_⟩
  · intro r hr
    have hr' : r ∈ lineRecords [hugeWord ++ ascii "\tnoun", ascii "b\tnoun"] := hr
    rw [hrecs] at hr'
    rcases List.mem_cons.1 hr' with e | e
    · rw [e]; exact h0
    · simp only [List.mem_singleton] at e
      rw [e]; decide
  · intro hsafe
    obtain ⟨_, w, tags, a, b, hpl, _, _, _, _, _, _, hw, _⟩ :=
      hsafe.2 1 ⟨0, 1, 0, 0, 0⟩ (ascii "b\tnoun") he1 hline1
    rw [hl2] at hpl
    simp only [Option.some.injEq, Prod.mk.injEq] at hpl
    rw [htext', ← hpl.1] at hw
    exact hne (Option.some.inj hw)

/-! ## Dedup of the readings of a built table -/

theorem built_readings (lines : List GoString)
    (hnul : ∀ r ∈ lineRecords lines, 0 ∉ r.1)
    (ht : (parseLoop (sortStrings lines)).written.length < 2 ^ 32) :
    ∃ E T, BuildInv (lineRecords (sortStrings lines)) (parseLoop (sortStrings lines)) E T ∧
      (parseLoop (sortStrings lines)).entries.length = T.length ∧
      (∀ w, uint32 (wordOffset E w) = wordOffset E w) ∧
      ∀ (i : Nat) (p : GoString × morphDbEntry), T[i]? = some p →
        entryReading (builtState (sortStrings lines)) i
          = some (p.1, p.2.pos, p.2.number, p.2.case_) := by
  obtain ⟨E, T, hinv⟩ := parseLoop_inv lines
  have hwlen : (textBlob E).length < 2 ^ 32 := by rw [← hinv.written]; exact ht
  have hoff : ∀ w, uint32 (wordOffset E w) = wordOffset E w := by
    intro w
    exact Nat.mod_eq_of_lt (lt_of_le_of_lt (wordOffset_le E w) hwlen)
  refine ⟨E, T, hinv, by rw [hinv.entries, List.length_map], hoff, ?_⟩
  intro i p hi
  have hpT : p ∈ T := List.mem_iff_getElem?.2 ⟨i, hi⟩
  obtain ⟨tags, hrec, hp2⟩ := hinv.sound p hpT
  rw [hoff] at hp2
  have hst : builtState (sortStrings lines)
      = { morphText := textBlob E, morphEntries := some (T.map Prod.snd) } := by
    unfold builtState
    rw [hinv.written, hinv.entries]
  have hentry : (MorphState.entries (builtState (sortStrings lines)))[i]? = some p.2 := by
    rw [hst]
    simp [MorphState.entries, List.getElem?_map, hi]
  have hwE : p.1 ∈ E := (hinv.memE p.1).2 (List.mem_map.2 ⟨_, hrec, rfl⟩)
  have h0 : 0 ∉ p.1 := by
    obtain ⟨l, hl, hpl⟩ := mem_lineRecords_sort.1 hrec
    exact hnul (p.1, tags) (mem_lineRecords.2 ⟨l, hl, hpl⟩)
  have htext : getMorphEntryText (builtState (sortStrings lines)) i = some p.1 := by
    rw [hst]
    exact getMorphEntryText_built E (T.map Prod.snd) i p.2 p.1
      (by simp [List.getElem?_map, hi]) hwE h0 (by rw [hp2, lineEntry_text])
  unfold entryReading
  rw [hentry, htext]

/-- C5 (dedup, as amended): for a lexicon none of whose words holds a 0x00 byte
and whose text blob is shorter than 2^32 bytes, the entry table produced by the
build holds no two entries with the same (word text, pos, number, case), the
word text of an entry being what `getMorphEntryText` decodes at its offset;
every entry has the reading of a line of the lexicon and every line holding a
tab has its reading in the table; and when the lower-cased lexicon consists of
the lines "дом<TAB>noun,sing,nomn", "дом<TAB>noun,sing,accs",
"дом<TAB>noun,sing,nomn" in any order, the blob is "дом\x00" and the table is
exactly the two entries (noun, sing, accs) and (noun, sing, nomn) of "дом". -/
theorem build_dedup (ToLower : GoString → GoString) (content : GoString)
    (hnul : ∀ r ∈ lineRecords (Split 10 (ToLower content)), 0 ∉ r.1)
    (ht : (parseLoop (buildLines ToLower content)).written.length < 2 ^ 32) :
    (tableReadings (builtState (buildLines ToLower content))).Nodup ∧
    (∀ i, i < (parseLoop (buildLines ToLower content)).entries.length →
      ∃ l ∈ Split 10 (ToLower content), ∃ w tags, parseLine l = some (w, tags) ∧
        entryReading (builtState (buildLines ToLower content)) i
          = some (lineReading w tags)) ∧
    (∀ l ∈ Split 10 (ToLower content), ∀ w tags, parseLine l = some (w, tags) →
      some (lineReading w tags) ∈ tableReadings (builtState (buildLines ToLower content))) ∧
    ((Split 10 (ToLower content)).Perm [domNomnLine, domAccsLine, domNomnLine] →
      (parseLoop (buildLines ToLower content)).written = dom ++ [0] ∧
      (parseLoop (buildLines ToLower content)).entries
        = [⟨0, 1, 1, 6, 0⟩, ⟨0, 1, 1, 1, 0⟩] ∧
      tableReadings (builtState (buildLines ToLower content))
        = [some (dom, 1, 1, 6), some (dom, 1, 1, 1)]) := by
  have hbl : buildLines ToLower content = sortStrings (Split 10 (ToLower content)) := rfl
  rw [hbl] at ht ⊢
  obtain ⟨E, T, hinv, hlen, hoff, hread⟩ := built_readings (Split 10 (ToLower content)) hnul ht
  have hn : (MorphState.entries (builtState (sortStrings (Split 10 (ToLower content))))).length
      = T.length := by
    simp only [MorphState.entries, builtState, Option.getD_some]
    exact hlen
  have htext : ∀ p ∈ T, p.2.text = wordOffset E p.1 := by
    intro p hp
    obtain ⟨tags, _, he⟩ := hinv.sound p hp
    rw [he, lineEntry_text, hoff]
  have hres : ∀ p ∈ T, p.2.reserved = 0 := by
    intro p hp
    obtain ⟨tags, _, he⟩ := hinv.sound p hp
    rw [he, lineEntry_reserved]
  have hfields : ∀ off tags,
      ((lineEntry off tags).pos, (lineEntry off tags).number, (lineEntry off tags).case_)
        = ((lineEntry 0 tags).pos, (lineEntry 0 tags).number, (lineEntry 0 tags).case_) := by
    intro off tags
    rw [lineEntry_eq off tags]
  refine ⟨?_, ?_, ?_, ?_⟩
  · unfold tableReadings
    rw [hn]
    apply List.Nodup.map_on _ (List.nodup_range T.length)
    intro i hi j hj hij
    have hiT : i < T.length := List.mem_range.1 hi
    have hjT : j < T.length := List.mem_range.1 hj
    rw [hread i T[i] (List.getElem?_eq_getElem hiT),
      hread j T[j] (List.getElem?_eq_getElem hjT)] at hij
    simp only [Option.some.injEq, Prod.mk.injEq] at hij
    obtain ⟨h1, h2, h3, h4⟩ := hij
    have hpi : T[i] ∈ T := List.getElem_mem _
    have hpj : T[j] ∈ T := List.getElem_mem _
    have h5 : T[i].2.text = T[j].2.text := by rw [htext _ hpi, htext _ hpj, h1]
    have h6 : T[i].2.reserved = T[j].2.reserved := by rw [hres _ hpi, hres _ hpj]
    have heq : T[i] = T[j] := by
      generalize T[i] = x at h1 h2 h3 h4 h5 h6
      generalize T[j] = y at h1 h2 h3 h4 h5 h6
      obtain ⟨xw, xe⟩ := x
      obtain ⟨yw, ye⟩ := y
      cases xe
      cases ye
      simp only [Prod.mk.injEq, morphDbEntry.mk.injEq] at *
      exact ⟨h1, h5, h2, h3, h4, h6⟩
    exact (List.Nodup.getElem_inj_iff hinv.nodupT).1 heq
  · intro i hi
    have hiT : i < T.length := by rw [← hlen]; exact hi
    obtain ⟨tags, hrec, he⟩ := hinv.sound T[i] (List.getElem_mem _)
    obtain ⟨l, hl, hpl⟩ := mem_lineRecords_sort.1 hrec
    refine ⟨l, hl, T[i].1, tags, hpl, ?_⟩
    rw [hread i T[i] (List.getElem?_eq_getElem hiT)]
    unfold lineReading
    have := hfields (uint32 (wordOffset E T[i].1)) tags
    rw [← he] at this
    simp only [Prod.mk.injEq] at this
    rw [this.1, this.2.1, this.2.2]
  · intro l hl w tags hp
    have hmem := hinv.complete (w, tags) (mem_lineRecords_sort.2 ⟨l, hl, hp⟩)
    obtain ⟨i, hiT, hTi⟩ := List.getElem_of_mem hmem
    unfold tableReadings
    rw [hn, List.mem_map]
    refine ⟨i, List.mem_range.2 hiT, ?_⟩
    rw [hread i _ (by rw [List.getElem?_eq_getElem hiT, hTi])]
    unfold lineReading
    have := hfields (uint32 (wordOffset E w)) tags
    simp only [Prod.mk.injEq] at this
    simp only []
    rw [this.1, this.2.1, this.2.2]
  · intro hperm
    rw [sortStrings_eq_of_perm hperm]
    decide

theorem build_dedup_witness :
    (tableReadings (builtState (buildLines asciiToLower domLexicon))).Nodup ∧
    (parseLoop (buildLines asciiToLower domLexicon)).written = dom ++ [0] ∧
    (parseLoop (buildLines asciiToLower domLexicon)).entries
      = [⟨0, 1, 1, 6, 0⟩, ⟨0, 1, 1, 1, 0⟩] ∧
    tableReadings (builtState (buildLines asciiToLower domLexicon))
      = [some (dom, 1, 1, 6), some (dom, 1, 1, 1)] :=
  ⟨(build_dedup asciiToLower domLexicon (by decide) (by decide)).1,
    (build_dedup asciiToLower domLexicon (by decide) (by decide)).2.2.2 (by decide)⟩

/-- C5 as stated fails on a word holding a 0x00 byte: the lexicon with the lines
"a<TAB>noun" and "a\x00b<TAB>noun" builds the blob "a\x00b\x00a\x00" and two
entries, at the offsets 0 and 4, and both have the word text "a" and the
attributes (noun, none, none): the same (word text, pos, number, case) twice. -/
theorem dedup_fails_on_nul_word :
    (parseLoop (buildLines asciiToLower nulPairLexicon)).written = [97, 0, 98, 0, 97, 0] ∧
    (parseLoop (buildLines asciiToLower nulPairLexicon)).entries
      = [⟨0, 1, 0, 0, 0⟩, ⟨4, 1, 0, 0, 0⟩] ∧
    tableReadings (builtState (buildLines asciiToLower nulPairLexicon))
      = [some ([97], 1, 0, 0), some ([97], 1, 0, 0)] ∧
    ¬ (tableReadings (builtState (buildLines asciiToLower nulPairLexicon))).Nodup := by
  decide

end Morph
